import Mathlib

/-!
Verification of the kairos-trie core: a binary Patricia-style Merkle trie
keyed by 256-bit hashes, with a prover-side snapshot builder and a
verifier-side snapshot replay.

The development shallowly embeds the canonical core of the source tree:
`src/transaction.rs`, `src/transaction/nodes.rs`, `src/stored.rs`,
`src/stored/merkle.rs`, `src/stored/memory_db.rs` and `src/hash.rs`.

Conventions of the embedding:
* Machine integers (`u32`, `usize`) are `Nat` with explicit `% 2 ^ 32`
  (or `% 2 ^ 64`) at the places where the source performs a cast or where
  release-mode wrapping arithmetic matters.
* A 256-bit `KeyHash` is a list of eight 32-bit words (little-endian word
  order, as in the source).
* The cryptographic digest is modelled symbolically: a `NodeHash` is the
  byte stream that was fed to the hasher.  Byte equality is the only
  observable relation on digests (spec section 3), and the concrete hash
  function is an out-of-scope collaborator, so every theorem about hash
  equality holds for the symbolic digest exactly when it holds for any
  fixed digest function applied to the modelled input stream.
* Fallible Rust code returns `Except String`; Rust panics inside modelled
  code paths are represented as `Except.error` with a recognisable
  message; loops are modelled with an explicit fuel parameter, and
  exhausted fuel yields the distinguished error `outOfFuel`.
* Rust slice indexing which the source only ever exercises in bounds is
  modelled with `getD` defaults; all general theorems carry the
  corresponding well-formedness hypotheses.
-/

/-- Distinguished error used by the model for exhausted recursion fuel.
No modelled source error path produces this string. -/
def outOfFuel : String := "model: out of fuel"

/-- Wrapping subtraction of 1 on `usize` (used for `word_idx.wrapping_sub(1)`). -/
def usizeWrapSub1 (n : Nat) : Nat := if n = 0 then 2 ^ 64 - 1 else n - 1

/-- Shift-left on `u32` with release-mode semantics: the shift amount is
taken mod 32 and the result is truncated to 32 bits. -/
def u32Shl (a s : Nat) : Nat := (a <<< (s % 32)) % 2 ^ 32

/-- Fuel-indexed helper computing the number of trailing zero bits. -/
def tzAux : Nat → Nat → Nat
  | 0, _ => 0
  | fuel + 1, n => if n % 2 = 1 then 0 else tzAux fuel (n / 2) + 1

/-- Model of `u32::trailing_zeros`: 32 for zero, otherwise the index of the
least significant set bit. -/
def trailingZeros32 (n : Nat) : Nat := tzAux 32 n

/-- Little-endian byte rendering of a `u32` (`to_le_bytes`). -/
def u32LeBytes (w : Nat) : List Nat :=
  [w % 256, w / 2 ^ 8 % 256, w / 2 ^ 16 % 256, w / 2 ^ 24 % 256]

/-- A `KeyHash` is eight `u32` words in little-endian word order
(`KeyHash(pub [u32; 8])` in `src/lib.rs`). -/
abbrev KeyHash := List Nat

/-- Model of `KeyHash::to_bytes`: each word contributes its four
little-endian bytes in word order. -/
def keyHashToBytes (k : KeyHash) : List Nat := (k.map u32LeBytes).flatten

/-- A node digest.  Modelled symbolically as the byte stream hashed to
produce it; byte equality is the only observable relation (spec section 3). -/
abbrev NodeHash := List Nat

/-- State of the modelled `PortableHasher`: the bytes absorbed since the
last reset. -/
abbrev HasherState := List Nat

/-- Model of `PortableUpdate::portable_update`: absorb bytes. -/
def portableUpdate (h : HasherState) (data : List Nat) : HasherState := h ++ data

/-- Model of `PortableHasher::finalize_reset`: return the digest of the
absorbed stream and reset the hasher to its initial state, atomically. -/
def finalizeReset (h : HasherState) : NodeHash × HasherState := (h, [])

/-- Model of `BranchMask` (`src/transaction/nodes.rs`).  The `left_prefix`
field is called `left_prefix32` here for technical naming reasons. -/
structure BranchMask where
  bit_idx : Nat
  left_prefix32 : Nat
  deriving DecidableEq, Repr

namespace BranchMask

/-- Model of `BranchMask::new_inner`. -/
def new_inner (word_idx a diff : Nat) : BranchMask :=
  let relative_bit_idx := trailingZeros32 diff
  let bit_idx := word_idx * 32 + relative_bit_idx
  let prefix_mask := u32Shl 1 relative_bit_idx - 1
  { bit_idx := bit_idx, left_prefix32 := a &&& prefix_mask }

/-- Model of `BranchMask::new`. -/
def new (word_idx a b : Nat) : BranchMask := new_inner word_idx a (a ^^^ b)

/-- Model of `BranchMask::new_with_mask`. -/
def new_with_mask (word_idx a b prefix_mask : Nat) : BranchMask :=
  new_inner word_idx a ((a ^^^ b) &&& prefix_mask)

/-- Model of `BranchMask::relative_bit_idx`. -/
def relative_bit_idx (m : BranchMask) : Nat := m.bit_idx % 32

/-- Model of `BranchMask::word_idx`. -/
def word_idx (m : BranchMask) : Nat := m.bit_idx / 32

/-- Model of `BranchMask::discriminant_bit_mask`. -/
def discriminant_bit_mask (m : BranchMask) : Nat := u32Shl 1 m.relative_bit_idx

/-- Model of `BranchMask::right_prefix`. -/
def right_prefix32 (m : BranchMask) : Nat := m.left_prefix32 ||| m.discriminant_bit_mask

/-- Model of `BranchMask::prefix_discriminant_mask`. -/
def prefix_discriminant_mask (m : BranchMask) : Nat :=
  if m.relative_bit_idx = 31 then 2 ^ 32 - 1 else u32Shl 1 (m.relative_bit_idx + 1) - 1

/-- Model of `BranchMask::prefix_mask`. -/
def prefix_mask (m : BranchMask) : Nat := m.prefix_discriminant_mask ^^^ m.discriminant_bit_mask

/-- Model of `BranchMask::is_left_descendant`. -/
def is_left_descendant (m : BranchMask) (hash_segment : Nat) : Bool :=
  hash_segment &&& m.prefix_discriminant_mask == m.left_prefix32

/-- Model of `BranchMask::is_right_descendant`. -/
def is_right_descendant (m : BranchMask) (hash_segment : Nat) : Bool :=
  hash_segment &&& m.prefix_discriminant_mask == m.right_prefix32

end BranchMask

/-- Model of `Leaf<V>`. -/
structure Leaf (V : Type) where
  key_hash : KeyHash
  value : V
  deriving DecidableEq, Repr

/-- Model of `Branch<NR>`.  The `prefix` field is called `prefixWords`
here for technical naming reasons. -/
structure Branch (NR : Type) where
  left : NR
  right : NR
  mask : BranchMask
  prior_word : Nat
  prefixWords : List Nat
  deriving DecidableEq, Repr

/-- Model of the unmodified `Node<B, L>`. -/
inductive Node (B L : Type) where
  | Branch (b : B)
  | Leaf (l : L)
  deriving DecidableEq, Repr

/-- Model of `NodeRef<V>`.  The fields of a modified branch are inlined
into the `ModBranch` constructor so that the type is a plain (non-nested)
inductive; `Branch` records are used for the stored and database forms. -/
inductive NodeRef (V : Type) where
  | ModBranch (left right : NodeRef V) (mask : BranchMask) (prior_word : Nat)
      (prefixWords : List Nat)
  | ModLeaf (key_hash : KeyHash) (value : V)
  | Stored (idx : Nat)
  deriving DecidableEq, Repr

/-- Model of `NodeRef::temp_null_stored`, the transient
`Stored(u32::MAX)` placeholder. -/
def NodeRef.temp_null_stored {V : Type} : NodeRef V := NodeRef.Stored (2 ^ 32 - 1)

/-- Model of `TrieRoot<T>`. -/
inductive TrieRoot (T : Type) where
  | Empty
  | Node (t : T)
  deriving DecidableEq, Repr

/-- Model of `KeyPositionAdjacent`. -/
inductive KeyPositionAdjacent where
  | PrefixOfWord (word_idx : Nat)
  | PriorWord (word_idx : Nat)
  | PrefixVec (word_idx : Nat)
  deriving DecidableEq, Repr

/-- Model of `KeyPosition`. -/
inductive KeyPosition where
  | Adjacent (p : KeyPositionAdjacent)
  | Right
  | Left
  deriving DecidableEq, Repr

/-- First index at which the branch prefix disagrees with the
corresponding key word; returns the absolute key word index.  This models
the `iter::zip(prefix, key.iter().enumerate().skip(offset)).find(..)`
scan in `Branch::key_position`: the zip is over the prefix and the key
suffix starting at `offset`, and `i` tracks the absolute index. -/
def prefixMismatch : List Nat → List Nat → Nat → Option Nat
  | [], _, _ => none
  | _, [], _ => none
  | b :: bs, k :: ks, i => if b ≠ k then some i else prefixMismatch bs ks (i + 1)

/-- Model of `Branch::key_position` (`src/transaction/nodes.rs` lines
313-350), taking the branch fields individually so that it applies to
modified branches, stored branches and database branches alike.  The
indexing `key_hash.0[word_idx]` is modelled with a `getD` default; it is
in bounds whenever `mask.word_idx < 8` and the key has eight words. -/
def key_position (mask : BranchMask) (prior_word : Nat) (prefixWords : List Nat)
    (key : KeyHash) : KeyPosition :=
  let word_idx := mask.bit_idx / 32
  let prefix_offset := word_idx - (prefixWords.length + 1)
  match prefixMismatch prefixWords (key.drop prefix_offset) prefix_offset with
  | some idx => KeyPosition.Adjacent (KeyPositionAdjacent.PrefixVec idx)
  | none =>
    let prior_word_idx := usizeWrapSub1 word_idx
    let prior := ((key.get? prior_word_idx).getD 0)
    if prior_word ≠ prior then
      KeyPosition.Adjacent (KeyPositionAdjacent.PriorWord prior_word_idx)
    else
      let hash_segment := (key.get? word_idx).getD 0
      if mask.is_left_descendant hash_segment then KeyPosition.Left
      else if mask.is_right_descendant hash_segment then KeyPosition.Right
      else KeyPosition.Adjacent (KeyPositionAdjacent.PrefixOfWord word_idx)

/-- Model of `Branch::key_position` on a `Branch` record. -/
def Branch.keyPositionOf {NR : Type} (b : Branch NR) (key : KeyHash) : KeyPosition :=
  key_position b.mask b.prior_word b.prefixWords key

/-- First word index (scanning from index base `i`) at which two key word
lists disagree, with the two disagreeing words.  Models the
`iter::zip(new, old).enumerate().skip(start).find(..)` scan in
`Branch::new_from_leafs`; the caller passes the zipped lists already
dropped to `start` and `i = start`. -/
def findDiffWord : List (Nat × Nat) → Nat → Option (Nat × Nat × Nat)
  | [], _ => none
  | (a, b) :: rest, i => if a ≠ b then some (i, a, b) else findDiffWord rest (i + 1)

/-- Model of `Branch::new_from_leafs` (`src/transaction/nodes.rs` lines
528-586).  `old_leaf` is the leaf record behind `old_ref` (the `AsRef`
view), and `old_ref` is its `Into<NodeRef>` image (a `ModLeaf` or a
`Stored` index).  Returns the new branch and the flag telling whether the
new leaf became the right child; `none` models the `panic!` on equal
keys. -/
def new_from_leafs {V : Type} (prefix_start_idx : Nat) (old_leaf : Leaf V)
    (old_ref : NodeRef V) (new_key : KeyHash) (new_val : V) :
    Option (NodeRef V × Bool) :=
  match findDiffWord ((new_key.zip old_leaf.key_hash).drop prefix_start_idx)
      prefix_start_idx with
  | none => none
  | some (word_idx, a, _b) =>
    let prior_word_idx := word_idx - 1
    let pfx := (new_key.drop prefix_start_idx).take (prior_word_idx - prefix_start_idx)
    let prior_word := if word_idx = 0 then 0 else (new_key.get? prior_word_idx).getD 0
    let mask := BranchMask.new word_idx a _b
    if mask.is_left_descendant a then
      some (NodeRef.ModBranch (NodeRef.ModLeaf new_key new_val) old_ref mask prior_word pfx,
        false)
    else
      some (NodeRef.ModBranch old_ref (NodeRef.ModLeaf new_key new_val) mask prior_word pfx,
        true)

/-- Model of `Branch::new_adjacent_leaf_ret` (`src/transaction/nodes.rs`
lines 407-520), taking the fields of the old branch and returning the new
parent branch that replaces it.  The source first installs
`NodeRef::temp_null_stored()` in both child slots of the new parent and
then overwrites both with the new leaf and the boxed old branch; the
model performs the same case split and builds the final branch.  Rust
slice panics on the (unreachable for well-formed inputs) out-of-bounds
accesses are modelled by `getD` / truncating `drop`/`take`. -/
def new_adjacent_leaf {V : Type} (key_position : KeyPositionAdjacent)
    (left right : NodeRef V) (mask : BranchMask) (prior_word : Nat)
    (prefixWords : List Nat) (leaf_key : KeyHash) (leaf_val : V) : NodeRef V :=
  match key_position with
  | KeyPositionAdjacent.PrefixOfWord word_idx =>
    let branch_word := mask.left_prefix32
    let leaf_word := (leaf_key.get? word_idx).getD 0
    let mask2 := BranchMask.new_with_mask word_idx branch_word leaf_word mask.prefix_mask
    let old_branch : NodeRef V := NodeRef.ModBranch left right mask prior_word []
    if mask2.is_left_descendant leaf_word then
      NodeRef.ModBranch (NodeRef.ModLeaf leaf_key leaf_val) old_branch mask2 prior_word
        prefixWords
    else
      NodeRef.ModBranch old_branch (NodeRef.ModLeaf leaf_key leaf_val) mask2 prior_word
        prefixWords
  | KeyPositionAdjacent.PriorWord word_idx =>
    let branch_word := prior_word
    let leaf_word := (leaf_key.get? word_idx).getD 0
    let mask2 := BranchMask.new word_idx branch_word leaf_word
    let prior2 := (leaf_key.get? (usizeWrapSub1 word_idx)).getD 0
    let old_branch : NodeRef V := NodeRef.ModBranch left right mask prior_word []
    if mask2.is_left_descendant leaf_word then
      NodeRef.ModBranch (NodeRef.ModLeaf leaf_key leaf_val) old_branch mask2 prior2 prefixWords
    else
      NodeRef.ModBranch old_branch (NodeRef.ModLeaf leaf_key leaf_val) mask2 prior2 prefixWords
  | KeyPositionAdjacent.PrefixVec word_idx =>
    let prefix_offset := word_idx - (prefixWords.length + 1)
    let newPfxWords := (leaf_key.drop prefix_offset).take (word_idx - 1 - prefix_offset)
    let oldPfxWords := prefixWords.drop (word_idx + 1 - prefix_offset)
    let branch_word := prefixWords.getD (word_idx - prefix_offset) 0
    let leaf_word := (leaf_key.get? word_idx).getD 0
    let mask2 := BranchMask.new word_idx branch_word leaf_word
    let prior2 := (leaf_key.get? (usizeWrapSub1 word_idx)).getD 0
    let old_branch : NodeRef V := NodeRef.ModBranch left right mask prior_word oldPfxWords
    if mask2.is_left_descendant leaf_word then
      NodeRef.ModBranch (NodeRef.ModLeaf leaf_key leaf_val) old_branch mask2 prior2 newPfxWords
    else
      NodeRef.ModBranch old_branch (NodeRef.ModLeaf leaf_key leaf_val) mask2 prior2 newPfxWords

/-- Model of `Leaf::hash_leaf` (key bytes, then the portable hash of the
value); `vh` renders the portable hash of a value.  Returns the digest
and the hasher state after the `finalize_reset`. -/
def hash_leaf {V : Type} (vh : V → List Nat) (l : Leaf V) (hasher : HasherState) :
    NodeHash × HasherState :=
  let hasher := portableUpdate hasher (keyHashToBytes l.key_hash)
  let hasher := portableUpdate hasher (vh l.value)
  finalizeReset hasher

/-- Model of `Branch::hash_branch` with known child hashes, taking the
branch fields individually. -/
def hash_branch (mask : BranchMask) (prior_word : Nat) (prefixWords : List Nat)
    (hasher : HasherState) (left right : NodeHash) : NodeHash × HasherState :=
  let hasher := portableUpdate hasher left
  let hasher := portableUpdate hasher right
  let hasher := portableUpdate hasher (u32LeBytes mask.bit_idx)
  let hasher := portableUpdate hasher (u32LeBytes mask.left_prefix32)
  let hasher := portableUpdate hasher (u32LeBytes prior_word)
  let hasher := prefixWords.foldl (fun h word => portableUpdate h (u32LeBytes word)) hasher
  finalizeReset hasher

/-- The `Store` interface (`src/stored.rs`).  The state type `σ` makes the
interior mutability of the snapshot builder explicit: `get_node` returns
the (possibly grown) store state.  `calc_subtree_hash` is read-only in
both implementations, and neither implementation uses the hasher argument
of the Rust trait (the builder ignores it, the snapshot builds its own),
so the hasher is omitted here. -/
structure StoreIface (σ V : Type) where
  get_node : σ → Nat → Except String (Node (Branch Nat) (Leaf V) × σ)
  calc_subtree_hash : σ → Nat → Except String NodeHash

namespace Txn

/-- Model of the loop of `Transaction::get_stored_node`
(`src/transaction.rs` lines 197-231), including the second `get_node`
call the source performs after the loop breaks on a matching leaf. -/
def get_stored_node {σ V : Type} (S : StoreIface σ V) :
    Nat → σ → Nat → KeyHash → Except String (Option V × σ)
  | 0, _, _, _ => Except.error outOfFuel
  | fuel + 1, st, stored_idx, key_hash => do
    let (node, st) ← S.get_node st stored_idx
    match node with
    | Node.Branch branch =>
      match branch.keyPositionOf key_hash with
      | KeyPosition.Left => get_stored_node S fuel st branch.left key_hash
      | KeyPosition.Right => get_stored_node S fuel st branch.right key_hash
      | KeyPosition.Adjacent _ => Except.ok (none, st)
    | Node.Leaf leaf =>
      if leaf.key_hash = key_hash then do
        let (node2, st) ← S.get_node st stored_idx
        match node2 with
        | Node.Leaf leaf2 => Except.ok (some leaf2.value, st)
        | Node.Branch _ => Except.error "Prior loop only breaks on a leaf"
      else Except.ok (none, st)

/-- Model of `Transaction::get_node` (`src/transaction.rs` lines
170-195): descend the modified part of the trie, delegating to
`get_stored_node` at a stored reference. -/
def get_node {σ V : Type} (S : StoreIface σ V) (fuel : Nat) :
    σ → NodeRef V → KeyHash → Except String (Option V × σ)
  | st, NodeRef.ModBranch left right mask prior_word prefixWords, key_hash =>
    match key_position mask prior_word prefixWords key_hash with
    | KeyPosition.Left => get_node S fuel st left key_hash
    | KeyPosition.Right => get_node S fuel st right key_hash
    | KeyPosition.Adjacent _ => Except.ok (none, st)
  | st, NodeRef.ModLeaf leaf_key leaf_val, key_hash =>
    if leaf_key = key_hash then Except.ok (some leaf_val, st) else Except.ok (none, st)
  | st, NodeRef.Stored stored_idx, key_hash =>
    get_stored_node S fuel st stored_idx key_hash

/-- Model of `Transaction::get`. -/
def get {σ V : Type} (S : StoreIface σ V) (fuel : Nat) (st : σ)
    (root : TrieRoot (NodeRef V)) (key_hash : KeyHash) :
    Except String (Option V × σ) :=
  match root with
  | TrieRoot.Empty => Except.ok (none, st)
  | TrieRoot.Node node_ref => get_node S fuel st node_ref key_hash

/-- Model of the loop of `Transaction::insert_node` (`src/transaction.rs`
lines 249-344).  The in-place mutation through `&mut` references is
rendered as rebuilding the branch spine on the way back up; faulting a
stored node and continuing the loop is rendered as a recursive call on
the faulted node, which consumes one unit of fuel per loop iteration. -/
def insert_node {σ V : Type} (S : StoreIface σ V) :
    Nat → σ → NodeRef V → KeyHash → V → Except String (NodeRef V × σ)
  | 0, _, _, _, _ => Except.error outOfFuel
  | fuel + 1, st, node_ref, key_hash, value =>
    match node_ref with
    | NodeRef.ModBranch left right mask prior_word prefixWords =>
      match key_position mask prior_word prefixWords key_hash with
      | KeyPosition.Left => do
        let (left2, st) ← insert_node S fuel st left key_hash value
        Except.ok (NodeRef.ModBranch left2 right mask prior_word prefixWords, st)
      | KeyPosition.Right => do
        let (right2, st) ← insert_node S fuel st right key_hash value
        Except.ok (NodeRef.ModBranch left right2 mask prior_word prefixWords, st)
      | KeyPosition.Adjacent pos =>
        Except.ok
          (new_adjacent_leaf pos left right mask prior_word prefixWords key_hash value, st)
    | NodeRef.ModLeaf leaf_key leaf_val =>
      if leaf_key = key_hash then Except.ok (NodeRef.ModLeaf leaf_key value, st)
      else
        match new_from_leafs 0 (Leaf.mk leaf_key leaf_val)
            (NodeRef.ModLeaf leaf_key leaf_val) key_hash value with
        | some (new_branch, _) => Except.ok (new_branch, st)
        | none => Except.error "The keys are the same"
    | NodeRef.Stored stored_idx => do
      let (new_node, st) ← S.get_node st stored_idx
      match new_node with
      | Node.Branch new_branch =>
        insert_node S fuel st
          (NodeRef.ModBranch (NodeRef.Stored new_branch.left)
            (NodeRef.Stored new_branch.right) new_branch.mask new_branch.prior_word
            new_branch.prefixWords)
          key_hash value
      | Node.Leaf leaf =>
        if leaf.key_hash = key_hash then
          Except.ok (NodeRef.ModLeaf key_hash value, st)
        else
          match new_from_leafs 0 leaf (NodeRef.Stored stored_idx) key_hash value with
          | some (new_branch, _) => Except.ok (new_branch, st)
          | none => Except.error "The keys are the same"

/-- Model of `Transaction::insert` (`src/transaction.rs` lines 233-247). -/
def insert {σ V : Type} (S : StoreIface σ V) (fuel : Nat) (st : σ)
    (root : TrieRoot (NodeRef V)) (key_hash : KeyHash) (value : V) :
    Except String (TrieRoot (NodeRef V) × σ) :=
  match root with
  | TrieRoot.Empty => Except.ok (TrieRoot.Node (NodeRef.ModLeaf key_hash value), st)
  | TrieRoot.Node node_ref => do
    let (node2, st) ← insert_node S fuel st node_ref key_hash value
    Except.ok (TrieRoot.Node node2, st)

/-- Model of `Transaction::calc_root_hash_node` (`src/transaction.rs`
lines 105-158), generic over the modified-node callbacks, which thread an
accumulator `A` (the database for `commit`, nothing for
`calc_root_hash`).  The hasher state is threaded exactly as the single
`&mut` hasher of the source. -/
def calc_root_hash_node {σ V A : Type} (S : StoreIface σ V) (vh : V → List Nat)
    (on_modified_leaf : A → NodeHash → Leaf V → Except String A)
    (on_modified_branch :
      A → NodeHash → BranchMask → Nat → List Nat → NodeHash → NodeHash → Except String A)
    (st : σ) :
    NodeRef V → HasherState → A → Except String (NodeHash × HasherState × A)
  | NodeRef.ModBranch left right mask prior_word prefixWords, hasher, acc => do
    let (left_hash, hasher, acc) ←
      calc_root_hash_node S vh on_modified_leaf on_modified_branch st left hasher acc
    let (right_hash, hasher, acc) ←
      calc_root_hash_node S vh on_modified_leaf on_modified_branch st right hasher acc
    let (hash, hasher) := hash_branch mask prior_word prefixWords hasher left_hash right_hash
    let acc ← on_modified_branch acc hash mask prior_word prefixWords left_hash right_hash
    Except.ok (hash, hasher, acc)
  | NodeRef.ModLeaf leaf_key leaf_val, hasher, acc => do
    let (hash, hasher) := hash_leaf vh (Leaf.mk leaf_key leaf_val) hasher
    let acc ← on_modified_leaf acc hash (Leaf.mk leaf_key leaf_val)
    Except.ok (hash, hasher, acc)
  | NodeRef.Stored stored_idx, hasher, acc => do
    let hash ← S.calc_subtree_hash st stored_idx
    Except.ok (hash, hasher, acc)

/-- Model of `Transaction::calc_root_hash_inner`. -/
def calc_root_hash_inner {σ V A : Type} (S : StoreIface σ V) (vh : V → List Nat)
    (on_modified_leaf : A → NodeHash → Leaf V → Except String A)
    (on_modified_branch :
      A → NodeHash → BranchMask → Nat → List Nat → NodeHash → NodeHash → Except String A)
    (st : σ) (root : TrieRoot (NodeRef V)) (hasher : HasherState) (acc : A) :
    Except String (TrieRoot NodeHash × HasherState × A) :=
  match root with
  | TrieRoot.Empty => Except.ok (TrieRoot.Empty, hasher, acc)
  | TrieRoot.Node node_ref => do
    let (hash, hasher, acc) ←
      calc_root_hash_node S vh on_modified_leaf on_modified_branch st node_ref hasher acc
    Except.ok (TrieRoot.Node hash, hasher, acc)

/-- Model of `Transaction::calc_root_hash` (no persistence callbacks). -/
def calc_root_hash {σ V : Type} (S : StoreIface σ V) (vh : V → List Nat) (st : σ)
    (root : TrieRoot (NodeRef V)) (hasher : HasherState) :
    Except String (TrieRoot NodeHash) := do
  let (root_hash, _, _) ←
    calc_root_hash_inner S vh (fun a _ _ => Except.ok a) (fun a _ _ _ _ _ _ => Except.ok a)
      st root hasher ()
  Except.ok root_hash

end Txn

/-- Model of `Snapshot<V>` (`src/stored/merkle.rs`): three ordered
vectors addressed by one dense index space. -/
structure Snapshot (V : Type) where
  branches : List (Branch Nat)
  leaves : List (Leaf V)
  unvisited_nodes : List NodeHash
  deriving DecidableEq, Repr

namespace Snapshot

/-- Model of `Snapshot::root_node_idx` (`src/stored/merkle.rs` lines
31-57).  The `branches.len() as Idx - 1` cast-and-subtract is `u32`
arithmetic, modelled with wrapping. -/
def root_node_idx {V : Type} (s : Snapshot V) : Except String (TrieRoot Nat) :=
  match s.branches, s.leaves, s.unvisited_nodes with
  | [], [], [] => Except.ok TrieRoot.Empty
  | [_], [], [] => Except.ok (TrieRoot.Node 0)
  | [], [_], [] => Except.ok (TrieRoot.Node 0)
  | [], [], [_] => Except.ok (TrieRoot.Node 0)
  | branches, _, _ =>
    if branches.isEmpty then
      Except.error "Invalid snapshot: sizes do not form a valid root"
    else Except.ok (TrieRoot.Node ((branches.length % 2 ^ 32 + (2 ^ 32 - 1)) % 2 ^ 32))

/-- Model of `Snapshot::trie_root`. -/
def trie_root {V : Type} (s : Snapshot V) : Except String (TrieRoot (NodeRef V)) := do
  match ← s.root_node_idx with
  | TrieRoot.Node idx => Except.ok (TrieRoot.Node (NodeRef.Stored idx))
  | TrieRoot.Empty => Except.ok TrieRoot.Empty

/-- Model of `Store::calc_subtree_hash` for `Snapshot`
(`src/stored/merkle.rs` lines 83-109).  The unguarded Rust recursion is
modelled with fuel; exhausted fuel returns the distinguished `outOfFuel`
error (the Rust code simply never returns on such inputs). -/
def calc_subtree_hash {V : Type} (vh : V → List Nat) (s : Snapshot V) :
    Nat → Nat → Except String NodeHash
  | 0, _ => Except.error outOfFuel
  | fuel + 1, idx =>
    let leaf_offset := s.branches.length
    let unvisited_offset := leaf_offset + s.leaves.length
    match s.branches.get? idx with
    | some branch => do
      let left ← calc_subtree_hash vh s fuel branch.left
      let right ← calc_subtree_hash vh s fuel branch.right
      Except.ok (hash_branch branch.mask branch.prior_word branch.prefixWords [] left right).1
    | none =>
      match s.leaves.get? (idx - leaf_offset) with
      | some leaf => Except.ok (hash_leaf vh leaf []).1
      | none =>
        match s.unvisited_nodes.get? (idx - unvisited_offset) with
        | some hash => Except.ok hash
        | none => Except.error "Invalid snapshot: node not found"

/-- Model of `Store::get_node` for `Snapshot` (`src/stored/merkle.rs`
lines 111-132). -/
def get_node {V : Type} (s : Snapshot V) (idx : Nat) :
    Except String (Node (Branch Nat) (Leaf V)) :=
  let leaf_offset := s.branches.length
  match s.branches.get? idx with
  | some branch => Except.ok (Node.Branch branch)
  | none =>
    match s.leaves.get? (idx - leaf_offset) with
    | some leaf => Except.ok (Node.Leaf leaf)
    | none => Except.error "Invalid snapshot: no visited node at index"

/-- Model of `Snapshot::calc_root_hash`. -/
def calc_root_hash {V : Type} (vh : V → List Nat) (s : Snapshot V) :
    Except String (TrieRoot NodeHash) := do
  match ← s.root_node_idx with
  | TrieRoot.Node idx =>
    Except.ok (TrieRoot.Node (← calc_subtree_hash vh s (s.branches.length + 1) idx))
  | TrieRoot.Empty => Except.ok TrieRoot.Empty

end Snapshot

/-- The `Store` interface instance for a `Snapshot`.  The store is
stateless (`σ = Unit`).  The fuel `branches.length + 1` given to
`calc_subtree_hash` is sufficient for every snapshot whose branch
children in the branch region have smaller indices than their parent,
which is proved below for every snapshot a builder materializes. -/
def snapshotStore {V : Type} (vh : V → List Nat) (s : Snapshot V) : StoreIface Unit V where
  get_node := fun _ idx => do Except.ok (← s.get_node idx, ())
  calc_subtree_hash := fun _ idx => s.calc_subtree_hash vh (s.branches.length + 1) idx

/-- Model of `Transaction::from_snapshot` (`src/transaction.rs` lines
468-476), returning the current root of the opened transaction (the data
store of the transaction is the snapshot itself). -/
def from_snapshot {V : Type} (s : Snapshot V) : Except String (TrieRoot (NodeRef V)) :=
  s.trie_root

/-- Model of the database interface `DatabaseGet`/`DatabaseSet`
instantiated by `MemoryDb` (`src/stored/memory_db.rs`): a partial map
from node hashes to nodes whose branch children are named by hash. -/
abbrev DbModel (V : Type) := NodeHash → Option (Node (Branch NodeHash) (Leaf V))

/-- Model of `MemoryDb::set`: insert or overwrite. -/
def dbSet {V : Type} (db : DbModel V) (hash : NodeHash)
    (node : Node (Branch NodeHash) (Leaf V)) : DbModel V :=
  fun h => if h = hash then some node else db h

/-- Model of `SnapshotBuilder<Db, V>` (`src/stored/merkle.rs`): the
database plus the lazily grown arena of `(hash, Option<node>)` entries.
The `RefCell`/bump-arena interior mutability of the source is modelled by
explicit state passing. -/
structure SnapshotBuilder (V : Type) where
  db : DbModel V
  nodes : List (NodeHash × Option (Node (Branch Nat) (Leaf V)))

namespace SnapshotBuilder

/-- Model of `SnapshotBuilder::empty`. -/
def empty {V : Type} (db : DbModel V) : SnapshotBuilder V := { db := db, nodes := [] }

/-- Model of `SnapshotBuilder::with_root_hash`. -/
def with_root_hash {V : Type} (st : SnapshotBuilder V) (root_hash : NodeHash) :
    SnapshotBuilder V :=
  { st with nodes := st.nodes ++ [(root_hash, none)] }

/-- Model of `SnapshotBuilder::with_trie_root_hash`. -/
def with_trie_root_hash {V : Type} (st : SnapshotBuilder V) (root : TrieRoot NodeHash) :
    SnapshotBuilder V :=
  match root with
  | TrieRoot.Node hash => st.with_root_hash hash
  | TrieRoot.Empty => st

/-- Model of `SnapshotBuilder::trie_root`. -/
def trie_root {V : Type} (st : SnapshotBuilder V) : TrieRoot (NodeRef V) :=
  match st.nodes with
  | [] => TrieRoot.Empty
  | _ :: _ => TrieRoot.Node (NodeRef.Stored 0)

/-- Model of `Store::get_node` for `SnapshotBuilder` (`src/stored/merkle.rs`
lines 169-225): return the loaded node, or fault it in from the database,
appending the two children of a loaded branch as new unvisited entries
and rewriting the branch to point at them.  The `nodes.len() as Idx`
casts are `u32` casts, modelled with `% 2 ^ 32`. -/
def get_node {V : Type} (st : SnapshotBuilder V) (hash_idx : Nat) :
    Except String (Node (Branch Nat) (Leaf V) × SnapshotBuilder V) :=
  match st.nodes.get? hash_idx with
  | none => Except.error "Invalid snapshot: no node at index"
  | some (_, some node) => Except.ok (node, st)
  | some (hash, none) =>
    match st.db hash with
    | none => Except.error "Error getting hash from database"
    | some (Node.Branch b) =>
      let idx := st.nodes.length % 2 ^ 32
      let nodes2 := st.nodes ++ [(b.left, none), (b.right, none)]
      let node : Node (Branch Nat) (Leaf V) := Node.Branch
        { left := idx, right := (idx + 1) % 2 ^ 32, mask := b.mask,
          prior_word := b.prior_word, prefixWords := b.prefixWords }
      Except.ok (node, { st with nodes := nodes2.set hash_idx (hash, some node) })
    | some (Node.Leaf leaf) =>
      Except.ok (Node.Leaf leaf,
        { st with nodes := st.nodes.set hash_idx (hash, some (Node.Leaf leaf)) })

/-- Model of `Store::calc_subtree_hash` for `SnapshotBuilder`
(`src/stored/merkle.rs` lines 151-167): return the recorded hash without
loading. -/
def calc_subtree_hash {V : Type} (st : SnapshotBuilder V) (hash_idx : Nat) :
    Except String NodeHash :=
  match st.nodes.get? hash_idx with
  | some (hash, _) => Except.ok hash
  | none => Except.error "Invalid snapshot: no unvisited node at index"

end SnapshotBuilder

/-- The `Store` interface instance for a `SnapshotBuilder`; the state is
the builder itself. -/
def builderStore {V : Type} : StoreIface (SnapshotBuilder V) V where
  get_node := SnapshotBuilder.get_node
  calc_subtree_hash := fun st idx => st.calc_subtree_hash idx

/-- Model of `SnapshotBuilderFold` (`src/stored/merkle.rs` lines
299-336): the precomputed counts and the three output vectors. -/
structure SnapshotBuilderFold (V : Type) where
  branch_count : Nat
  leaf_count : Nat
  unvisited_count : Nat
  branches : List (Branch Nat)
  leaves : List (Leaf V)
  unvisited_nodes : List NodeHash
  deriving Repr

namespace SnapshotBuilderFold

/-- Model of `SnapshotBuilderFold::new`: count the loaded branches, the
loaded leaves and the unvisited entries of the arena.  The counters are
`u32`, so the totals are truncated. -/
def new {V : Type} (nodes : List (NodeHash × Option (Node (Branch Nat) (Leaf V)))) :
    SnapshotBuilderFold V :=
  { branch_count :=
      (nodes.countP (fun e => match e.2 with | some (Node.Branch _) => true | _ => false))
        % 2 ^ 32,
    leaf_count :=
      (nodes.countP (fun e => match e.2 with | some (Node.Leaf _) => true | _ => false))
        % 2 ^ 32,
    unvisited_count :=
      (nodes.countP (fun e => match e.2 with | none => true | _ => false)) % 2 ^ 32,
    branches := [], leaves := [], unvisited_nodes := [] }

/-- Model of `SnapshotBuilderFold::push_branch`. -/
def push_branch {V : Type} (s : SnapshotBuilderFold V) (branch : Branch Nat) :
    SnapshotBuilderFold V × Nat :=
  ({ s with branches := s.branches ++ [branch] }, s.branches.length % 2 ^ 32)

/-- Model of `SnapshotBuilderFold::push_leaf`. -/
def push_leaf {V : Type} (s : SnapshotBuilderFold V) (leaf : Leaf V) :
    SnapshotBuilderFold V × Nat :=
  ({ s with leaves := s.leaves ++ [leaf] },
    (s.branch_count + s.leaves.length % 2 ^ 32) % 2 ^ 32)

/-- Model of `SnapshotBuilderFold::push_unvisited`. -/
def push_unvisited {V : Type} (s : SnapshotBuilderFold V) (hash : NodeHash) :
    SnapshotBuilderFold V × Nat :=
  ({ s with unvisited_nodes := s.unvisited_nodes ++ [hash] },
    (s.branch_count + s.leaf_count + s.unvisited_nodes.length % 2 ^ 32) % 2 ^ 32)

/-- Model of `SnapshotBuilderFold::fold` (`src/stored/merkle.rs` lines
359-382): post-order renumbering of the arena into the dense snapshot
layout.  The unguarded recursion is modelled with fuel, and the Rust
index panic on a dangling arena index is modelled as `none`. -/
def fold {V : Type} (nodes : List (NodeHash × Option (Node (Branch Nat) (Leaf V)))) :
    Nat → SnapshotBuilderFold V → Nat → Option (SnapshotBuilderFold V × Nat)
  | 0, _, _ => none
  | fuel + 1, s, node_idx =>
    match nodes.get? node_idx with
    | none => none
    | some (_, some (Node.Branch branch)) => do
      let (s, left) ← fold nodes fuel s branch.left
      let (s, right) ← fold nodes fuel s branch.right
      some (s.push_branch
        { left := left, right := right, mask := branch.mask,
          prior_word := branch.prior_word, prefixWords := branch.prefixWords })
    | some (_, some (Node.Leaf leaf)) => some (s.push_leaf leaf)
    | some (hash, none) => some (s.push_unvisited hash)

/-- Model of `SnapshotBuilderFold::build`. -/
def build {V : Type} (s : SnapshotBuilderFold V) : Snapshot V :=
  { branches := s.branches, leaves := s.leaves, unvisited_nodes := s.unvisited_nodes }

end SnapshotBuilderFold

/-- Model of `SnapshotBuilder::build_initial_snapshot` (`src/stored/merkle.rs`
lines 269-297).  The fuel `nodes.length` bounds the recursion depth of the
fold, which descends along strictly increasing arena indices for every
builder state reachable through `get_node`; `none` models divergence or an
index panic on an unreachable malformed arena. -/
def SnapshotBuilder.build_initial_snapshot {V : Type} (st : SnapshotBuilder V) :
    Option (Snapshot V) :=
  if st.nodes.isEmpty then some { branches := [], leaves := [], unvisited_nodes := [] }
  else do
    let (s, _) ← SnapshotBuilderFold.fold st.nodes st.nodes.length
      (SnapshotBuilderFold.new st.nodes) 0
    some s.build

namespace Txn

/-- Model of `Transaction::commit` for a snapshot-builder transaction
(`src/transaction.rs` lines 32-63): the root-hash fold with callbacks
that `set` every modified branch and leaf into the database.  The
database is the accumulator; `MemoryDb::set` never fails. -/
def commit {V : Type} (vh : V → List Nat) (st : SnapshotBuilder V)
    (root : TrieRoot (NodeRef V)) (hasher : HasherState) :
    Except String (TrieRoot NodeHash × DbModel V) := do
  let (root_hash, _, db) ← calc_root_hash_inner builderStore vh
    (fun db hash leaf => Except.ok (dbSet db hash (Node.Leaf leaf)))
    (fun db hash mask prior_word prefixWords left right =>
      Except.ok (dbSet db hash (Node.Branch
        { left := left, right := right, mask := mask, prior_word := prior_word,
          prefixWords := prefixWords })))
    st root hasher st.db
  Except.ok (root_hash, db)

/-- Model of `Transaction::entry` immediately followed by
`Entry::insert` (`src/transaction.rs` lines 355-442 composed with lines
513-522, 638-680, 700-708).  The entry loop faults every visited stored
node into modified form; on a matching leaf the occupied entry replaces
the value, on a mismatching leaf the vacant entry splits via
`new_from_leafs`, and at the recorded adjacent position the vacant entry
splits via `new_adjacent_leaf_ret`. -/
def entry_insert_node {σ V : Type} (S : StoreIface σ V) :
    Nat → σ → NodeRef V → KeyHash → V → Except String (NodeRef V × σ)
  | 0, _, _, _, _ => Except.error outOfFuel
  | fuel + 1, st, node_ref, key_hash, value =>
    match node_ref with
    | NodeRef.ModBranch left right mask prior_word prefixWords =>
      match key_position mask prior_word prefixWords key_hash with
      | KeyPosition.Left => do
        let (left2, st) ← entry_insert_node S fuel st left key_hash value
        Except.ok (NodeRef.ModBranch left2 right mask prior_word prefixWords, st)
      | KeyPosition.Right => do
        let (right2, st) ← entry_insert_node S fuel st right key_hash value
        Except.ok (NodeRef.ModBranch left right2 mask prior_word prefixWords, st)
      | KeyPosition.Adjacent pos =>
        Except.ok
          (new_adjacent_leaf pos left right mask prior_word prefixWords key_hash value, st)
    | NodeRef.ModLeaf leaf_key leaf_val =>
      if leaf_key = key_hash then Except.ok (NodeRef.ModLeaf leaf_key value, st)
      else
        match new_from_leafs 0 (Leaf.mk leaf_key leaf_val)
            (NodeRef.ModLeaf leaf_key leaf_val) key_hash value with
        | some (new_branch, _) => Except.ok (new_branch, st)
        | none => Except.error "The keys are the same"
    | NodeRef.Stored stored_idx => do
      let (loaded_node, st) ← S.get_node st stored_idx
      match loaded_node with
      | Node.Branch branch =>
        entry_insert_node S fuel st
          (NodeRef.ModBranch (NodeRef.Stored branch.left) (NodeRef.Stored branch.right)
            branch.mask branch.prior_word branch.prefixWords)
          key_hash value
      | Node.Leaf leaf =>
        entry_insert_node S fuel st (NodeRef.ModLeaf leaf.key_hash leaf.value) key_hash value

/-- Model of `Transaction::entry` followed by `Entry::insert` at the
root, covering the `VacantEntryEmptyTrie` case. -/
def entry_insert {σ V : Type} (S : StoreIface σ V) (fuel : Nat) (st : σ)
    (root : TrieRoot (NodeRef V)) (key_hash : KeyHash) (value : V) :
    Except String (TrieRoot (NodeRef V) × σ) :=
  match root with
  | TrieRoot.Empty => Except.ok (TrieRoot.Node (NodeRef.ModLeaf key_hash value), st)
  | TrieRoot.Node node_ref => do
    let (node2, st) ← entry_insert_node S fuel st node_ref key_hash value
    Except.ok (TrieRoot.Node node2, st)

end Txn

/-- A get or insert operation of a transaction (the operations quantified
over by the prover-verifier agreement property). -/
inductive Op (V : Type) where
  | get (key_hash : KeyHash)
  | insert (key_hash : KeyHash) (value : V)
  deriving DecidableEq, Repr

/-- Run a sequence of operations against a store, threading the trie root
and the store state and collecting the result of every `get`. -/
def runOps {σ V : Type} (S : StoreIface σ V) (fuel : Nat) :
    List (Op V) → TrieRoot (NodeRef V) → σ →
    Except String (List (Option V) × TrieRoot (NodeRef V) × σ)
  | [], root, st => Except.ok ([], root, st)
  | Op.get key :: ops, root, st => do
    let (out, st) ← Txn.get S fuel st root key
    let (outs, root2, st2) ← runOps S fuel ops root st
    Except.ok (out :: outs, root2, st2)
  | Op.insert key value :: ops, root, st => do
    let (root2, st2) ← Txn.insert S fuel st root key value
    runOps S fuel ops root2 st2

/-- Modelled from the spec (section 4.2): the classifier description used
by claim C6, written from the specification wording rather than from the
code — it compares the prefix word-by-word against the trailing window of
the key (reporting the first differing word by its absolute index in the
key), then checks the prior word, then the discriminant word.  The word
index `word_idx - 1` of the prior-word report is `usize` arithmetic, as
in the data model. -/
def keyPositionSpec (mask : BranchMask) (prior_word : Nat) (prefixWords : List Nat)
    (key : KeyHash) : KeyPosition :=
  let w := mask.bit_idx / 32
  let off := w - (prefixWords.length + 1)
  match (List.range prefixWords.length).find?
      (fun i => decide (prefixWords.getD i 0 ≠ key.getD (off + i) 0)) with
  | some i => KeyPosition.Adjacent (KeyPositionAdjacent.PrefixVec (off + i))
  | none =>
    if prior_word ≠ (key.get? (usizeWrapSub1 w)).getD 0 then
      KeyPosition.Adjacent (KeyPositionAdjacent.PriorWord (usizeWrapSub1 w))
    else if mask.is_left_descendant (key.getD w 0) then KeyPosition.Left
    else if mask.is_right_descendant (key.getD w 0) then KeyPosition.Right
    else KeyPosition.Adjacent (KeyPositionAdjacent.PrefixOfWord w)

/-- The value `u32::MAX`, the reserved transient `Stored` sentinel. -/
def u32MAX : Nat := 2 ^ 32 - 1

/-- Whether a `Stored(u32::MAX)` sentinel is reachable in a modified
subtree. -/
def NodeRef.containsStoredMax {V : Type} : NodeRef V → Bool
  | NodeRef.ModBranch left right _ _ _ => left.containsStoredMax || right.containsStoredMax
  | NodeRef.ModLeaf _ _ => false
  | NodeRef.Stored idx => idx == u32MAX

/-- Whether a `Stored(u32::MAX)` sentinel is reachable from a root. -/
def TrieRoot.containsStoredMax {V : Type} : TrieRoot (NodeRef V) → Bool
  | TrieRoot.Empty => false
  | TrieRoot.Node node_ref => node_ref.containsStoredMax

/-- A store never hands out a branch whose child index is the
`Stored(u32::MAX)` sentinel.  Both real stores satisfy this whenever
their contents are within bounds; it is the hypothesis of the sentinel
claim. -/
def StoreNoMax {σ V : Type} (S : StoreIface σ V) : Prop :=
  ∀ st idx n st', S.get_node st idx = Except.ok (n, st') →
    match n with
    | Node.Branch b => b.left ≠ u32MAX ∧ b.right ≠ u32MAX
    | Node.Leaf _ => True

/-- The shape decision table of spec section 4.5 on the three vector
lengths of a snapshot. -/
def shapeTableOk {V : Type} (s : Snapshot V) : Prop :=
  (s.branches.length = 0 ∧ s.leaves.length = 0 ∧ s.unvisited_nodes.length = 0) ∨
  (s.branches.length = 0 ∧ s.leaves.length + s.unvisited_nodes.length = 1) ∨
  1 ≤ s.branches.length

/-- The literal structural invariant of claims C7 and C10: every left and
right index of a branch, in the dense index space, is strictly below the
index of the branch itself. -/
def childLtParent {V : Type} (s : Snapshot V) : Prop :=
  ∀ i b, s.branches.get? i = some b → b.left < i ∧ b.right < i

/-- Boolean form of `childLtParent` for concrete evaluation. -/
def childLtParentB {V : Type} (s : Snapshot V) : Bool :=
  (List.range s.branches.length).all (fun i =>
    match s.branches.get? i with
    | some b => decide (b.left < i) && decide (b.right < i)
    | none => true)

/-- The corrected structural invariant: a child index that names a branch
is strictly below the index of its parent branch (child indices naming
leaves or unvisited nodes lie above the whole branch region and are the
recursion-terminating cases). -/
def branchChildLtParent {V : Type} (s : Snapshot V) : Prop :=
  ∀ i b, s.branches.get? i = some b →
    (b.left < s.branches.length → b.left < i) ∧
    (b.right < s.branches.length → b.right < i)

/-- Termination of `Snapshot::calc_subtree_hash` at an index: some fuel
avoids the fuel error, and the result is stable for all larger fuel. -/
def calcTerminates {V : Type} (vh : V → List Nat) (s : Snapshot V) (idx : Nat) : Prop :=
  ∃ fuel, s.calc_subtree_hash vh fuel idx ≠ Except.error outOfFuel ∧
    ∀ m, fuel ≤ m → s.calc_subtree_hash vh m idx = s.calc_subtree_hash vh fuel idx

/-- Hash of a database node: branch children are already hashes, so the
node hash is a plain (non-recursive) function of the record. -/
def dbNodeHash {V : Type} (vh : V → List Nat) :
    Node (Branch NodeHash) (Leaf V) → NodeHash
  | Node.Branch b => (hash_branch b.mask b.prior_word b.prefixWords [] b.left b.right).1
  | Node.Leaf l => (hash_leaf vh l []).1

/-- A database satisfies its hashes: every stored node hashes to the key
under which it is stored.  This is the formal content of a database
containing the trie named by a root hash. -/
def DbConsistent {V : Type} (vh : V → List Nat) (db : DbModel V) : Prop :=
  ∀ h n, db h = some n → dbNodeHash vh n = h

/-- Builder states reachable from a seeded builder through `get_node`
(the only store operation that mutates the arena). -/
inductive BuilderReachable {V : Type} : SnapshotBuilder V → Prop
  | seeded (db : DbModel V) (root : TrieRoot NodeHash) :
      BuilderReachable ((SnapshotBuilder.empty db).with_trie_root_hash root)
  | step (st : SnapshotBuilder V) (idx : Nat) (n : Node (Branch Nat) (Leaf V))
      (st' : SnapshotBuilder V) : BuilderReachable st →
      SnapshotBuilder.get_node st idx = Except.ok (n, st') → BuilderReachable st'

/-- Bounds and pair structure of the builder arena: a loaded branch at
arena index `j` points at the consecutive pair of entries allocated for
its children, strictly above `j` and within the arena. -/
def arenaBounds {V : Type} (nodes : List (NodeHash × Option (Node (Branch Nat) (Leaf V)))) :
    Prop :=
  ∀ j h b, nodes.get? j = some (h, some (Node.Branch b)) →
    j < b.left ∧ b.right = b.left + 1 ∧ b.left + 1 < nodes.length

/-- Fuel-indexed post-order listing of the arena entries visited by the
snapshot fold starting at an entry. -/
def visitList {V : Type} (nodes : List (NodeHash × Option (Node (Branch Nat) (Leaf V)))) :
    Nat → Nat → Option (List Nat)
  | 0, _ => none
  | fuel + 1, j =>
    match nodes.get? j with
    | none => none
    | some (_, some (Node.Branch b)) => do
      let l ← visitList nodes fuel b.left
      let r ← visitList nodes fuel b.right
      some (l ++ r ++ [j])
    | some _ => some [j]

/-- The fold starting at the arena root visits every arena entry exactly
once: the visit list is a permutation of all arena indices. -/
def visitsAll {V : Type} (nodes : List (NodeHash × Option (Node (Branch Nat) (Leaf V)))) :
    Prop :=
  nodes = [] ∨
    ∃ l, visitList nodes nodes.length 0 = some l ∧ l.Perm (List.range nodes.length)

/-- Hash of an arena node, resolving the children of a loaded branch to
the hashes recorded at their arena entries. -/
def arenaNodeHash {V : Type} (vh : V → List Nat)
    (nodes : List (NodeHash × Option (Node (Branch Nat) (Leaf V)))) :
    Node (Branch Nat) (Leaf V) → NodeHash
  | Node.Branch b =>
    (hash_branch b.mask b.prior_word b.prefixWords []
      (((nodes.get? b.left).map Prod.fst).getD [])
      (((nodes.get? b.right).map Prod.fst).getD [])).1
  | Node.Leaf l => (hash_leaf vh l []).1

/-- Every loaded arena node hashes to the hash recorded at its entry. -/
def arenaHashAgree {V : Type} (vh : V → List Nat)
    (nodes : List (NodeHash × Option (Node (Branch Nat) (Leaf V)))) : Prop :=
  ∀ j h n, nodes.get? j = some (h, some n) → arenaNodeHash vh nodes n = h

/-- The standing structural invariant of a builder arena used by the
prover-verifier agreement proof.  The length bound reflects that the
dense `u32` index space is not exhausted. -/
def ArenaInv {V : Type} (st : SnapshotBuilder V) : Prop :=
  arenaBounds st.nodes ∧ visitsAll st.nodes ∧ st.nodes.length < 2 ^ 32

/-- Correspondence between an arena entry of the final builder state and
an index of the materialized snapshot: the nodes agree, branch children
correspond recursively, and snapshot branch children that are branches
sit strictly below their parent. -/
inductive Corr {V : Type} (nodes : List (NodeHash × Option (Node (Branch Nat) (Leaf V))))
    (snap : Snapshot V) : Nat → Nat → Prop
  | branch (j i : Nat) (h : NodeHash) (b bs : Branch Nat) :
      nodes.get? j = some (h, some (Node.Branch b)) →
      snap.branches.get? i = some bs →
      bs.mask = b.mask → bs.prior_word = b.prior_word → bs.prefixWords = b.prefixWords →
      Corr nodes snap b.left bs.left → Corr nodes snap b.right bs.right →
      (bs.left < snap.branches.length → bs.left < i) →
      (bs.right < snap.branches.length → bs.right < i) →
      Corr nodes snap j i
  | leaf (j i : Nat) (h : NodeHash) (lf : Leaf V) :
      nodes.get? j = some (h, some (Node.Leaf lf)) →
      snap.branches.length ≤ i →
      snap.leaves.get? (i - snap.branches.length) = some lf →
      Corr nodes snap j i
  | unvisited (j i : Nat) (h : NodeHash) :
      nodes.get? j = some (h, none) →
      snap.branches.length + snap.leaves.length ≤ i →
      snap.unvisited_nodes.get? (i - (snap.branches.length + snap.leaves.length)) = some h →
      Corr nodes snap j i

/-- Correspondence between a prover-side modified trie (stored indices
into the final builder arena) and a verifier-side modified trie (stored
indices into the materialized snapshot). -/
inductive RefCorr {V : Type} (nodes : List (NodeHash × Option (Node (Branch Nat) (Leaf V))))
    (snap : Snapshot V) : NodeRef V → NodeRef V → Prop
  | branch (left right left' right' : NodeRef V) (mask : BranchMask) (prior_word : Nat)
      (prefixWords : List Nat) :
      RefCorr nodes snap left left' → RefCorr nodes snap right right' →
      RefCorr nodes snap (NodeRef.ModBranch left right mask prior_word prefixWords)
        (NodeRef.ModBranch left' right' mask prior_word prefixWords)
  | leaf (key_hash : KeyHash) (value : V) :
      RefCorr nodes snap (NodeRef.ModLeaf key_hash value) (NodeRef.ModLeaf key_hash value)
  | stored (j i : Nat) : Corr nodes snap j i →
      RefCorr nodes snap (NodeRef.Stored j) (NodeRef.Stored i)

/-- Correspondence between prover-side and verifier-side trie roots. -/
inductive RootCorr {V : Type} (nodes : List (NodeHash × Option (Node (Branch Nat) (Leaf V))))
    (snap : Snapshot V) : TrieRoot (NodeRef V) → TrieRoot (NodeRef V) → Prop
  | empty : RootCorr nodes snap TrieRoot.Empty TrieRoot.Empty
  | node (t t' : NodeRef V) : RefCorr nodes snap t t' →
      RootCorr nodes snap (TrieRoot.Node t) (TrieRoot.Node t')

/-- The read-only view of a builder state as a store: `get_node` returns
already-loaded nodes without faulting.  A builder run is equivalent to a
run against the read-only view of its own final state (proved below);
this is the purification step of the agreement proof. -/
def pureBuilderStore {V : Type} (st : SnapshotBuilder V) : StoreIface Unit V where
  get_node := fun _ j =>
    match st.nodes.get? j with
    | some (_, some n) => Except.ok (n, ())
    | some (_, none) => Except.error "model: entry not loaded"
    | none => Except.error "Invalid snapshot: no node at index"
  calc_subtree_hash := fun _ j => st.calc_subtree_hash j

/-- Extension order on builder states: the arena only grows, entry hashes
are stable, and a loaded entry stays loaded with the same node. -/
def BuilderExt {V : Type} (st st' : SnapshotBuilder V) : Prop :=
  st.db = st'.db ∧ st.nodes.length ≤ st'.nodes.length ∧
  ∀ j e, st.nodes.get? j = some e →
    ∃ e', st'.nodes.get? j = some e' ∧ e'.1 = e.1 ∧ ∀ n, e.2 = some n → e'.2 = some n

/-- Example portable value hash used by the concrete instances: the value
is a single byte (the `u8` instance of `PortableHash`). -/
def exVh : Nat → List Nat := fun v => [v % 256]

/-- The empty snapshot, used as a store for runs that never touch a
stored node. -/
def exEmptySnapshot : Snapshot Nat := { branches := [], leaves := [], unvisited_nodes := [] }

/-- Store over the empty snapshot. -/
def exEmptyStore : StoreIface Unit Nat := snapshotStore exVh exEmptySnapshot

/-- Concrete keys of the failing insert/get round trip (claim C2).  The
first two keys share words 0-3 and split in word 4; the third splits in
word 1; the fourth matches the first two through word 2 and splits in
word 3, which exercises the `PriorWord` restructuring of a branch that
carries a non-empty prefix starting above word 0. -/
def exC2Key1 : KeyHash := [0, 1, 2, 3, 4, 0, 0, 0]

/-- Second key of the C2 scenario. -/
def exC2Key2 : KeyHash := [0, 1, 2, 3, 9, 0, 0, 0]

/-- Third key of the C2 scenario. -/
def exC2Key3 : KeyHash := [0, 7, 0, 0, 0, 0, 0, 0]

/-- Fourth key of the C2 scenario. -/
def exC2Key4 : KeyHash := [0, 1, 2, 8, 4, 0, 0, 0]

/-- The C2 run: four successful inserts into an initially empty trie,
followed by a get of each key. -/
def exC2Run : Except String (List (Option Nat) × TrieRoot (NodeRef Nat) × Unit) :=
  runOps exEmptyStore 99
    [Op.insert exC2Key1 1, Op.insert exC2Key2 2, Op.insert exC2Key3 3,
      Op.insert exC2Key4 4,
      Op.get exC2Key1, Op.get exC2Key2, Op.get exC2Key3, Op.get exC2Key4]
    TrieRoot.Empty ()

/-- Leaf with the even first word of the C7 example trie. -/
def exLeafA : Leaf Nat := { key_hash := [6, 0, 0, 0, 0, 0, 0, 0], value := 10 }

/-- Leaf with the odd first word of the C7 example trie. -/
def exLeafB : Leaf Nat := { key_hash := [5, 0, 0, 0, 0, 0, 0, 0], value := 11 }

/-- Hash of the first example leaf. -/
def exHashA : NodeHash := (hash_leaf exVh exLeafA []).1

/-- Hash of the second example leaf. -/
def exHashB : NodeHash := (hash_leaf exVh exLeafB []).1

/-- Mask of the example root branch, splitting the two keys at bit 0. -/
def exMaskAB : BranchMask := BranchMask.new 0 6 5

/-- The example root branch as stored in the database (children by hash;
the key with an even word 0 is the left descendant). -/
def exRootBranchDb : Branch NodeHash :=
  { left := exHashA, right := exHashB, mask := exMaskAB, prior_word := 0, prefixWords := [] }

/-- Hash of the example root branch. -/
def exHashRoot : NodeHash := (hash_branch exMaskAB 0 [] [] exHashA exHashB).1

/-- The example database: one branch over two leaves, hash-consistent. -/
def exDb : DbModel Nat := fun h =>
  if h = exHashRoot then some (Node.Branch exRootBranchDb)
  else if h = exHashA then some (Node.Leaf exLeafA)
  else if h = exHashB then some (Node.Leaf exLeafB)
  else none

/-- Builder seeded with the example root over the example database. -/
def exBuilder0 : SnapshotBuilder Nat := (SnapshotBuilder.empty exDb).with_root_hash exHashRoot

/-- A builder run faulting in the root branch and both leaves (the access
pattern of a `get` of either key). -/
def exBuilderRun : Except String (SnapshotBuilder Nat) := do
  let (_, st) ← SnapshotBuilder.get_node exBuilder0 0
  let (_, st) ← SnapshotBuilder.get_node st 1
  let (_, st) ← SnapshotBuilder.get_node st 2
  Except.ok st

/-- The snapshot materialized by the example builder run. -/
def exSnapRun : Option (Snapshot Nat) :=
  match exBuilderRun with
  | Except.ok st => st.build_initial_snapshot
  | Except.error _ => none

/-- The stored form of the example root branch after materialization:
children at dense indices 1 and 2. -/
def exBranchC7 : Branch Nat :=
  { left := 1, right := 2, mask := exMaskAB, prior_word := 0, prefixWords := [] }

/-- The materialized example snapshot, written out: one branch whose
children are the two leaves at dense indices 1 and 2. -/
def exSnapC7 : Snapshot Nat :=
  { branches := [exBranchC7], leaves := [exLeafA, exLeafB], unvisited_nodes := [] }

/-- A branch pointing at index 0 on both sides, placed at index 0. -/
def exBranchLoop : Branch Nat :=
  { left := 0, right := 0, mask := exMaskAB, prior_word := 0, prefixWords := [] }

/-- A snapshot that passes the open-time shape check but whose single
branch points at itself, so the subtree-hash recursion never terminates
(claim C10). -/
def exSnapLoop : Snapshot Nat :=
  { branches := [exBranchLoop], leaves := [], unvisited_nodes := [] }


/-- Apply a list of content-addressed writes to a database in order
(each write is a `MemoryDb::set`). -/
def applyWrites {V : Type} (db : DbModel V)
    (ws : List (NodeHash × Node (Branch NodeHash) (Leaf V))) : DbModel V :=
  ws.foldl (fun d w => dbSet d w.1 w.2) db

/-! Bit-level theory of the branch mask, and claim C4. -/


theorem tzAux_spec (fuel : Nat) : ∀ n, n ≠ 0 → n < 2 ^ fuel →
    n % 2 ^ tzAux fuel n = 0 ∧ n / 2 ^ tzAux fuel n % 2 = 1 ∧ tzAux fuel n < fuel := by
  induction fuel with
  | zero => intro n h0 h1; omega
  | succ fuel ih =>
    intro n h0 h1
    by_cases hodd : n % 2 = 1
    · refine ⟨?_, ?_, ?_⟩ <;> simp [tzAux, hodd, Nat.mod_one, Nat.div_one]
    · have hne : n / 2 ≠ 0 := by omega
      have hlt : n / 2 < 2 ^ fuel := by
        have h2 : (2 : Nat) ^ (fuel + 1) = 2 ^ fuel * 2 := by rw [pow_succ]
        omega
      obtain ⟨m0, m1, m2⟩ := ih (n / 2) hne hlt
      have ht : tzAux (fuel + 1) n = tzAux fuel (n / 2) + 1 := by
        simp [tzAux, hodd]
      refine ⟨?_, ?_, ?_⟩
      · rw [ht, pow_succ, Nat.mul_comm (2 ^ tzAux fuel (n / 2)) 2]
        have hn : n = 2 * (n / 2) := by omega
        nth_rewrite 1 [hn]
        rw [Nat.mul_mod_mul_left]
        omega
      · rw [ht, pow_succ, Nat.mul_comm (2 ^ tzAux fuel (n / 2)) 2, ← Nat.div_div_eq_div_mul]
        exact m1
      · omega

theorem testBit_false_of_low_zero {d t i : Nat} (h : d % 2 ^ t = 0) (hi : i < t) :
    d.testBit i = false := by
  obtain ⟨q, hq⟩ := Nat.dvd_of_mod_eq_zero h
  rw [Nat.testBit_to_div_mod]
  have hsplit : (2 : Nat) ^ t = 2 ^ i * 2 ^ (t - i) := by
    rw [← pow_add]; congr 1; omega
  have hd : d / 2 ^ i = 2 ^ (t - i) * q := by
    rw [hq, hsplit, Nat.mul_assoc, Nat.mul_div_cancel_left _ (Nat.pos_pow_of_pos i (by omega))]
  have heven : 2 ^ (t - i) * q % 2 = 0 := by
    have hti : t - i ≠ 0 := by omega
    obtain ⟨s, hs⟩ := Nat.exists_eq_succ_of_ne_zero hti
    rw [hs, pow_succ, Nat.mul_comm (2 ^ s) 2, Nat.mul_assoc, Nat.mul_mod_right]
  rw [hd]
  simp [heven]

theorem testBit_true_of_div_odd {d t : Nat} (h : d / 2 ^ t % 2 = 1) :
    d.testBit t = true := by
  rw [Nat.testBit_to_div_mod]
  simp [h]

theorem lor_two_pow_eq_add {x t : Nat} (h : x < 2 ^ t) : x ||| 2 ^ t = x + 2 ^ t := by
  apply Nat.eq_of_testBit_eq
  intro i
  rw [Nat.testBit_or]
  rcases lt_trichotomy i t with hi | hi | hi
  · rw [Nat.testBit_two_pow_of_ne (by omega)]
    rw [Bool.or_false, Nat.testBit_to_div_mod, Nat.testBit_to_div_mod]
    have hsplit : (2 : Nat) ^ t = 2 ^ i * 2 ^ (t - i) := by
      rw [← pow_add]; congr 1; omega
    have h1 : (x + 2 ^ t) / 2 ^ i = x / 2 ^ i + 2 ^ (t - i) := by
      rw [hsplit, Nat.add_mul_div_left _ _ (Nat.pos_pow_of_pos i (by omega))]
    have h2 : 2 ^ (t - i) % 2 = 0 := by
      have hti : t - i ≠ 0 := by omega
      obtain ⟨s, hs⟩ := Nat.exists_eq_succ_of_ne_zero hti
      rw [hs, pow_succ, Nat.mul_mod_left]
    rw [h1]
    congr 1
    apply propext
    omega
  · subst hi
    rw [Nat.testBit_two_pow_self, Bool.or_true]
    symm
    apply testBit_true_of_div_odd
    have h1 : (x + 2 ^ i) / 2 ^ i = 1 := by
      rw [Nat.add_div_right _ (Nat.pos_pow_of_pos i (by omega)), Nat.div_eq_of_lt h]
    rw [h1]
  · rw [Nat.testBit_two_pow_of_ne (by omega)]
    have hxi : x < 2 ^ i := lt_trans h (Nat.pow_lt_pow_right (by omega) hi)
    rw [Nat.testBit_lt_two_pow hxi, Bool.or_false]
    symm
    apply Nat.testBit_lt_two_pow
    have : (2 : Nat) ^ (t + 1) ≤ 2 ^ i := Nat.pow_le_pow_right (by omega) (by omega)
    have hx2 : x + 2 ^ t < 2 ^ (t + 1) := by
      rw [pow_succ]; omega
    omega

theorem trailingZeros32_spec {n : Nat} (h0 : n ≠ 0) (h1 : n < 2 ^ 32) :
    n % 2 ^ trailingZeros32 n = 0 ∧ n / 2 ^ trailingZeros32 n % 2 = 1 ∧
      trailingZeros32 n < 32 :=
  tzAux_spec 32 n h0 h1

theorem u32Shl_one_eq {s : Nat} (h : s < 32) : u32Shl 1 s = 2 ^ s := by
  unfold u32Shl
  rw [Nat.mod_eq_of_lt h, Nat.shiftLeft_eq, Nat.one_mul, Nat.mod_eq_of_lt]
  exact Nat.pow_lt_pow_right (by omega) h

theorem mod_eq_of_xor_low_zero {a b t : Nat} (h : (a ^^^ b) % 2 ^ t = 0) :
    a % 2 ^ t = b % 2 ^ t := by
  apply Nat.eq_of_testBit_eq
  intro i
  rw [Nat.testBit_mod_two_pow, Nat.testBit_mod_two_pow]
  by_cases hi : i < t
  · have hx : (a ^^^ b).testBit i = false := testBit_false_of_low_zero h hi
    rw [Nat.testBit_xor] at hx
    have hab2 : a.testBit i = b.testBit i := by
      cases ha : a.testBit i <;> cases hb : b.testBit i <;> simp_all
    simp only [hi, decide_eq_true_eq, hab2]
  · simp [hi]

/-- Standard form of a mask built by `BranchMask.new`: letting `t` be the
number of trailing zeros of `a ^^^ b`, the relative bit is `t`, the left
prefix is `a % 2 ^ t`, and the two descendant tests are mod tests. -/
theorem branchMask_new_std {w a b : Nat} (ha : a < 2 ^ 32) (hb : b < 2 ^ 32)
    (hab : a ≠ b) :
    (BranchMask.new w a b).relative_bit_idx = trailingZeros32 (a ^^^ b) ∧
    (BranchMask.new w a b).left_prefix32 = a % 2 ^ trailingZeros32 (a ^^^ b) ∧
    (BranchMask.new w a b).prefix_discriminant_mask =
      2 ^ (trailingZeros32 (a ^^^ b) + 1) - 1 ∧
    (BranchMask.new w a b).right_prefix32 =
      a % 2 ^ trailingZeros32 (a ^^^ b) + 2 ^ trailingZeros32 (a ^^^ b) := by
  have hd0 : a ^^^ b ≠ 0 := fun hc => hab (Nat.xor_eq_zero.mp hc)
  have hdlt : a ^^^ b < 2 ^ 32 := Nat.xor_lt_two_pow ha hb
  obtain ⟨hz, hodd, htlt⟩ := trailingZeros32_spec hd0 hdlt
  set t := trailingZeros32 (a ^^^ b) with htdef
  have hrel : (BranchMask.new w a b).relative_bit_idx = t := by
    show (w * 32 + t) % 32 = t
    omega
  have hlp : (BranchMask.new w a b).left_prefix32 = a % 2 ^ t := by
    show a &&& (u32Shl 1 t - 1) = a % 2 ^ t
    rw [u32Shl_one_eq htlt, Nat.and_pow_two_sub_one_eq_mod]
  have hdbm : (BranchMask.new w a b).discriminant_bit_mask = 2 ^ t := by
    unfold BranchMask.discriminant_bit_mask
    rw [hrel, u32Shl_one_eq htlt]
  have hpdm : (BranchMask.new w a b).prefix_discriminant_mask = 2 ^ (t + 1) - 1 := by
    unfold BranchMask.prefix_discriminant_mask
    rw [hrel]
    by_cases h31 : t = 31
    · simp [h31]
    · rw [if_neg h31, u32Shl_one_eq (by omega)]
  refine ⟨hrel, hlp, hpdm, ?_⟩
  unfold BranchMask.right_prefix32
  rw [hlp, hdbm]
  exact lor_two_pow_eq_add (Nat.mod_lt _ (Nat.pos_pow_of_pos t (by omega)))

theorem mod_pow_succ_decomp (x t : Nat) :
    x % 2 ^ (t + 1) = x % 2 ^ t + 2 ^ t * (x / 2 ^ t % 2) := by
  rw [pow_succ, Nat.mod_mul]

/-- Claim C4: for every `word_idx` and distinct 32-bit words `a` and `b`,
the mask built by `BranchMask::new(word_idx, a, b)` classifies `a` as a
left descendant and `b` as a right descendant or the reverse; for each of
the two words exactly one of `is_left_descendant` and
`is_right_descendant` holds, and the two words land on opposite sides. -/
theorem branch_mask_law (w a b : Nat) (ha : a < 2 ^ 32) (hb : b < 2 ^ 32)
    (hab : a ≠ b) :
    ((BranchMask.new w a b).is_left_descendant a = true ∧
     (BranchMask.new w a b).is_right_descendant a = false ∧
     (BranchMask.new w a b).is_left_descendant b = false ∧
     (BranchMask.new w a b).is_right_descendant b = true) ∨
    ((BranchMask.new w a b).is_left_descendant a = false ∧
     (BranchMask.new w a b).is_right_descendant a = true ∧
     (BranchMask.new w a b).is_left_descendant b = true ∧
     (BranchMask.new w a b).is_right_descendant b = false) := by
  obtain ⟨hrel, hlp, hpdm, hrp⟩ := branchMask_new_std (w := w) ha hb hab
  have hd0 : a ^^^ b ≠ 0 := fun hc => hab (Nat.xor_eq_zero.mp hc)
  have hdlt : a ^^^ b < 2 ^ 32 := Nat.xor_lt_two_pow ha hb
  obtain ⟨hz, hodd, htlt⟩ := trailingZeros32_spec hd0 hdlt
  set t := trailingZeros32 (a ^^^ b) with htdef
  set m := BranchMask.new w a b with hmdef
  have hmodab : a % 2 ^ t = b % 2 ^ t := mod_eq_of_xor_low_zero hz
  have hbitne : (a ^^^ b).testBit t = true := testBit_true_of_div_odd hodd
  rw [Nat.testBit_xor] at hbitne
  have hleft : ∀ x : Nat, m.is_left_descendant x =
      decide (x % 2 ^ (t + 1) = a % 2 ^ t) := by
    intro x
    unfold BranchMask.is_left_descendant
    rw [hpdm, hlp, Nat.and_pow_two_sub_one_eq_mod]
    cases hdec : decide (x % 2 ^ (t + 1) = a % 2 ^ t) <;>
      simp_all [beq_iff_eq]
  have hright : ∀ x : Nat, m.is_right_descendant x =
      decide (x % 2 ^ (t + 1) = a % 2 ^ t + 2 ^ t) := by
    intro x
    unfold BranchMask.is_right_descendant
    rw [hpdm, hrp, Nat.and_pow_two_sub_one_eq_mod]
    cases hdec : decide (x % 2 ^ (t + 1) = a % 2 ^ t + 2 ^ t) <;>
      simp_all [beq_iff_eq]
  have hmoda : a % 2 ^ (t + 1) = a % 2 ^ t + 2 ^ t * (a / 2 ^ t % 2) :=
    mod_pow_succ_decomp a t
  have hmodb : b % 2 ^ (t + 1) = b % 2 ^ t + 2 ^ t * (b / 2 ^ t % 2) :=
    mod_pow_succ_decomp b t
  have hto : ∀ x : Nat, x.testBit t = decide (x / 2 ^ t % 2 = 1) := fun x =>
    Nat.testBit_to_div_mod
  have hmlt : a % 2 ^ t < 2 ^ t := Nat.mod_lt _ (Nat.pos_pow_of_pos t (by omega))
  have hpos : 0 < 2 ^ t := Nat.pos_pow_of_pos t (by omega)
  cases hba : a.testBit t
  · left
    have hbb : b.testBit t = true := by
      cases hbb : b.testBit t
      · rw [hba, hbb] at hbitne; simp at hbitne
      · rfl
    rw [hto] at hba hbb
    simp only [decide_eq_true_eq, decide_eq_false_iff_not] at hba hbb
    have hda : a / 2 ^ t % 2 = 0 := by omega
    have hdb : b / 2 ^ t % 2 = 1 := hbb
    rw [hda, Nat.mul_zero, Nat.add_zero] at hmoda
    rw [hdb, Nat.mul_one] at hmodb
    refine ⟨?_, ?_, ?_, ?_⟩
    · rw [hleft]; simp only [decide_eq_true_eq]; omega
    · rw [hright]; simp only [decide_eq_false_iff_not]; omega
    · rw [hleft]; simp only [decide_eq_false_iff_not]; omega
    · rw [hright]; simp only [decide_eq_true_eq]; omega
  · right
    have hbb : b.testBit t = false := by
      cases hbb : b.testBit t
      · rfl
      · rw [hba, hbb] at hbitne; simp at hbitne
    rw [hto] at hba hbb
    simp only [decide_eq_true_eq, decide_eq_false_iff_not] at hba hbb
    have hda : a / 2 ^ t % 2 = 1 := hba
    have hdb : b / 2 ^ t % 2 = 0 := by omega
    rw [hda, Nat.mul_one] at hmoda
    rw [hdb, Nat.mul_zero, Nat.add_zero] at hmodb
    refine ⟨?_, ?_, ?_, ?_⟩
    · rw [hleft]; simp only [decide_eq_false_iff_not]; omega
    · rw [hright]; simp only [decide_eq_true_eq]; omega
    · rw [hleft]; simp only [decide_eq_true_eq]; omega
    · rw [hright]; simp only [decide_eq_false_iff_not]; omega

theorem branch_mask_law_witness :
    ((BranchMask.new 0 2 5).is_left_descendant 2 = true ∧
     (BranchMask.new 0 2 5).is_right_descendant 2 = false ∧
     (BranchMask.new 0 2 5).is_left_descendant 5 = false ∧
     (BranchMask.new 0 2 5).is_right_descendant 5 = true) ∨
    ((BranchMask.new 0 2 5).is_left_descendant 2 = false ∧
     (BranchMask.new 0 2 5).is_right_descendant 2 = true ∧
     (BranchMask.new 0 2 5).is_left_descendant 5 = true ∧
     (BranchMask.new 0 2 5).is_right_descendant 5 = false) :=
  branch_mask_law 0 2 5 (by decide) (by decide) (by decide)

/-! Claim C6: the classifier reports the first disagreement, in prefix,
prior-word, discriminant order. -/

theorem find_range_succ_shift (p : Nat → Bool) (L : Nat) :
    (List.range (L + 1)).find? p =
      if p 0 then some 0 else ((List.range L).find? (fun i => p (i + 1))).map (· + 1) := by
  rw [List.range_succ_eq_map, List.find?_cons]
  cases hp : p 0
  · simp only [hp, Bool.false_eq_true, if_false]
    rw [List.find?_map]
    rfl
  · simp [hp]

theorem prefixMismatch_eq_find (pfx : List Nat) :
    ∀ (key : List Nat) (off : Nat), off + pfx.length ≤ key.length →
    prefixMismatch pfx (key.drop off) off =
      ((List.range pfx.length).find?
        (fun i => decide (pfx.getD i 0 ≠ key.getD (off + i) 0))).map (fun i => off + i) := by
  induction pfx with
  | nil => intro key off h; simp [prefixMismatch, List.range_zero]
  | cons b bs ih =>
    intro key off h
    have hofflt : off < key.length := by simp at h; omega
    obtain ⟨k, hk⟩ : ∃ k, key[off]? = some k := by
      rw [List.getElem?_eq_getElem hofflt]; exact ⟨_, rfl⟩
    have hke : key[off] = k := by
      rw [List.getElem?_eq_getElem hofflt] at hk; exact Option.some.inj hk
    have hdrop : key.drop off = k :: key.drop (off + 1) := by
      rw [List.drop_eq_getElem_cons hofflt, hke]
    rw [hdrop]
    show (if b ≠ k then some off else prefixMismatch bs (key.drop (off + 1)) (off + 1)) = _
    simp only [List.length_cons]
    rw [find_range_succ_shift]
    have hg : key.getD (off + 0) 0 = k := by
      simp [List.getD_eq_getElem?_getD, hk]
    rw [hg, List.getD_cons_zero]
    by_cases hbk : b ≠ k
    · simp [hbk]
    · rw [if_neg hbk, if_neg (by simpa using hbk)]
      rw [ih key (off + 1) (by simp at h; omega)]
      have hq : (fun i => decide ((b :: bs).getD (i + 1) 0 ≠ key.getD (off + (i + 1)) 0)) =
          (fun i => decide (bs.getD i 0 ≠ key.getD (off + 1 + i) 0)) := by
        funext i
        rw [List.getD_cons_succ, show off + (i + 1) = off + 1 + i from by omega]
      rw [hq, Option.map_map]
      congr 1
      funext i
      simp only [Function.comp]
      omega

/-- Claim C6: for every branch and key, `Branch::key_position` first
compares the prefix word-by-word against the trailing window of the key
ending before word `word_idx - 1`, then checks `prior_word`, then the
discriminant word, and reports only the first disagreement in that order:
the first differing prefix word yields `Adjacent(PrefixVec(idx))` with
`idx` the absolute word index in the key, a prior-word mismatch yields
`Adjacent(PriorWord(word_idx - 1))` (in wrapping `usize` arithmetic), and
otherwise the discriminant word yields `Left`, `Right`, or
`Adjacent(PrefixOfWord(word_idx))` — formalized as agreement with the
classifier `keyPositionSpec` written from the specification wording. -/
theorem key_position_eq_spec (mask : BranchMask) (prior_word : Nat) (pfx : List Nat)
    (key : KeyHash) (hk : key.length = 8) (hw : mask.bit_idx / 32 < 8)
    (hl : pfx.length ≤ mask.bit_idx / 32) :
    key_position mask prior_word pfx key = keyPositionSpec mask prior_word pfx key := by
  have hble : (mask.bit_idx / 32 - (pfx.length + 1)) + pfx.length ≤ key.length := by omega
  simp only [key_position, keyPositionSpec]
  rw [prefixMismatch_eq_find pfx key _ hble]
  cases hfind : (List.range pfx.length).find?
      (fun i => decide (pfx.getD i 0 ≠
        key.getD (mask.bit_idx / 32 - (pfx.length + 1) + i) 0)) with
  | some i => simp
  | none =>
    simp only [Option.map_none']
    have hseg : (key.get? (mask.bit_idx / 32)).getD 0 = key.getD (mask.bit_idx / 32) 0 := by
      rw [List.get?_eq_getElem?, List.getD_eq_getElem?_getD]
    rw [hseg]

theorem key_position_eq_spec_witness :
    key_position (BranchMask.new 0 2 5) 0 [] [2, 0, 0, 0, 0, 0, 0, 0] =
      keyPositionSpec (BranchMask.new 0 2 5) 0 [] [2, 0, 0, 0, 0, 0, 0, 0] :=
  key_position_eq_spec (BranchMask.new 0 2 5) 0 [] [2, 0, 0, 0, 0, 0, 0, 0]
    (by decide) (by decide) (by decide)

/-! Claim C3: the decision table of `from_snapshot`. -/

theorem root_node_idx_branches_nonempty {V : Type} (b : Branch Nat) (bs : List (Branch Nat))
    (ls : List (Leaf V)) (us : List NodeHash) :
    Snapshot.root_node_idx { branches := b :: bs, leaves := ls, unvisited_nodes := us } =
      Except.ok (TrieRoot.Node
        (((b :: bs).length % 2 ^ 32 + (2 ^ 32 - 1)) % 2 ^ 32)) := by
  rcases bs with _ | ⟨b2, bs⟩
  · rcases ls with _ | ⟨l, ls⟩
    · rcases us with _ | ⟨u, us⟩
      · show Except.ok (TrieRoot.Node 0) = _
        norm_num
      · rfl
    · rfl
  · rfl

theorem trie_root_of_idx_node {V : Type} (s : Snapshot V) (i : Nat)
    (h : s.root_node_idx = Except.ok (TrieRoot.Node i)) :
    s.trie_root = Except.ok (TrieRoot.Node (NodeRef.Stored i)) := by
  unfold Snapshot.trie_root
  rw [h]
  rfl

theorem trie_root_of_idx_err {V : Type} (s : Snapshot V) (e : String)
    (h : s.root_node_idx = Except.error e) : s.trie_root = Except.error e := by
  unfold Snapshot.trie_root
  rw [h]
  rfl

/-- Claim C3: `Transaction::from_snapshot` succeeds exactly when the
three vector lengths match the root decision table — all empty gives root
`Empty`, exactly one node in total gives root `Node(0)`, `n ≥ 1` branches
give root `Node(n-1)` — and for every other combination of lengths it
returns a malformed-snapshot error without producing a transaction. -/
theorem from_snapshot_decision_table {V : Type} (s : Snapshot V)
    (hlen : s.branches.length < 2 ^ 32) :
    (s.branches.length = 0 ∧ s.leaves.length = 0 ∧ s.unvisited_nodes.length = 0 →
      from_snapshot s = Except.ok TrieRoot.Empty) ∧
    (s.branches.length + s.leaves.length + s.unvisited_nodes.length = 1 →
      from_snapshot s = Except.ok (TrieRoot.Node (NodeRef.Stored 0))) ∧
    (1 ≤ s.branches.length →
      from_snapshot s = Except.ok (TrieRoot.Node (NodeRef.Stored (s.branches.length - 1)))) ∧
    (¬ shapeTableOk s → ∃ e, from_snapshot s = Except.error e) := by
  obtain ⟨bs, ls, us⟩ := s
  simp only [from_snapshot] at *
  refine ⟨?_, ?_, ?_, ?_⟩
  · rintro ⟨h1, h2, h3⟩
    rw [List.length_eq_zero] at h1 h2 h3
    subst h1; subst h2; subst h3
    rfl
  · intro h1
    rcases bs with _ | ⟨b, bs⟩ <;> rcases ls with _ | ⟨l, ls⟩ <;>
      rcases us with _ | ⟨u, us⟩ <;> simp only [List.length_nil, List.length_cons] at h1 ⊢
    · omega
    · have hus : us = [] := by rw [← List.length_eq_zero]; omega
      subst hus; rfl
    · have hls : ls = [] := by rw [← List.length_eq_zero]; omega
      subst hls; rfl
    · omega
    · have hbs : bs = [] := by rw [← List.length_eq_zero]; omega
      subst hbs; rfl
    · omega
    · omega
    · omega
  · intro h1
    rcases bs with _ | ⟨b, bs⟩
    · simp at h1
    · show Snapshot.trie_root _ = _
      rw [trie_root_of_idx_node _ _ (root_node_idx_branches_nonempty b bs ls us)]
      simp only [List.length_cons] at hlen ⊢
      have harith : ((bs.length + 1) % 2 ^ 32 + (2 ^ 32 - 1)) % 2 ^ 32 = bs.length + 1 - 1 := by
        omega
      rw [harith]
  · intro h1
    rcases bs with _ | ⟨b, bs⟩
    · rcases ls with _ | ⟨l, ls⟩ <;> rcases us with _ | ⟨u, us⟩
      · exact absurd (Or.inl (by simp)) h1
      · rcases us with _ | ⟨u2, us⟩
        · exact absurd (Or.inr (Or.inl (by simp))) h1
        · exact ⟨"Invalid snapshot: sizes do not form a valid root",
            trie_root_of_idx_err _ _ rfl⟩
      · rcases ls with _ | ⟨l2, ls⟩
        · exact absurd (Or.inr (Or.inl (by simp))) h1
        · exact ⟨"Invalid snapshot: sizes do not form a valid root",
            trie_root_of_idx_err _ _ rfl⟩
      · rcases ls with _ | ⟨l2, ls⟩ <;>
          exact ⟨"Invalid snapshot: sizes do not form a valid root",
            trie_root_of_idx_err _ _ rfl⟩
    · exact absurd (Or.inr (Or.inr (by simp))) h1

theorem from_snapshot_decision_table_witness :
    ((exSnapC7.branches.length = 0 ∧ exSnapC7.leaves.length = 0 ∧
        exSnapC7.unvisited_nodes.length = 0 →
      from_snapshot exSnapC7 = Except.ok TrieRoot.Empty) ∧
    (exSnapC7.branches.length + exSnapC7.leaves.length +
        exSnapC7.unvisited_nodes.length = 1 →
      from_snapshot exSnapC7 = Except.ok (TrieRoot.Node (NodeRef.Stored 0))) ∧
    (1 ≤ exSnapC7.branches.length →
      from_snapshot exSnapC7 =
        Except.ok (TrieRoot.Node (NodeRef.Stored (exSnapC7.branches.length - 1)))) ∧
    (¬ shapeTableOk exSnapC7 → ∃ e, from_snapshot exSnapC7 = Except.error e)) :=
  from_snapshot_decision_table exSnapC7 (by decide)

/-! Claim C5: the exact byte streams of the two hash functions. -/

theorem foldl_update_flatten (pfx : List Nat) : ∀ h : HasherState,
    pfx.foldl (fun h word => h ++ u32LeBytes word) h =
      h ++ (pfx.map u32LeBytes).flatten := by
  induction pfx with
  | nil => intro h; simp
  | cons w ws ih =>
    intro h
    simp only [List.foldl_cons, List.map_cons, List.flatten_cons]
    rw [ih, List.append_assoc]

/-- Claim C5: `hash_leaf` returns the digest of the key bytes followed by
the portable hash of the value, `hash_branch` returns the digest of the
left child hash, the right child hash, the little-endian bytes of
`bit_idx`, `left_prefix` and `prior_word`, and the little-endian bytes of
each prefix word in order — and both calls leave the hasher reset upon
return, for any incoming hasher state. -/
theorem hash_leaf_branch_streams {V : Type} (vh : V → List Nat) (l : Leaf V)
    (mask : BranchMask) (prior_word : Nat) (prefixWords : List Nat)
    (left right : NodeHash) (hasher : HasherState) :
    (hash_leaf vh l []).1 = keyHashToBytes l.key_hash ++ vh l.value ∧
    (hash_leaf vh l hasher).2 = [] ∧
    (hash_branch mask prior_word prefixWords [] left right).1 =
      left ++ right ++ u32LeBytes mask.bit_idx ++ u32LeBytes mask.left_prefix32 ++
        u32LeBytes prior_word ++ (prefixWords.map u32LeBytes).flatten ∧
    (hash_branch mask prior_word prefixWords hasher left right).2 = [] := by
  refine ⟨?_, rfl, ?_, ?_⟩
  · simp [hash_leaf, portableUpdate, finalizeReset]
  · simp only [hash_branch, portableUpdate, finalizeReset]
    rw [foldl_update_flatten]
    simp [List.append_assoc]
  · simp only [hash_branch, finalizeReset]

/-! Claim C2: the insert/get round trip, refuted on the code. -/

/-- Claim C2 is violated by the code: in the concrete run `exC2Run`, four
inserts into an initially empty trie all return `Ok`, yet the subsequent
gets return `Ok(None)` for the first, second and fourth key — in
particular `get` of the fourth key immediately after its successful
insert returns `Ok(None)` instead of `Ok(Some 4)`.  The restructuring in
the `PriorWord` arm of `Branch::new_adjacent_leaf_ret` moves the whole
prefix of the old branch into a parent that sits one word earlier, so the
window `Branch::key_position` compares the prefix against shifts by one
word and no key matches through the new parent. -/
theorem insert_get_round_trip_fails :
    Except.map Prod.fst exC2Run = Except.ok [none, none, some 3, none] := by
  rfl

/-! Claim C10: termination of `Snapshot::calc_subtree_hash`. -/

theorem calc_subtree_empty_branches_eq {V : Type} (vh : V → List Nat)
    (ls : List (Leaf V)) (us : List NodeHash) (fuel idx : Nat) :
    Snapshot.calc_subtree_hash vh
        { branches := [], leaves := ls, unvisited_nodes := us } (fuel + 1) idx =
      (match ls.get? idx with
        | some leaf => Except.ok (hash_leaf vh leaf []).1
        | none =>
          match us.get? (idx - (0 + ls.length)) with
          | some h => Except.ok h
          | none => Except.error "Invalid snapshot: node not found") := rfl

theorem calc_subtree_empty_branches_ne_fuel {V : Type} (vh : V → List Nat)
    (ls : List (Leaf V)) (us : List NodeHash) (fuel idx : Nat) :
    Snapshot.calc_subtree_hash vh
        { branches := [], leaves := ls, unvisited_nodes := us } (fuel + 1) idx ≠
      Except.error outOfFuel := by
  rw [calc_subtree_empty_branches_eq]
  cases hl : ls.get? idx
  · cases hu : us.get? (idx - (0 + ls.length))
    · intro hc
      have : "Invalid snapshot: node not found" = outOfFuel := by
        injection hc
      simp [outOfFuel] at this
    · intro hc
      injection hc
  · intro hc
    injection hc

theorem calc_loop_diverges :
    ∀ fuel, exSnapLoop.calc_subtree_hash exVh fuel 0 = Except.error outOfFuel := by
  intro fuel
  induction fuel with
  | zero => rfl
  | succ fuel ih =>
    have hstep : exSnapLoop.calc_subtree_hash exVh (fuel + 1) 0 =
        (do
          let left ← exSnapLoop.calc_subtree_hash exVh fuel 0
          let right ← exSnapLoop.calc_subtree_hash exVh fuel 0
          Except.ok (hash_branch exBranchLoop.mask exBranchLoop.prior_word
            exBranchLoop.prefixWords [] left right).1) := rfl
    rw [hstep, ih]
    rfl

/-- Claim C10: for every snapshot in which every left and right index of
a branch is strictly below the index of the branch itself,
`calc_subtree_hash` terminates at every index (the result is reached with
finite fuel and is stable under more fuel); and opening via
`from_snapshot` does not itself establish this precondition, witnessed by
a snapshot whose single branch points at itself: it opens fine, violates
the invariant, and its subtree-hash recursion exhausts any amount of
fuel. -/
theorem calc_subtree_terminates_of_child_lt :
    (∀ (V : Type) (vh : V → List Nat) (s : Snapshot V), childLtParent s →
      ∀ idx, calcTerminates vh s idx) ∧
    (from_snapshot exSnapLoop = Except.ok (TrieRoot.Node (NodeRef.Stored 0)) ∧
     ¬ childLtParent exSnapLoop ∧
     ∀ fuel, exSnapLoop.calc_subtree_hash exVh fuel 0 = Except.error outOfFuel) := by
  refine ⟨?_, ?_, ?_, calc_loop_diverges⟩
  · intro V vh s h idx
    have hbs : s.branches = [] := by
      cases hb : s.branches with
      | nil => rfl
      | cons b bs =>
        have hc := (h 0 b (by rw [hb]; rfl)).1
        omega
    obtain ⟨bs, ls, us⟩ := s
    simp only at hbs
    subst hbs
    refine ⟨1, calc_subtree_empty_branches_ne_fuel vh ls us 0 idx, ?_⟩
    intro m hm
    obtain ⟨m', rfl⟩ : ∃ m', m = m' + 1 := ⟨m - 1, by omega⟩
    rw [calc_subtree_empty_branches_eq, calc_subtree_empty_branches_eq]
  · rfl
  · intro hc
    have := (hc 0 exBranchLoop rfl).1
    omega

theorem calc_subtree_terminates_witness :
    childLtParent exEmptySnapshot ∧ calcTerminates exVh exEmptySnapshot 0 := by
  have hinv : childLtParent exEmptySnapshot := by
    intro i b hb
    simp [exEmptySnapshot] at hb
  exact ⟨hinv, calc_subtree_terminates_of_child_lt.1 Nat exVh exEmptySnapshot hinv 0⟩

/-! Claim C9: the `Stored(u32::MAX)` sentinel is transient. -/

theorem new_from_leafs_noMax {V : Type} (p : Nat) (ol : Leaf V) (oref : NodeRef V)
    (k : KeyHash) (v : V) (nb : NodeRef V) (fl : Bool)
    (h : new_from_leafs p ol oref k v = some (nb, fl))
    (ho : oref.containsStoredMax = false) : nb.containsStoredMax = false := by
  unfold new_from_leafs at h
  split at h
  · exact absurd h (by simp)
  · dsimp only at h
    split at h
    all_goals
      simp only [Option.some.injEq, Prod.mk.injEq] at h
      obtain ⟨h2, h3⟩ := h
      subst h2
      simp [NodeRef.containsStoredMax, ho]

theorem new_adjacent_leaf_noMax {V : Type} (pos : KeyPositionAdjacent)
    (left right : NodeRef V) (mask : BranchMask) (pw : Nat) (pfx : List Nat)
    (k : KeyHash) (v : V)
    (hl : left.containsStoredMax = false) (hr : right.containsStoredMax = false) :
    (new_adjacent_leaf pos left right mask pw pfx k v).containsStoredMax = false := by
  unfold new_adjacent_leaf
  cases pos <;> dsimp only <;> split <;>
    simp [NodeRef.containsStoredMax, hl, hr]

theorem insert_node_noMax {σ V : Type} (S : StoreIface σ V) (hS : StoreNoMax S) :
    ∀ (fuel : Nat) (st : σ) (t : NodeRef V) (k : KeyHash) (v : V) (t' : NodeRef V) (st' : σ),
      Txn.insert_node S fuel st t k v = Except.ok (t', st') →
      t.containsStoredMax = false → t'.containsStoredMax = false := by
  intro fuel
  induction fuel with
  | zero =>
    intro st t k v t' st' h
    exact absurd h (by simp [Txn.insert_node])
  | succ fuel ih =>
    intro st t k v t' st' h hn
    cases t with
    | ModBranch l r mask pw pfx =>
      simp only [NodeRef.containsStoredMax, Bool.or_eq_false_iff] at hn
      simp only [Txn.insert_node] at h
      split at h
      · cases hrec : Txn.insert_node S fuel st l k v with
        | error e => rw [hrec] at h; exact absurd h (by simp [Bind.bind, Except.bind])
        | ok p =>
          obtain ⟨l2, st2⟩ := p
          rw [hrec] at h
          simp only [Bind.bind, Except.bind, Except.ok.injEq, Prod.mk.injEq] at h
          obtain ⟨h2, h3⟩ := h
          subst h2
          simp [NodeRef.containsStoredMax, ih _ _ _ _ _ _ hrec hn.1, hn.2]
      · cases hrec : Txn.insert_node S fuel st r k v with
        | error e => rw [hrec] at h; exact absurd h (by simp [Bind.bind, Except.bind])
        | ok p =>
          obtain ⟨r2, st2⟩ := p
          rw [hrec] at h
          simp only [Bind.bind, Except.bind, Except.ok.injEq, Prod.mk.injEq] at h
          obtain ⟨h2, h3⟩ := h
          subst h2
          simp [NodeRef.containsStoredMax, ih _ _ _ _ _ _ hrec hn.2, hn.1]
      · simp only [Except.ok.injEq, Prod.mk.injEq] at h
        obtain ⟨h2, h3⟩ := h
        subst h2
        exact new_adjacent_leaf_noMax _ _ _ _ _ _ _ _ hn.1 hn.2
    | ModLeaf lk lv =>
      simp only [Txn.insert_node] at h
      split at h
      · simp only [Except.ok.injEq, Prod.mk.injEq] at h
        obtain ⟨h2, h3⟩ := h
        subst h2
        rfl
      · split at h
        · rename_i nb fl hnf
          simp only [Except.ok.injEq, Prod.mk.injEq] at h
          obtain ⟨h2, h3⟩ := h
          subst h2
          exact new_from_leafs_noMax _ _ _ _ _ _ _ hnf rfl
        · exact absurd h (by simp)
    | Stored idx =>
      simp only [Txn.insert_node] at h
      cases hget : S.get_node st idx with
      | error e => rw [hget] at h; exact absurd h (by simp [Bind.bind, Except.bind])
      | ok p =>
        obtain ⟨n, st2⟩ := p
        rw [hget] at h
        simp only [Bind.bind, Except.bind] at h
        have hSn := hS st idx n st2 hget
        cases n with
        | Branch b =>
          obtain ⟨hb1, hb2⟩ := hSn
          refine ih _ _ _ _ _ _ h ?_
          simp [NodeRef.containsStoredMax, beq_eq_false_iff_ne, hb1, hb2]
        | Leaf lf =>
          dsimp only at h
          split at h
          · simp only [Except.ok.injEq, Prod.mk.injEq] at h
            obtain ⟨h2, h3⟩ := h
            subst h2
            rfl
          · split at h
            · rename_i nb fl hnf
              simp only [Except.ok.injEq, Prod.mk.injEq] at h
              obtain ⟨h2, h3⟩ := h
              subst h2
              exact new_from_leafs_noMax _ _ _ _ _ _ _ hnf hn
            · exact absurd h (by simp)

theorem entry_insert_node_noMax {σ V : Type} (S : StoreIface σ V) (hS : StoreNoMax S) :
    ∀ (fuel : Nat) (st : σ) (t : NodeRef V) (k : KeyHash) (v : V) (t' : NodeRef V) (st' : σ),
      Txn.entry_insert_node S fuel st t k v = Except.ok (t', st') →
      t.containsStoredMax = false → t'.containsStoredMax = false := by
  intro fuel
  induction fuel with
  | zero =>
    intro st t k v t' st' h
    exact absurd h (by simp [Txn.entry_insert_node])
  | succ fuel ih =>
    intro st t k v t' st' h hn
    cases t with
    | ModBranch l r mask pw pfx =>
      simp only [NodeRef.containsStoredMax, Bool.or_eq_false_iff] at hn
      simp only [Txn.entry_insert_node] at h
      split at h
      · cases hrec : Txn.entry_insert_node S fuel st l k v with
        | error e => rw [hrec] at h; exact absurd h (by simp [Bind.bind, Except.bind])
        | ok p =>
          obtain ⟨l2, st2⟩ := p
          rw [hrec] at h
          simp only [Bind.bind, Except.bind, Except.ok.injEq, Prod.mk.injEq] at h
          obtain ⟨h2, h3⟩ := h
          subst h2
          simp [NodeRef.containsStoredMax, ih _ _ _ _ _ _ hrec hn.1, hn.2]
      · cases hrec : Txn.entry_insert_node S fuel st r k v with
        | error e => rw [hrec] at h; exact absurd h (by simp [Bind.bind, Except.bind])
        | ok p =>
          obtain ⟨r2, st2⟩ := p
          rw [hrec] at h
          simp only [Bind.bind, Except.bind, Except.ok.injEq, Prod.mk.injEq] at h
          obtain ⟨h2, h3⟩ := h
          subst h2
          simp [NodeRef.containsStoredMax, ih _ _ _ _ _ _ hrec hn.2, hn.1]
      · simp only [Except.ok.injEq, Prod.mk.injEq] at h
        obtain ⟨h2, h3⟩ := h
        subst h2
        exact new_adjacent_leaf_noMax _ _ _ _ _ _ _ _ hn.1 hn.2
    | ModLeaf lk lv =>
      simp only [Txn.entry_insert_node] at h
      split at h
      · simp only [Except.ok.injEq, Prod.mk.injEq] at h
        obtain ⟨h2, h3⟩ := h
        subst h2
        rfl
      · split at h
        · rename_i nb fl hnf
          simp only [Except.ok.injEq, Prod.mk.injEq] at h
          obtain ⟨h2, h3⟩ := h
          subst h2
          exact new_from_leafs_noMax _ _ _ _ _ _ _ hnf rfl
        · exact absurd h (by simp)
    | Stored idx =>
      simp only [Txn.entry_insert_node] at h
      cases hget : S.get_node st idx with
      | error e => rw [hget] at h; exact absurd h (by simp [Bind.bind, Except.bind])
      | ok p =>
        obtain ⟨n, st2⟩ := p
        rw [hget] at h
        simp only [Bind.bind, Except.bind] at h
        have hSn := hS st idx n st2 hget
        cases n with
        | Branch b =>
          obtain ⟨hb1, hb2⟩ := hSn
          refine ih _ _ _ _ _ _ h ?_
          simp [NodeRef.containsStoredMax, beq_eq_false_iff_ne, hb1, hb2]
        | Leaf lf =>
          dsimp only at h
          exact ih _ _ _ _ _ _ h rfl

/-- Claim C9: the `Stored(u32::MAX)` placeholder installed during
structural edits is only transient.  First, `new_adjacent_leaf_ret`
always returns a parent branch both of whose child slots have been
overwritten — one holds the new leaf and the other holds the boxed old
branch.  Second and third, `insert` and `Entry::insert` (the entry walk
followed by the vacant or occupied insert) preserve the absence of any
reachable `Stored(u32::MAX)` reference, for every store that never hands
out a sentinel child index. -/
theorem stored_max_sentinel_transient :
    (∀ (V : Type) (pos : KeyPositionAdjacent) (left right : NodeRef V)
        (mask : BranchMask) (pw : Nat) (pfx : List Nat) (k : KeyHash) (v : V),
      ∃ mask2 prior2 pfx2 pfxOld,
        new_adjacent_leaf pos left right mask pw pfx k v =
          NodeRef.ModBranch (NodeRef.ModLeaf k v)
            (NodeRef.ModBranch left right mask pw pfxOld) mask2 prior2 pfx2 ∨
        new_adjacent_leaf pos left right mask pw pfx k v =
          NodeRef.ModBranch (NodeRef.ModBranch left right mask pw pfxOld)
            (NodeRef.ModLeaf k v) mask2 prior2 pfx2) ∧
    (∀ (σ V : Type) (S : StoreIface σ V), StoreNoMax S →
      ∀ (fuel : Nat) (st : σ) (root : TrieRoot (NodeRef V)) (k : KeyHash) (v : V)
        (root' : TrieRoot (NodeRef V)) (st' : σ),
        Txn.insert S fuel st root k v = Except.ok (root', st') →
        root.containsStoredMax = false → root'.containsStoredMax = false) ∧
    (∀ (σ V : Type) (S : StoreIface σ V), StoreNoMax S →
      ∀ (fuel : Nat) (st : σ) (root : TrieRoot (NodeRef V)) (k : KeyHash) (v : V)
        (root' : TrieRoot (NodeRef V)) (st' : σ),
        Txn.entry_insert S fuel st root k v = Except.ok (root', st') →
        root.containsStoredMax = false → root'.containsStoredMax = false) := by
  refine ⟨?_, ?_, ?_⟩
  · intro V pos left right mask pw pfx k v
    cases pos <;> dsimp only [new_adjacent_leaf] <;> split
    · exact ⟨_, _, _, _, Or.inl rfl⟩
    · exact ⟨_, _, _, _, Or.inr rfl⟩
    · exact ⟨_, _, _, _, Or.inl rfl⟩
    · exact ⟨_, _, _, _, Or.inr rfl⟩
    · exact ⟨_, _, _, _, Or.inl rfl⟩
    · exact ⟨_, _, _, _, Or.inr rfl⟩
  · intro σ V S hS fuel st root k v root' st' h hn
    cases root with
    | Empty =>
      simp only [Txn.insert, Except.ok.injEq, Prod.mk.injEq] at h
      obtain ⟨h2, h3⟩ := h
      subst h2
      rfl
    | Node t =>
      simp only [Txn.insert] at h
      cases hrec : Txn.insert_node S fuel st t k v with
      | error e => rw [hrec] at h; exact absurd h (by simp [Bind.bind, Except.bind])
      | ok p =>
        obtain ⟨t2, st2⟩ := p
        rw [hrec] at h
        simp only [Bind.bind, Except.bind, Except.ok.injEq, Prod.mk.injEq] at h
        obtain ⟨h2, h3⟩ := h
        subst h2
        exact insert_node_noMax S hS _ _ _ _ _ _ _ hrec hn
  · intro σ V S hS fuel st root k v root' st' h hn
    cases root with
    | Empty =>
      simp only [Txn.entry_insert, Except.ok.injEq, Prod.mk.injEq] at h
      obtain ⟨h2, h3⟩ := h
      subst h2
      rfl
    | Node t =>
      simp only [Txn.entry_insert] at h
      cases hrec : Txn.entry_insert_node S fuel st t k v with
      | error e => rw [hrec] at h; exact absurd h (by simp [Bind.bind, Except.bind])
      | ok p =>
        obtain ⟨t2, st2⟩ := p
        rw [hrec] at h
        simp only [Bind.bind, Except.bind, Except.ok.injEq, Prod.mk.injEq] at h
        obtain ⟨h2, h3⟩ := h
        subst h2
        exact entry_insert_node_noMax S hS _ _ _ _ _ _ _ hrec hn

theorem exEmptyStore_noMax : StoreNoMax exEmptyStore := by
  intro st idx n st' h
  have hred : exEmptyStore.get_node st idx =
      Except.error "Invalid snapshot: no visited node at index" := rfl
  rw [hred] at h
  exact Except.noConfusion h

theorem stored_max_sentinel_transient_witness :
    TrieRoot.containsStoredMax
      (TrieRoot.Node (NodeRef.ModBranch
        (NodeRef.ModLeaf [0, 1, 2, 3, 4, 0, 0, 0] (1 : Nat))
        (NodeRef.ModLeaf [0, 1, 2, 3, 9, 0, 0, 0] 2)
        { bit_idx := 128, left_prefix32 := 0 } 3 [0, 1, 2])) = false :=
  stored_max_sentinel_transient.2.1 Unit Nat exEmptyStore exEmptyStore_noMax 9 ()
    (TrieRoot.Node (NodeRef.ModLeaf exC2Key1 1)) exC2Key2 2 _ () (by rfl) (by rfl)

/-! Claim C8: commit is idempotent. -/

theorem applyWrites_append {V : Type} (db : DbModel V)
    (w1 w2 : List (NodeHash × Node (Branch NodeHash) (Leaf V))) :
    applyWrites db (w1 ++ w2) = applyWrites (applyWrites db w1) w2 := by
  unfold applyWrites
  rw [List.foldl_append]

theorem applyWrites_agree {V : Type} :
    ∀ (ws : List (NodeHash × Node (Branch NodeHash) (Leaf V))) (db1 db2 : DbModel V),
    (∀ x, db1 x = db2 x ∨ ∃ hn, hn ∈ ws ∧ hn.1 = x) →
    applyWrites db1 ws = applyWrites db2 ws := by
  intro ws
  induction ws with
  | nil =>
    intro db1 db2 h
    funext x
    rcases h x with he | ⟨hn, hmem, _⟩
    · exact he
    · exact absurd hmem (List.not_mem_nil hn)
  | cons w ws ih =>
    intro db1 db2 h
    show applyWrites (dbSet db1 w.1 w.2) ws = applyWrites (dbSet db2 w.1 w.2) ws
    apply ih
    intro x
    by_cases hx : x = w.1
    · left
      simp [dbSet, hx]
    · rcases h x with he | ⟨hn, hmem, he⟩
      · left
        simp [dbSet, hx, he]
      · rcases List.mem_cons.mp hmem with hw | hw
        · subst hw
          exact absurd he.symm hx
        · exact Or.inr ⟨hn, hw, he⟩

theorem applyWrites_covers {V : Type} :
    ∀ (ws : List (NodeHash × Node (Branch NodeHash) (Leaf V))) (db : DbModel V) (x : NodeHash),
    applyWrites db ws x = db x ∨ ∃ hn, hn ∈ ws ∧ hn.1 = x := by
  intro ws
  induction ws with
  | nil => intro db x; exact Or.inl rfl
  | cons w ws ih =>
    intro db x
    rcases ih (dbSet db w.1 w.2) x with he | ⟨hn, hmem, he⟩
    · by_cases hx : x = w.1
      · exact Or.inr ⟨w, List.mem_cons_self _ _, hx.symm⟩
      · left
        have hstep : applyWrites db (w :: ws) x = applyWrites (dbSet db w.1 w.2) ws x := rfl
        rw [hstep, he]
        simp [dbSet, hx]
    · exact Or.inr ⟨hn, List.mem_cons_of_mem _ hmem, he⟩

theorem applyWrites_idem {V : Type} (db : DbModel V)
    (ws : List (NodeHash × Node (Branch NodeHash) (Leaf V))) :
    applyWrites (applyWrites db ws) ws = applyWrites db ws := by
  apply applyWrites_agree
  intro x
  rcases applyWrites_covers ws db x with he | hmem
  · exact Or.inl he
  · exact Or.inr hmem

theorem calc_db_writes {σ V : Type} (S : StoreIface σ V) (vh : V → List Nat) (st : σ) :
    ∀ (t : NodeRef V) (hasher : HasherState) (db : DbModel V) (r : NodeHash)
      (h' : HasherState) (db' : DbModel V),
      Txn.calc_root_hash_node S vh
        (fun db hash leaf => Except.ok (dbSet db hash (Node.Leaf leaf)))
        (fun db hash mask prior_word prefixWords left right =>
          Except.ok (dbSet db hash (Node.Branch
            { left := left, right := right, mask := mask, prior_word := prior_word,
              prefixWords := prefixWords })))
        st t hasher db = Except.ok (r, h', db') →
      ∃ W, (∀ d, Txn.calc_root_hash_node S vh
          (fun db hash leaf => Except.ok (dbSet db hash (Node.Leaf leaf)))
          (fun db hash mask prior_word prefixWords left right =>
            Except.ok (dbSet db hash (Node.Branch
              { left := left, right := right, mask := mask, prior_word := prior_word,
                prefixWords := prefixWords })))
          st t hasher d = Except.ok (r, h', applyWrites d W)) ∧
        db' = applyWrites db W := by
  intro t
  induction t with
  | ModBranch l rr mask pw pfx ihl ihr =>
    intro hasher db r h' db' h
    simp only [Txn.calc_root_hash_node] at h
    cases hL : Txn.calc_root_hash_node S vh _ _ st l hasher db with
    | error e => rw [hL] at h; exact absurd h (by simp [Bind.bind, Except.bind])
    | ok pL =>
      obtain ⟨lh, h1, db1⟩ := pL
      rw [hL] at h
      simp only [Bind.bind, Except.bind] at h
      cases hR : Txn.calc_root_hash_node S vh _ _ st rr h1 db1 with
      | error e => rw [hR] at h; exact absurd h (by simp)
      | ok pR =>
        obtain ⟨rh, h2, db2⟩ := pR
        rw [hR] at h
        simp only [Except.ok.injEq, Prod.mk.injEq] at h
        obtain ⟨hr1, hr2, hr3⟩ := h
        obtain ⟨WL, hWLall, hWLdb⟩ := ihl hasher db lh h1 db1 hL
        obtain ⟨WR, hWRall, hWRdb⟩ := ihr h1 db1 rh h2 db2 hR
        refine ⟨WL ++ WR ++ [((hash_branch mask pw pfx h2 lh rh).1, Node.Branch (Branch.mk lh rh mask pw pfx))], ?_, ?_⟩
        · intro d
          simp only [Txn.calc_root_hash_node]
          rw [hWLall d]
          simp only [Bind.bind, Except.bind]
          rw [hWRall (applyWrites d WL)]
          simp only [Except.ok.injEq, Prod.mk.injEq]
          refine ⟨hr1, hr2, ?_⟩
          rw [applyWrites_append, applyWrites_append]
          rfl
        · subst hr3
          rw [applyWrites_append, applyWrites_append, ← hWLdb, ← hWRdb]
          rfl
  | ModLeaf k v =>
    intro hasher db r h' db' h
    simp only [Txn.calc_root_hash_node] at h
    injection h with h1
    injection h1 with e1 h2
    injection h2 with e2 e3
    subst e1; subst e2; subst e3
    refine ⟨[((hash_leaf vh (Leaf.mk k v) hasher).1, Node.Leaf (Leaf.mk k v))], ?_, rfl⟩
    intro d
    rfl
  | Stored idx =>
    intro hasher db r h' db' h
    simp only [Txn.calc_root_hash_node] at h
    cases hs : S.calc_subtree_hash st idx with
    | error e => rw [hs] at h; exact absurd h (by simp [Bind.bind, Except.bind])
    | ok hash =>
      rw [hs] at h
      simp only [Bind.bind, Except.bind, Except.ok.injEq, Prod.mk.injEq] at h
      obtain ⟨hr1, hr2, hr3⟩ := h
      refine ⟨[], ?_, hr3.symm⟩
      intro d
      simp only [Txn.calc_root_hash_node]
      rw [hs]
      simp only [Bind.bind, Except.bind, Except.ok.injEq, Prod.mk.injEq]
      exact ⟨hr1, hr2, rfl⟩

theorem calc_node_builder_db {V A : Type} (vh : V → List Nat)
    (cbL : A → NodeHash → Leaf V → Except String A)
    (cbB : A → NodeHash → BranchMask → Nat → List Nat → NodeHash → NodeHash → Except String A)
    (st : SnapshotBuilder V) (d : DbModel V) :
    ∀ (t : NodeRef V) (hasher : HasherState) (a : A),
      Txn.calc_root_hash_node builderStore vh cbL cbB { st with db := d } t hasher a =
        Txn.calc_root_hash_node builderStore vh cbL cbB st t hasher a := by
  intro t
  induction t with
  | ModBranch l rr mask pw pfx ihl ihr =>
    intro hasher a
    simp only [Txn.calc_root_hash_node, ihl, ihr]
  | ModLeaf k v => intro hasher a; rfl
  | Stored idx => intro hasher a; rfl

/-- Claim C8: committing a transaction writes every modified node into
the database and is idempotent — re-running the same commit against the
database state it produced returns the same root hash and leaves the
database unchanged. -/
theorem commit_idempotent {V : Type} (vh : V → List Nat) (st : SnapshotBuilder V)
    (root : TrieRoot (NodeRef V)) (hasher : HasherState) (r : TrieRoot NodeHash)
    (db₁ : DbModel V)
    (h : Txn.commit vh st root hasher = Except.ok (r, db₁)) :
    Txn.commit vh { st with db := db₁ } root hasher = Except.ok (r, db₁) := by
  cases root with
  | Empty =>
    simp only [Txn.commit, Txn.calc_root_hash_inner, Bind.bind, Except.bind] at h ⊢
    injection h with h1
    injection h1 with e1 e2
    subst e1; subst e2
    rfl
  | Node t =>
    simp only [Txn.commit, Txn.calc_root_hash_inner] at h ⊢
    cases hc : Txn.calc_root_hash_node builderStore vh _ _ st t hasher st.db with
    | error e => rw [hc] at h; exact absurd h (by simp [Bind.bind, Except.bind])
    | ok p =>
      obtain ⟨hash, h2, db2⟩ := p
      rw [hc] at h
      simp only [Bind.bind, Except.bind] at h
      injection h with h1
      injection h1 with e1 e2
      subst e1; subst e2
      obtain ⟨W, hall, hdb⟩ := calc_db_writes builderStore vh st t hasher st.db hash h2 db2 hc
      rw [calc_node_builder_db]
      rw [hall db2]
      simp only [Bind.bind, Except.bind]
      rw [hdb, applyWrites_idem]

def exCommitLeafHash : NodeHash := (hash_leaf exVh (Leaf.mk [1,2,3,4,5,6,7,8] 42) []).1

def exCommitDb : DbModel Nat :=
  dbSet (fun _ => none) exCommitLeafHash (Node.Leaf (Leaf.mk [1,2,3,4,5,6,7,8] 42))

theorem commit_idempotent_witness :
    Txn.commit exVh { SnapshotBuilder.empty (fun _ => none) with db := exCommitDb }
        (TrieRoot.Node (NodeRef.ModLeaf [1,2,3,4,5,6,7,8] 42)) [] =
      Except.ok (TrieRoot.Node exCommitLeafHash, exCommitDb) :=
  commit_idempotent exVh (SnapshotBuilder.empty (fun _ => none))
    (TrieRoot.Node (NodeRef.ModLeaf [1,2,3,4,5,6,7,8] 42)) []
    (TrieRoot.Node exCommitLeafHash) exCommitDb rfl

theorem get?_some_lt {α : Type} (l : List α) (j : Nat) (a : α) (h : l.get? j = some a) :
    j < l.length := by
  by_contra hc
  rw [List.get?_eq_none.mpr (by omega)] at h
  exact absurd h (by simp)

theorem count_range_eq (a n : Nat) : (List.range n).count a = if a < n then 1 else 0 := by
  split
  · rw [List.count_eq_one_of_mem (List.nodup_range n) (List.mem_range.mpr (by assumption))]
  · rw [List.count_eq_zero_of_not_mem]
    intro hm
    exact absurd (List.mem_range.mp hm) (by assumption)

/-- An arena entry is a loaded branch. -/
def isBranchAt {V : Type} (nodes : List (NodeHash × Option (Node (Branch Nat) (Leaf V))))
    (j : Nat) : Bool :=
  match nodes.get? j with
  | some (_, some (Node.Branch _)) => true
  | _ => false

/-- An arena entry is a loaded leaf. -/
def isLeafAt {V : Type} (nodes : List (NodeHash × Option (Node (Branch Nat) (Leaf V))))
    (j : Nat) : Bool :=
  match nodes.get? j with
  | some (_, some (Node.Leaf _)) => true
  | _ => false

/-- An arena entry is unvisited. -/
def isUnvisAt {V : Type} (nodes : List (NodeHash × Option (Node (Branch Nat) (Leaf V))))
    (j : Nat) : Bool :=
  match nodes.get? j with
  | some (_, none) => true
  | _ => false

theorem visitList_mono {V : Type}
    (nodes : List (NodeHash × Option (Node (Branch Nat) (Leaf V)))) :
    ∀ fuel fuel' k l, fuel ≤ fuel' → visitList nodes fuel k = some l →
      visitList nodes fuel' k = some l := by
  intro fuel
  induction fuel with
  | zero => intro fuel' k l _ h; exact absurd h (by simp [visitList])
  | succ f ih =>
    intro fuel' k l hle h
    obtain ⟨f', rfl⟩ : ∃ f', fuel' = f' + 1 := ⟨fuel' - 1, by omega⟩
    simp only [visitList] at h ⊢
    cases hk : nodes.get? k with
    | none => rw [hk] at h; exact absurd h (by simp)
    | some e =>
      rw [hk] at h
      obtain ⟨h1, e2⟩ := e
      cases e2 with
      | none => exact h
      | some nd =>
        cases nd with
        | Leaf lf => exact h
        | Branch b =>
          dsimp only at h ⊢
          simp only [Bind.bind, Option.bind] at h ⊢
          cases hl : visitList nodes f b.left with
          | none => rw [hl] at h; exact absurd h (by simp)
          | some ll =>
            rw [hl] at h
            rw [ih f' b.left ll (by omega) hl]
            cases hr : visitList nodes f b.right with
            | none => rw [hr] at h; exact absurd h (by simp)
            | some lr =>
              rw [hr] at h
              rw [ih f' b.right lr (by omega) hr]
              exact h

theorem visitList_set_nonbranch {V : Type}
    (nodes : List (NodeHash × Option (Node (Branch Nat) (Leaf V))))
    (j : Nat) (e : NodeHash × Option (Node (Branch Nat) (Leaf V)))
    (hold : isBranchAt nodes j = false)
    (hnew : ∀ b, e.2 ≠ some (Node.Branch b)) :
    ∀ fuel k, visitList (nodes.set j e) fuel k = visitList nodes fuel k := by
  intro fuel
  induction fuel with
  | zero => intro k; rfl
  | succ f ih =>
    intro k
    by_cases hkj : k = j
    · subst hkj
      simp only [visitList]
      cases hj : nodes.get? k with
      | none =>
        have hlen : nodes.length ≤ k := List.get?_eq_none.mp hj
        rw [show (nodes.set k e).get? k = none from
          List.get?_eq_none.mpr (by rw [List.length_set]; exact hlen)]
      | some e0 =>
        have hlt : k < nodes.length := get?_some_lt nodes k e0 hj
        rw [List.get?_set_eq_of_lt e hlt]
        obtain ⟨eh, e2⟩ := e
        obtain ⟨e0h, e02⟩ := e0
        unfold isBranchAt at hold
        rw [hj] at hold
        cases e2 with
        | none =>
          cases e02 with
          | none => rfl
          | some nd0 =>
            cases nd0 with
            | Leaf lf0 => rfl
            | Branch b0 => exact absurd hold (by simp)
        | some nd =>
          cases nd with
          | Branch b => exact absurd rfl (hnew b)
          | Leaf lf =>
            cases e02 with
            | none => rfl
            | some nd0 =>
              cases nd0 with
              | Leaf lf0 => rfl
              | Branch b0 => exact absurd hold (by simp)
    · simp only [visitList]
      rw [List.get?_set_ne e nodes (fun hh => hkj hh.symm)]
      cases hk : nodes.get? k with
      | none => rfl
      | some e0 =>
        obtain ⟨e0h, e02⟩ := e0
        cases e02 with
        | none => rfl
        | some nd0 =>
          cases nd0 with
          | Leaf lf0 => rfl
          | Branch b0 => simp only [ih]

/-- The branch record written into the arena when a stored branch is
faulted in: children at the two appended entries. -/
def graftBranch (n : Nat) (m : BranchMask) (pw : Nat) (pfx : List Nat) : Branch Nat :=
  { left := n, right := n + 1, mask := m, prior_word := pw, prefixWords := pfx }

/-- The arena after `get_node` faults in a branch at entry `j`: the two
child entries are appended and entry `j` is rewritten to the loaded
branch. -/
def graftArena {V : Type} (nodes : List (NodeHash × Option (Node (Branch Nat) (Leaf V))))
    (j : Nat) (hash hL hR : NodeHash) (m : BranchMask) (pw : Nat) (pfx : List Nat) :
    List (NodeHash × Option (Node (Branch Nat) (Leaf V))) :=
  (nodes ++ [(hL, none), (hR, none)]).set j
    (hash, some (Node.Branch (graftBranch nodes.length m pw pfx)))

theorem graftArena_length {V : Type}
    (nodes : List (NodeHash × Option (Node (Branch Nat) (Leaf V))))
    (j : Nat) (hash hL hR : NodeHash) (m : BranchMask) (pw : Nat) (pfx : List Nat) :
    (graftArena nodes j hash hL hR m pw pfx).length = nodes.length + 2 := by
  unfold graftArena
  rw [List.length_set, List.length_append]
  rfl

theorem graftArena_get_ne {V : Type}
    (nodes : List (NodeHash × Option (Node (Branch Nat) (Leaf V))))
    (j : Nat) (hash hL hR : NodeHash) (m : BranchMask) (pw : Nat) (pfx : List Nat)
    (k : Nat) (hkj : k ≠ j) (hk : k < nodes.length) :
    (graftArena nodes j hash hL hR m pw pfx).get? k = nodes.get? k := by
  unfold graftArena
  rw [List.get?_set_ne _ _ (fun hh => hkj hh.symm), List.get?_append hk]

theorem graftArena_get_j {V : Type}
    (nodes : List (NodeHash × Option (Node (Branch Nat) (Leaf V))))
    (j : Nat) (hash hL hR : NodeHash) (m : BranchMask) (pw : Nat) (pfx : List Nat)
    (hj : j < nodes.length) :
    (graftArena nodes j hash hL hR m pw pfx).get? j =
      some (hash, some (Node.Branch (graftBranch nodes.length m pw pfx))) := by
  unfold graftArena
  rw [List.get?_set_eq_of_lt _ (by rw [List.length_append]; omega)]

theorem graftArena_get_n {V : Type}
    (nodes : List (NodeHash × Option (Node (Branch Nat) (Leaf V))))
    (j : Nat) (hash hL hR : NodeHash) (m : BranchMask) (pw : Nat) (pfx : List Nat)
    (hj : j < nodes.length) :
    (graftArena nodes j hash hL hR m pw pfx).get? nodes.length = some (hL, none) := by
  unfold graftArena
  rw [List.get?_set_ne _ _ (by omega), List.get?_append_right (by omega)]
  simp

theorem graftArena_get_n1 {V : Type}
    (nodes : List (NodeHash × Option (Node (Branch Nat) (Leaf V))))
    (j : Nat) (hash hL hR : NodeHash) (m : BranchMask) (pw : Nat) (pfx : List Nat)
    (hj : j < nodes.length) :
    (graftArena nodes j hash hL hR m pw pfx).get? (nodes.length + 1) = some (hR, none) := by
  unfold graftArena
  rw [List.get?_set_ne _ _ (by omega), List.get?_append_right (by omega)]
  rw [show nodes.length + 1 - nodes.length = 1 from by omega]
  rfl

theorem count_single (x k : Nat) : [k].count x = if x = k then 1 else 0 := by
  by_cases h : x = k
  · subst h; simp
  · rw [List.count_eq_zero_of_not_mem (by simp [h]), if_neg h]

theorem visitList_succ {V : Type}
    (nodes : List (NodeHash × Option (Node (Branch Nat) (Leaf V)))) (fuel k : Nat) :
    visitList nodes (fuel + 1) k =
      match nodes.get? k with
      | none => none
      | some (_, some (Node.Branch b)) => do
        let l ← visitList nodes fuel b.left
        let r ← visitList nodes fuel b.right
        some (l ++ r ++ [k])
      | some _ => some [k] := rfl

theorem visitList_nonbranch_step {V : Type}
    (nodes : List (NodeHash × Option (Node (Branch Nat) (Leaf V)))) (fuel k : Nat)
    (e : NodeHash × Option (Node (Branch Nat) (Leaf V)))
    (hk : nodes.get? k = some e) (hne : ∀ b, e.2 ≠ some (Node.Branch b)) :
    visitList nodes (fuel + 1) k = some [k] := by
  rw [visitList_succ, hk]
  obtain ⟨h1, e2⟩ := e
  cases e2 with
  | none => rfl
  | some nd =>
    cases nd with
    | Leaf lf => rfl
    | Branch b => exact absurd rfl (hne b)

theorem visitList_branch_step {V : Type}
    (nodes : List (NodeHash × Option (Node (Branch Nat) (Leaf V)))) (fuel k : Nat)
    (eh : NodeHash) (b : Branch Nat) (ll lr : List Nat)
    (hk : nodes.get? k = some (eh, some (Node.Branch b)))
    (hl : visitList nodes fuel b.left = some ll)
    (hr : visitList nodes fuel b.right = some lr) :
    visitList nodes (fuel + 1) k = some (ll ++ lr ++ [k]) := by
  rw [visitList_succ, hk]
  dsimp only
  simp only [Bind.bind, Option.bind]
  rw [hl, hr]

theorem visitList_graft {V : Type}
    (nodes : List (NodeHash × Option (Node (Branch Nat) (Leaf V))))
    (j : Nat) (hash hL hR : NodeHash) (m : BranchMask) (pw : Nat) (pfx : List Nat)
    (hj : nodes.get? j = some (hash, none)) :
    ∀ fuel k l, visitList nodes fuel k = some l →
      ∃ l', visitList (graftArena nodes j hash hL hR m pw pfx) (fuel + 2) k = some l' ∧
        ∀ x, l'.count x = l.count x +
          (if x = nodes.length ∨ x = nodes.length + 1 then l.count j else 0) := by
  have hjlt : j < nodes.length := get?_some_lt nodes j _ hj
  intro fuel
  induction fuel with
  | zero => intro k l h; exact absurd h (by simp [visitList])
  | succ f ih =>
    intro k l h
    simp only [visitList] at h
    cases hk : nodes.get? k with
    | none => rw [hk] at h; exact absurd h (by simp)
    | some e =>
      rw [hk] at h
      have hklt : k < nodes.length := get?_some_lt nodes k e hk
      obtain ⟨eh, e2⟩ := e
      cases e2 with
      | some nd =>
        have hkj : k ≠ j := by
          intro hh
          subst hh
          rw [hk] at hj
          simp at hj
        cases nd with
        | Leaf lf =>
          dsimp only at h
          obtain rfl : l = [k] := by
            injection h with h1
            exact h1.symm
          refine ⟨[k], ?_, ?_⟩
          · exact visitList_nonbranch_step _ (f + 2) k (eh, some (Node.Leaf lf))
              ((graftArena_get_ne nodes j hash hL hR m pw pfx k hkj hklt).trans hk)
              (fun b hb => Node.noConfusion (Option.some.inj hb))
          · intro x
            rw [count_single, count_single]
            split_ifs <;> omega
        | Branch b =>
          dsimp only at h
          simp only [Bind.bind, Option.bind] at h
          cases hl : visitList nodes f b.left with
          | none => rw [hl] at h; exact absurd h (by simp)
          | some ll =>
            rw [hl] at h
            cases hr : visitList nodes f b.right with
            | none => rw [hr] at h; exact absurd h (by simp)
            | some lr =>
              rw [hr] at h
              obtain rfl : l = ll ++ lr ++ [k] := by
                injection h with h1
                exact h1.symm
              obtain ⟨ll', hll', hllc⟩ := ih b.left ll hl
              obtain ⟨lr', hlr', hlrc⟩ := ih b.right lr hr
              refine ⟨ll' ++ lr' ++ [k], ?_, ?_⟩
              · exact visitList_branch_step _ (f + 2) k eh b ll' lr'
                  ((graftArena_get_ne nodes j hash hL hR m pw pfx k hkj hklt).trans hk)
                  hll' hlr'
              · intro x
                simp only [List.count_append]
                rw [hllc x, hlrc x, count_single, count_single]
                split_ifs <;> omega
      | none =>
        dsimp only at h
        obtain rfl : l = [k] := by
          injection h with h1
          exact h1.symm
        by_cases hkj : k = j
        · subst hkj
          obtain rfl : eh = hash := by
            rw [hk] at hj
            simp only [Option.some.injEq, Prod.mk.injEq, and_true] at hj
            exact hj
          refine ⟨[nodes.length] ++ [nodes.length + 1] ++ [k], ?_, ?_⟩
          · exact visitList_branch_step _ (f + 2) k eh
              (graftBranch nodes.length m pw pfx) [nodes.length] [nodes.length + 1]
              (graftArena_get_j nodes k eh hL hR m pw pfx hjlt)
              (visitList_nonbranch_step _ (f + 1) nodes.length (hL, none)
                (graftArena_get_n nodes k eh hL hR m pw pfx hjlt)
                (fun b hb => Option.noConfusion hb))
              (visitList_nonbranch_step _ (f + 1) (nodes.length + 1) (hR, none)
                (graftArena_get_n1 nodes k eh hL hR m pw pfx hjlt)
                (fun b hb => Option.noConfusion hb))
          · intro x
            simp only [List.count_append]
            rw [count_single, count_single, count_single, count_single]
            split_ifs <;> omega
        · refine ⟨[k], ?_, ?_⟩
          · exact visitList_nonbranch_step _ (f + 2) k (eh, none)
              ((graftArena_get_ne nodes j hash hL hR m pw pfx k hkj hklt).trans hk)
              (fun b hb => Option.noConfusion hb)
          · intro x
            rw [count_single, count_single]
            split_ifs <;> omega

theorem visitsAll_graftArena {V : Type}
    (nodes : List (NodeHash × Option (Node (Branch Nat) (Leaf V))))
    (j : Nat) (hash hL hR : NodeHash) (m : BranchMask) (pw : Nat) (pfx : List Nat)
    (hj : nodes.get? j = some (hash, none)) (hva : visitsAll nodes) :
    visitsAll (graftArena nodes j hash hL hR m pw pfx) := by
  have hjlt : j < nodes.length := get?_some_lt nodes j _ hj
  rcases hva with hnil | ⟨l0, hl0, hperm⟩
  · rw [hnil] at hj; exact absurd hj (by simp)
  · right
    obtain ⟨l', hl', hc⟩ :=
      visitList_graft nodes j hash hL hR m pw pfx hj nodes.length 0 l0 hl0
    refine ⟨l', ?_, ?_⟩
    · rw [graftArena_length]
      exact hl'
    · rw [graftArena_length]
      apply List.perm_iff_count.2
      intro x
      have h1 : ∀ y, l0.count y = if y < nodes.length then 1 else 0 := fun y => by
        rw [hperm.count_eq y, count_range_eq]
      rw [hc x, h1 x, h1 j, count_range_eq]
      split_ifs <;> omega

/-- Two arenas of equal length and equal visit lists have the same
`visitsAll` status. -/
theorem visitsAll_of_eq_visit {V : Type}
    (nodes nodes' : List (NodeHash × Option (Node (Branch Nat) (Leaf V))))
    (hlen : nodes'.length = nodes.length)
    (heq : ∀ fuel k, visitList nodes' fuel k = visitList nodes fuel k)
    (hva : visitsAll nodes) : visitsAll nodes' := by
  rcases hva with hnil | ⟨l0, hl0, hperm⟩
  · left
    rw [← List.length_eq_zero, hlen, hnil]
    rfl
  · right
    exact ⟨l0, by rw [hlen, heq]; exact hl0, by rw [hlen]; exact hperm⟩

theorem get_node_len_mono {V : Type} (st : SnapshotBuilder V) (idx : Nat)
    (nd : Node (Branch Nat) (Leaf V)) (st' : SnapshotBuilder V)
    (h : SnapshotBuilder.get_node st idx = Except.ok (nd, st')) :
    st.nodes.length ≤ st'.nodes.length := by
  unfold SnapshotBuilder.get_node at h
  cases hk : st.nodes.get? idx with
  | none => rw [hk] at h; exact absurd h (by simp)
  | some e =>
    rw [hk] at h
    obtain ⟨hash, e2⟩ := e
    cases e2 with
    | some node =>
      dsimp only at h
      simp only [Except.ok.injEq, Prod.mk.injEq] at h
      obtain ⟨h1, h2⟩ := h
      subst h2
      exact Nat.le_refl _
    | none =>
      dsimp only at h
      cases hdb : st.db hash with
      | none => rw [hdb] at h; exact absurd h (by simp)
      | some dbn =>
        rw [hdb] at h
        cases dbn with
        | Leaf lf =>
          dsimp only at h
          simp only [Except.ok.injEq, Prod.mk.injEq] at h
          obtain ⟨h1, h2⟩ := h
          subst h2
          rw [List.length_set]
        | Branch b =>
          dsimp only at h
          simp only [Except.ok.injEq, Prod.mk.injEq] at h
          obtain ⟨h1, h2⟩ := h
          subst h2
          dsimp only
          rw [List.length_set, List.length_append]
          omega

theorem get_node_visitsAll {V : Type} (st : SnapshotBuilder V) (idx : Nat)
    (nd : Node (Branch Nat) (Leaf V)) (st' : SnapshotBuilder V)
    (h : SnapshotBuilder.get_node st idx = Except.ok (nd, st'))
    (hva : visitsAll st.nodes) (hlen : st'.nodes.length ≤ 2 ^ 32) :
    visitsAll st'.nodes := by
  unfold SnapshotBuilder.get_node at h
  cases hk : st.nodes.get? idx with
  | none => rw [hk] at h; exact absurd h (by simp)
  | some e =>
    rw [hk] at h
    obtain ⟨hash, e2⟩ := e
    cases e2 with
    | some node =>
      dsimp only at h
      simp only [Except.ok.injEq, Prod.mk.injEq] at h
      obtain ⟨h1, h2⟩ := h
      subst h2
      exact hva
    | none =>
      dsimp only at h
      cases hdb : st.db hash with
      | none => rw [hdb] at h; exact absurd h (by simp)
      | some dbn =>
        rw [hdb] at h
        cases dbn with
        | Leaf lf =>
          dsimp only at h
          simp only [Except.ok.injEq, Prod.mk.injEq] at h
          obtain ⟨h1, h2⟩ := h
          subst h2
          dsimp only
          refine visitsAll_of_eq_visit _ _ (List.length_set _ _ _) ?_ hva
          intro fuel k
          apply visitList_set_nonbranch
          · unfold isBranchAt
            rw [hk]
          · intro b hb
            exact Node.noConfusion (Option.some.inj hb)
        | Branch b =>
          dsimp only at h
          simp only [Except.ok.injEq, Prod.mk.injEq] at h
          obtain ⟨h1, h2⟩ := h
          subst h2
          dsimp only at hlen ⊢
          simp only [List.length_set, List.length_append, List.length_cons,
            List.length_nil] at hlen
          have hm1 : st.nodes.length % 2 ^ 32 = st.nodes.length :=
            Nat.mod_eq_of_lt (by omega)
          rw [hm1]
          have hm2 : (st.nodes.length + 1) % 2 ^ 32 = st.nodes.length + 1 :=
            Nat.mod_eq_of_lt (by omega)
          rw [hm2]
          exact visitsAll_graftArena st.nodes idx hash b.left b.right b.mask
            b.prior_word b.prefixWords hk hva

theorem reachable_visitsAll {V : Type} (st : SnapshotBuilder V)
    (h : BuilderReachable st) : st.nodes.length ≤ 2 ^ 32 → visitsAll st.nodes := by
  induction h with
  | seeded db root =>
    intro hlen
    cases root with
    | Empty => left; rfl
    | Node hsh =>
      right
      refine ⟨[0], rfl, ?_⟩
      show [0].Perm (List.range 1)
      decide
  | step st0 idx n st' hre hget ih =>
    intro hlen
    have hmono := get_node_len_mono st0 idx n st' hget
    exact get_node_visitsAll st0 idx n st' hget (ih (by omega)) hlen

/-- Classification of the dense index returned by the snapshot fold for
the entry it visited. -/
def foldRet {V : Type} (nodes : List (NodeHash × Option (Node (Branch Nat) (Leaf V))))
    (k : Nat) (s s' : SnapshotBuilderFold V) (ret : Nat) : Prop :=
  (isBranchAt nodes k = true ∧ ret = (s'.branches.length - 1) % 2 ^ 32 ∧
    s.branches.length < s'.branches.length) ∨
  (isLeafAt nodes k = true ∧ ret = (s.branch_count + s.leaves.length % 2 ^ 32) % 2 ^ 32 ∧
    s.leaves.length < s'.leaves.length) ∨
  (isUnvisAt nodes k = true ∧
    ret = (s.branch_count + s.leaf_count + s.unvisited_nodes.length % 2 ^ 32) % 2 ^ 32 ∧
    s.unvisited_nodes.length < s'.unvisited_nodes.length)

/-- A child index recorded in a pushed branch: an earlier branch index,
or a leaf slot, or an unvisited slot. -/
def childOk (bc lc lf uf i c : Nat) : Prop :=
  c < i ∨ (∃ x, x < lf ∧ c = (bc + x % 2 ^ 32) % 2 ^ 32) ∨
    (∃ y, y < uf ∧ c = (bc + lc + y % 2 ^ 32) % 2 ^ 32)

theorem childOk_mono (bc lc lf uf lf' uf' i c : Nat) (h : childOk bc lc lf uf i c)
    (hl : lf ≤ lf') (hu : uf ≤ uf') : childOk bc lc lf' uf' i c := by
  rcases h with h | ⟨x, hx, hc⟩ | ⟨y, hy, hc⟩
  · exact Or.inl h
  · exact Or.inr (Or.inl ⟨x, by omega, hc⟩)
  · exact Or.inr (Or.inr ⟨y, by omega, hc⟩)

theorem fold_spec {V : Type} (nodes : List (NodeHash × Option (Node (Branch Nat) (Leaf V)))) :
    ∀ fuel k (s s' : SnapshotBuilderFold V) ret,
      SnapshotBuilderFold.fold nodes fuel s k = some (s', ret) →
      s'.branch_count = s.branch_count ∧
      s'.leaf_count = s.leaf_count ∧
      (∃ t, s'.branches = s.branches ++ t) ∧
      (∃ t, s'.leaves = s.leaves ++ t) ∧
      (∃ t, s'.unvisited_nodes = s.unvisited_nodes ++ t) ∧
      (∃ l, visitList nodes fuel k = some l ∧
        s'.branches.length = s.branches.length + l.countP (isBranchAt nodes) ∧
        s'.leaves.length = s.leaves.length + l.countP (isLeafAt nodes) ∧
        s'.unvisited_nodes.length = s.unvisited_nodes.length + l.countP (isUnvisAt nodes)) ∧
      foldRet nodes k s s' ret ∧
      (∀ i b, s'.branches.get? i = some b →
        s.branches.get? i = some b ∨
        (childOk s.branch_count s.leaf_count s'.leaves.length s'.unvisited_nodes.length
            i b.left ∧
          childOk s.branch_count s.leaf_count s'.leaves.length s'.unvisited_nodes.length
            i b.right)) := by
  intro fuel
  induction fuel with
  | zero =>
    intro k s s' ret h
    exact absurd h (by simp [SnapshotBuilderFold.fold])
  | succ f ih =>
    intro k s s' ret h
    simp only [SnapshotBuilderFold.fold] at h
    cases hk : nodes.get? k with
    | none => rw [hk] at h; exact absurd h (by simp)
    | some e =>
      rw [hk] at h
      obtain ⟨eh, e2⟩ := e
      cases e2 with
      | none =>
        dsimp only at h
        simp only [SnapshotBuilderFold.push_unvisited, Option.some.injEq,
          Prod.mk.injEq] at h
        obtain ⟨h1, h2⟩ := h
        subst h1
        have hu : isUnvisAt nodes k = true := by unfold isUnvisAt; rw [hk]
        have hb : isBranchAt nodes k = false := by unfold isBranchAt; rw [hk]
        have hl : isLeafAt nodes k = false := by unfold isLeafAt; rw [hk]
        refine ⟨rfl, rfl, ⟨[], by simp⟩, ⟨[], by simp⟩, ⟨[eh], rfl⟩,
          ⟨[k], ?_, ?_, ?_, ?_⟩, ?_, ?_⟩
        · exact visitList_nonbranch_step nodes f k (eh, none) hk
            (fun b hb => Option.noConfusion hb)
        · rw [List.countP_cons, List.countP_nil, hb]; rfl
        · rw [List.countP_cons, List.countP_nil, hl]; rfl
        · rw [List.countP_cons, List.countP_nil, hu]
          simp
        · refine Or.inr (Or.inr ⟨hu, h2.symm, ?_⟩)
          simp
        · intro i b hib
          exact Or.inl hib
      | some nd =>
        cases nd with
        | Leaf lf =>
          dsimp only at h
          simp only [SnapshotBuilderFold.push_leaf, Option.some.injEq,
            Prod.mk.injEq] at h
          obtain ⟨h1, h2⟩ := h
          subst h1
          have hu : isUnvisAt nodes k = false := by unfold isUnvisAt; rw [hk]
          have hb : isBranchAt nodes k = false := by unfold isBranchAt; rw [hk]
          have hl : isLeafAt nodes k = true := by unfold isLeafAt; rw [hk]
          refine ⟨rfl, rfl, ⟨[], by simp⟩, ⟨[lf], rfl⟩, ⟨[], by simp⟩,
            ⟨[k], ?_, ?_, ?_, ?_⟩, ?_, ?_⟩
          · exact visitList_nonbranch_step nodes f k (eh, some (Node.Leaf lf)) hk
              (fun b hb => Node.noConfusion (Option.some.inj hb))
          · rw [List.countP_cons, List.countP_nil, hb]; rfl
          · rw [List.countP_cons, List.countP_nil, hl]
            simp
          · rw [List.countP_cons, List.countP_nil, hu]; rfl
          · refine Or.inr (Or.inl ⟨hl, h2.symm, ?_⟩)
            simp
          · intro i b hib
            exact Or.inl hib
        | Branch b =>
          dsimp only at h
          simp only [Bind.bind, Option.bind] at h
          cases hL : SnapshotBuilderFold.fold nodes f s b.left with
          | none => rw [hL] at h; exact absurd h (by simp)
          | some pL =>
            obtain ⟨s1, retL⟩ := pL
            rw [hL] at h
            dsimp only at h
            cases hR : SnapshotBuilderFold.fold nodes f s1 b.right with
            | none => rw [hR] at h; exact absurd h (by simp)
            | some pR =>
              obtain ⟨s2, retR⟩ := pR
              rw [hR] at h
              dsimp only at h
              simp only [SnapshotBuilderFold.push_branch, Option.some.injEq,
                Prod.mk.injEq] at h
              obtain ⟨h1, h2⟩ := h
              subst h1
              obtain ⟨hIL1, hIL2, ⟨tb1, hIL3⟩, ⟨tl1, hIL4⟩, ⟨tu1, hIL5⟩,
                ⟨ll, hll, hllB, hllL, hllU⟩, hretL, hchildL⟩ :=
                ih b.left s s1 retL hL
              obtain ⟨hIR1, hIR2, ⟨tb2, hIR3⟩, ⟨tl2, hIR4⟩, ⟨tu2, hIR5⟩,
                ⟨lr, hlr, hlrB, hlrL, hlrU⟩, hretR, hchildR⟩ :=
                ih b.right s1 s2 retR hR
              have hbk : isBranchAt nodes k = true := by unfold isBranchAt; rw [hk]
              have hlk : isLeafAt nodes k = false := by unfold isLeafAt; rw [hk]
              have huk : isUnvisAt nodes k = false := by unfold isUnvisAt; rw [hk]
              have hble : s.branches.length ≤ s1.branches.length := by rw [hIL3]; simp
              have hble2 : s1.branches.length ≤ s2.branches.length := by rw [hIR3]; simp
              have hlle : s.leaves.length ≤ s1.leaves.length := by rw [hIL4]; simp
              have hlle2 : s1.leaves.length ≤ s2.leaves.length := by rw [hIR4]; simp
              have hule : s.unvisited_nodes.length ≤ s1.unvisited_nodes.length := by
                rw [hIL5]; simp
              have hule2 : s1.unvisited_nodes.length ≤ s2.unvisited_nodes.length := by
                rw [hIR5]; simp
              refine ⟨hIR1.trans hIL1, hIR2.trans hIL2, ?_, ?_, ?_,
                ⟨ll ++ lr ++ [k], ?_, ?_, ?_, ?_⟩, ?_, ?_⟩
              · refine ⟨tb1 ++ (tb2 ++ [Branch.mk retL retR b.mask b.prior_word b.prefixWords]), ?_⟩
                show s2.branches ++ [Branch.mk retL retR b.mask b.prior_word b.prefixWords] = _
                rw [hIR3, hIL3, List.append_assoc, List.append_assoc]
              · refine ⟨tl1 ++ tl2, ?_⟩
                show s2.leaves = _
                rw [hIR4, hIL4, List.append_assoc]
              · refine ⟨tu1 ++ tu2, ?_⟩
                show s2.unvisited_nodes = _
                rw [hIR5, hIL5, List.append_assoc]
              · exact visitList_branch_step nodes f k eh b ll lr hk hll hlr
              · show (s2.branches ++ [Branch.mk retL retR b.mask b.prior_word b.prefixWords]).length = _
                rw [List.countP_append, List.countP_append,
                  List.countP_cons_of_pos _ _ hbk, List.countP_nil,
                  List.length_append]
                simp only [List.length_cons, List.length_nil]
                omega
              · show s2.leaves.length = _
                rw [List.countP_append, List.countP_append,
                  List.countP_cons_of_neg _ _ (by simp [hlk]), List.countP_nil]
                omega
              · show s2.unvisited_nodes.length = _
                rw [List.countP_append, List.countP_append,
                  List.countP_cons_of_neg _ _ (by simp [huk]), List.countP_nil]
                omega
              · refine Or.inl ⟨hbk, ?_, ?_⟩
                · rw [← h2]
                  show s2.branches.length % 2 ^ 32 =
                    ((s2.branches ++ [_]).length - 1) % 2 ^ 32
                  rw [List.length_append]
                  rw [show (s2.branches.length + [_].length - 1 : Nat) =
                    s2.branches.length from by simp]
                · show s.branches.length < (s2.branches ++ [_]).length
                  rw [List.length_append]
                  simp only [List.length_cons, List.length_nil]
                  omega
              · intro i bb hib
                dsimp only at hib ⊢
                change (s2.branches ++ [_]).get? i = some bb at hib
                by_cases hi : i < s2.branches.length
                · rw [List.get?_append hi] at hib
                  rcases hchildR i bb hib with hib1 | ⟨hcl, hcr⟩
                  · rcases hchildL i bb hib1 with hib0 | ⟨hcl, hcr⟩
                    · exact Or.inl hib0
                    · refine Or.inr ⟨childOk_mono _ _ _ _ _ _ _ _ hcl (by omega) (by omega),
                        childOk_mono _ _ _ _ _ _ _ _ hcr (by omega) (by omega)⟩
                  · rw [hIL1, hIL2] at hcl hcr
                    exact Or.inr ⟨childOk_mono _ _ _ _ _ _ _ _ hcl (by omega) (by omega),
                      childOk_mono _ _ _ _ _ _ _ _ hcr (by omega) (by omega)⟩
                · rw [List.get?_append_right (by omega)] at hib
                  have hi0 : i - s2.branches.length = 0 := by
                    by_contra hc
                    rw [List.get?_eq_none.mpr (by simp; omega)] at hib
                    exact absurd hib (by simp)
                  rw [hi0] at hib
                  have hieq : i = s2.branches.length := by omega
                  obtain rfl : bb = _ := (Option.some.inj hib).symm
                  subst hieq
                  refine Or.inr ⟨?_, ?_⟩
                  · show childOk _ _ _ _ _ retL
                    rcases hretL with ⟨_, hr1, hr2⟩ | ⟨_, hr1, hr2⟩ | ⟨_, hr1, hr2⟩
                    · refine Or.inl ?_
                      have := Nat.mod_le (s1.branches.length - 1) (2 ^ 32)
                      omega
                    · exact Or.inr (Or.inl ⟨s.leaves.length, by omega, hr1⟩)
                    · exact Or.inr (Or.inr ⟨s.unvisited_nodes.length, by omega, hr1⟩)
                  · show childOk _ _ _ _ _ retR
                    rcases hretR with ⟨_, hr1, hr2⟩ | ⟨_, hr1, hr2⟩ | ⟨_, hr1, hr2⟩
                    · refine Or.inl ?_
                      have := Nat.mod_le (s2.branches.length - 1) (2 ^ 32)
                      omega
                    · rw [hIL1] at hr1
                      exact Or.inr (Or.inl ⟨s1.leaves.length, by omega, hr1⟩)
                    · rw [hIL1, hIL2] at hr1
                      exact Or.inr (Or.inr ⟨s1.unvisited_nodes.length, by omega, hr1⟩)

/-- The entry-level branch predicate of `SnapshotBuilderFold.new`. -/
def entryIsBranch {V : Type} (e : NodeHash × Option (Node (Branch Nat) (Leaf V))) : Bool :=
  match e.2 with | some (Node.Branch _) => true | _ => false

/-- The entry-level leaf predicate of `SnapshotBuilderFold.new`. -/
def entryIsLeaf {V : Type} (e : NodeHash × Option (Node (Branch Nat) (Leaf V))) : Bool :=
  match e.2 with | some (Node.Leaf _) => true | _ => false

/-- The entry-level unvisited predicate of `SnapshotBuilderFold.new`. -/
def entryIsUnvis {V : Type} (e : NodeHash × Option (Node (Branch Nat) (Leaf V))) : Bool :=
  match e.2 with | none => true | _ => false

theorem isBranchAt_get {V : Type}
    (nodes : List (NodeHash × Option (Node (Branch Nat) (Leaf V)))) (j : Nat) :
    isBranchAt nodes j = ((nodes.get? j).map entryIsBranch).getD false := by
  unfold isBranchAt
  cases hj : nodes.get? j with
  | none => rfl
  | some e =>
    obtain ⟨eh, e2⟩ := e
    cases e2 with
    | none => rfl
    | some nd => cases nd <;> rfl

theorem isLeafAt_get {V : Type}
    (nodes : List (NodeHash × Option (Node (Branch Nat) (Leaf V)))) (j : Nat) :
    isLeafAt nodes j = ((nodes.get? j).map entryIsLeaf).getD false := by
  unfold isLeafAt
  cases hj : nodes.get? j with
  | none => rfl
  | some e =>
    obtain ⟨eh, e2⟩ := e
    cases e2 with
    | none => rfl
    | some nd => cases nd <;> rfl

theorem isUnvisAt_get {V : Type}
    (nodes : List (NodeHash × Option (Node (Branch Nat) (Leaf V)))) (j : Nat) :
    isUnvisAt nodes j = ((nodes.get? j).map entryIsUnvis).getD false := by
  unfold isUnvisAt
  cases hj : nodes.get? j with
  | none => rfl
  | some e =>
    obtain ⟨eh, e2⟩ := e
    cases e2 with
    | none => rfl
    | some nd => cases nd <;> rfl

theorem countP_range_opt {α : Type} (p : α → Bool) (l : List α) :
    (List.range l.length).countP (fun j => ((l.get? j).map p).getD false) = l.countP p := by
  induction l using List.reverseRecOn with
  | nil => rfl
  | append_singleton l' a ihl =>
    rw [show (l' ++ [a]).length = l'.length + 1 from by
      rw [List.length_append]; rfl]
    rw [List.range_succ, List.countP_append, List.countP_append]
    have h1 : (List.range l'.length).countP
        (fun j => (((l' ++ [a]).get? j).map p).getD false) =
        (List.range l'.length).countP (fun j => ((l'.get? j).map p).getD false) := by
      apply List.countP_congr
      intro j hj
      rw [List.get?_append (List.mem_range.mp hj)]
    rw [h1, ihl, List.countP_cons, List.countP_nil, List.countP_cons, List.countP_nil]
    have h2 : ((((l' ++ [a]).get? l'.length).map p).getD false) = p a := by
      rw [List.get?_concat_length]
      rfl
    rw [h2]

/-- On a list of in-range indices, each index satisfies exactly one of
the three entry kinds, so the three counts add up to the list length. -/
theorem counts_tri {V : Type}
    (nodes : List (NodeHash × Option (Node (Branch Nat) (Leaf V)))) :
    ∀ l : List Nat, (∀ j ∈ l, j < nodes.length) →
      l.countP (isBranchAt nodes) + l.countP (isLeafAt nodes) +
        l.countP (isUnvisAt nodes) = l.length := by
  intro l
  induction l with
  | nil => intro _; rfl
  | cons j l ihl =>
    intro hmem
    have hj : j < nodes.length := hmem j (by simp)
    have hrest := ihl (fun x hx => hmem x (by simp [hx]))
    rw [List.length_cons]
    cases hjk : nodes.get? j with
    | none =>
      exact absurd (List.get?_eq_none.mp hjk) (by omega)
    | some e =>
      obtain ⟨eh, e2⟩ := e
      have hb := isBranchAt_get nodes j
      have hl := isLeafAt_get nodes j
      have hu := isUnvisAt_get nodes j
      rw [hjk] at hb hl hu
      cases e2 with
      | none =>
        rw [List.countP_cons_of_neg _ _ (by simp [hb, entryIsBranch]),
          List.countP_cons_of_neg _ _ (by simp [hl, entryIsLeaf]),
          List.countP_cons_of_pos _ _ (by simp [hu, entryIsUnvis])]
        omega
      | some nd =>
        cases nd with
        | Branch b =>
          rw [List.countP_cons_of_pos _ _ (by simp [hb, entryIsBranch]),
            List.countP_cons_of_neg _ _ (by simp [hl, entryIsLeaf]),
            List.countP_cons_of_neg _ _ (by simp [hu, entryIsUnvis])]
          omega
        | Leaf lf =>
          rw [List.countP_cons_of_neg _ _ (by simp [hb, entryIsBranch]),
            List.countP_cons_of_pos _ _ (by simp [hl, entryIsLeaf]),
            List.countP_cons_of_neg _ _ (by simp [hu, entryIsUnvis])]
          omega

theorem countP_isBranchAt_perm {V : Type} (st : SnapshotBuilder V) (l0 : List Nat)
    (hperm : l0.Perm (List.range st.nodes.length)) :
    l0.countP (isBranchAt st.nodes) = st.nodes.countP entryIsBranch := by
  rw [hperm.countP_eq, ← countP_range_opt entryIsBranch st.nodes]
  apply List.countP_congr
  intro j hj
  rw [isBranchAt_get]

theorem countP_isLeafAt_perm {V : Type} (st : SnapshotBuilder V) (l0 : List Nat)
    (hperm : l0.Perm (List.range st.nodes.length)) :
    l0.countP (isLeafAt st.nodes) = st.nodes.countP entryIsLeaf := by
  rw [hperm.countP_eq, ← countP_range_opt entryIsLeaf st.nodes]
  apply List.countP_congr
  intro j hj
  rw [isLeafAt_get]

theorem new_branch_count {V : Type} (st : SnapshotBuilder V) :
    (SnapshotBuilderFold.new st.nodes).branch_count =
      st.nodes.countP entryIsBranch % 2 ^ 32 := rfl

theorem new_leaf_count {V : Type} (st : SnapshotBuilder V) :
    (SnapshotBuilderFold.new st.nodes).leaf_count =
      st.nodes.countP entryIsLeaf % 2 ^ 32 := rfl

theorem build_invariants_core {V : Type} (st : SnapshotBuilder V) (s : Snapshot V)
    (hva : visitsAll st.nodes) (hlen : st.nodes.length < 2 ^ 32)
    (hbuild : st.build_initial_snapshot = some s) :
    shapeTableOk s ∧ branchChildLtParent s := by
  unfold SnapshotBuilder.build_initial_snapshot at hbuild
  by_cases hnil : st.nodes.isEmpty
  · rw [if_pos hnil] at hbuild
    obtain rfl : s = _ := (Option.some.inj hbuild).symm
    constructor
    · exact Or.inl ⟨rfl, rfl, rfl⟩
    · intro i b hib
      exact absurd hib (by simp)
  · rw [if_neg hnil] at hbuild
    simp only [Bind.bind, Option.bind] at hbuild
    cases hf : SnapshotBuilderFold.fold st.nodes st.nodes.length
        (SnapshotBuilderFold.new st.nodes) 0 with
    | none => rw [hf] at hbuild; exact absurd hbuild (by simp)
    | some p =>
      obtain ⟨sF, ret⟩ := p
      rw [hf] at hbuild
      dsimp only at hbuild
      obtain rfl : s = sF.build := (Option.some.inj hbuild).symm
      have hne : st.nodes ≠ [] := by
        intro hh
        rw [hh] at hnil
        exact hnil rfl
      rcases hva with hnil2 | ⟨l0, hl0, hperm⟩
      · exact absurd hnil2 hne
      obtain ⟨hC1, hC2, ⟨tb, htb⟩, _, _, ⟨l, hl, hB, hL, hU⟩, hret, hchild⟩ :=
        fold_spec st.nodes st.nodes.length 0 _ sF ret hf
      obtain rfl : l = l0 := by
        rw [hl0] at hl
        exact (Option.some.inj hl).symm
      have hmem : ∀ j ∈ l, j < st.nodes.length := fun j hj =>
        List.mem_range.mp (hperm.mem_iff.mp hj)
      have hsum := counts_tri st.nodes l hmem
      have hlen0 : l.length = st.nodes.length := by
        rw [hperm.length_eq, List.length_range]
      have hBle : l.countP (isBranchAt st.nodes) ≤ l.length := List.countP_le_length _
      have hLle : l.countP (isLeafAt st.nodes) ≤ l.length := List.countP_le_length _
      have hUle : l.countP (isUnvisAt st.nodes) ≤ l.length := List.countP_le_length _
      have hbc : (SnapshotBuilderFold.new st.nodes).branch_count =
          l.countP (isBranchAt st.nodes) := by
        rw [new_branch_count, ← countP_isBranchAt_perm st l hperm]
        exact Nat.mod_eq_of_lt (by omega)
      have hlc : (SnapshotBuilderFold.new st.nodes).leaf_count =
          l.countP (isLeafAt st.nodes) := by
        rw [new_leaf_count, ← countP_isLeafAt_perm st l hperm]
        exact Nat.mod_eq_of_lt (by omega)
      have hz1 : (SnapshotBuilderFold.new st.nodes).branches.length = 0 := rfl
      have hz2 : (SnapshotBuilderFold.new st.nodes).leaves.length = 0 := rfl
      have hz3 : (SnapshotBuilderFold.new st.nodes).unvisited_nodes.length = 0 := rfl
      constructor
      · show shapeTableOk sF.build
        unfold shapeTableOk
        dsimp only [SnapshotBuilderFold.build]
        by_cases hB1 : 1 ≤ sF.branches.length
        · exact Or.inr (Or.inr hB1)
        · have hBv0 : l.countP (isBranchAt st.nodes) = 0 := by omega
          have hn1 : 0 < st.nodes.length := List.length_pos.mpr hne
          obtain ⟨e0, he0⟩ : ∃ e, st.nodes.get? 0 = some e := by
            cases hg : st.nodes.get? 0 with
            | none => exact absurd (List.get?_eq_none.mp hg) (by omega)
            | some e => exact ⟨e, rfl⟩
          obtain ⟨eh0, e02⟩ := e0
          have hnb : ∀ b, e02 ≠ some (Node.Branch b) := by
            intro b hb2
            subst hb2
            have htrue : isBranchAt st.nodes 0 = true := by
              unfold isBranchAt
              rw [he0]
            have hpos : 0 < l.countP (isBranchAt st.nodes) :=
              List.countP_pos.mpr ⟨0, hperm.mem_iff.mpr (List.mem_range.mpr hn1), htrue⟩
            omega
          have hl00 : visitList st.nodes st.nodes.length 0 = some [0] := by
            obtain ⟨m, hm⟩ : ∃ m, st.nodes.length = m + 1 :=
              ⟨st.nodes.length - 1, by omega⟩
            rw [hm]
            exact visitList_nonbranch_step st.nodes m 0 (eh0, e02) he0
              (fun b hb2 => hnb b hb2)
          obtain rfl : l = [0] := by
            rw [hl0] at hl00
            exact Option.some.inj hl00
          refine Or.inr (Or.inl ⟨by omega, ?_⟩)
          have hlenone : st.nodes.length = 1 := by
            rw [← hlen0]
            rfl
          omega
      · show branchChildLtParent sF.build
        unfold branchChildLtParent
        dsimp only [SnapshotBuilderFold.build]
        intro i b hib
        rcases hchild i b hib with hib0 | ⟨hcl, hcr⟩
        · exact absurd hib0 (by simp [SnapshotBuilderFold.new])
        · rw [hbc, hlc] at hcl hcr
          constructor
          · intro hlt
            rcases hcl with h | ⟨x, hx, hc⟩ | ⟨y, hy, hc⟩
            · exact h
            · exfalso
              rw [Nat.mod_eq_of_lt (show x < 2 ^ 32 by omega),
                Nat.mod_eq_of_lt (show l.countP (isBranchAt st.nodes) + x < 2 ^ 32
                  by omega)] at hc
              omega
            · exfalso
              rw [Nat.mod_eq_of_lt (show y < 2 ^ 32 by omega),
                Nat.mod_eq_of_lt
                  (show l.countP (isBranchAt st.nodes) +
                    l.countP (isLeafAt st.nodes) + y < 2 ^ 32 by omega)] at hc
              omega
          · intro hlt
            rcases hcr with h | ⟨x, hx, hc⟩ | ⟨y, hy, hc⟩
            · exact h
            · exfalso
              rw [Nat.mod_eq_of_lt (show x < 2 ^ 32 by omega),
                Nat.mod_eq_of_lt (show l.countP (isBranchAt st.nodes) + x < 2 ^ 32
                  by omega)] at hc
              omega
            · exfalso
              rw [Nat.mod_eq_of_lt (show y < 2 ^ 32 by omega),
                Nat.mod_eq_of_lt
                  (show l.countP (isBranchAt st.nodes) +
                    l.countP (isLeafAt st.nodes) + y < 2 ^ 32 by omega)] at hc
              omega

/-- Builder state after faulting in the root branch of the example trie. -/
def exBuilderMid1 : SnapshotBuilder Nat :=
  { db := exDb,
    nodes := [(exHashRoot, some (Node.Branch exBranchC7)), (exHashA, none),
      (exHashB, none)] }

/-- Builder state after additionally faulting in the left leaf. -/
def exBuilderMid2 : SnapshotBuilder Nat :=
  { db := exDb,
    nodes := [(exHashRoot, some (Node.Branch exBranchC7)),
      (exHashA, some (Node.Leaf exLeafA)), (exHashB, none)] }

/-- Final builder state of the example run: root branch and both leaves
loaded. -/
def exBuilderFinal : SnapshotBuilder Nat :=
  { db := exDb,
    nodes := [(exHashRoot, some (Node.Branch exBranchC7)),
      (exHashA, some (Node.Leaf exLeafA)), (exHashB, some (Node.Leaf exLeafB))] }

theorem exBuilderFinal_reachable : BuilderReachable exBuilderFinal :=
  BuilderReachable.step exBuilderMid2 2 (Node.Leaf exLeafB) exBuilderFinal
    (BuilderReachable.step exBuilderMid1 1 (Node.Leaf exLeafA) exBuilderMid2
      (BuilderReachable.step exBuilder0 0 (Node.Branch exBranchC7) exBuilderMid1
        (BuilderReachable.seeded exDb (TrieRoot.Node exHashRoot)) rfl)
      rfl)
    rfl

/-- Claim C7 (amended): every `Snapshot` materialized by
`build_initial_snapshot` from a builder reachable through `get_node`
(with the dense `u32` index space not exhausted) satisfies the root
decision table of the shape invariants, and every branch child index
that names a branch is strictly below its parent branch's own index.
The literal claim — that every child index over the whole dense space is
below the parent's — is refuted by `snapshot_child_lt_parent_cex`:
leaf and unvisited children are numbered above the branch region. -/
theorem snapshot_build_invariants {V : Type} (st : SnapshotBuilder V) (s : Snapshot V)
    (hreach : BuilderReachable st) (hlen : st.nodes.length < 2 ^ 32)
    (hbuild : st.build_initial_snapshot = some s) :
    shapeTableOk s ∧ branchChildLtParent s :=
  build_invariants_core st s (reachable_visitsAll st hreach (by omega)) hlen hbuild

/-- Witness for claim C7: the two-leaf example run materializes
`exSnapC7`, which satisfies the shape table and the branch-region child
bound. -/
theorem snapshot_build_invariants_witness :
    BuilderReachable exBuilderFinal ∧ exBuilderFinal.nodes.length < 2 ^ 32 ∧
    exBuilderFinal.build_initial_snapshot = some exSnapC7 ∧
    shapeTableOk exSnapC7 ∧ branchChildLtParent exSnapC7 := by
  have h := snapshot_build_invariants exBuilderFinal exSnapC7 exBuilderFinal_reachable
    (by decide) rfl
  exact ⟨exBuilderFinal_reachable, by decide, rfl, h.1, h.2⟩

/-- Counterexample for claim C7 as literally stated: the example builder
run produces the snapshot `exSnapC7`, whose root branch at index 0 has
its leaf children at dense indices 1 and 2 — not below the parent. -/
theorem snapshot_child_lt_parent_cex :
    exBuilderRun = Except.ok exBuilderFinal ∧
    exBuilderFinal.build_initial_snapshot = some exSnapC7 ∧
    childLtParentB exSnapC7 = false ∧ ¬ childLtParent exSnapC7 := by
  refine ⟨rfl, rfl, rfl, ?_⟩
  intro h
  exact absurd ((h 0 exBranchC7 rfl).1) (by omega)

theorem builderExt_refl {V : Type} (st : SnapshotBuilder V) : BuilderExt st st :=
  ⟨rfl, Nat.le_refl _, fun j e h => ⟨e, h, rfl, fun n hn => hn⟩⟩

theorem builderExt_trans {V : Type} {st1 st2 st3 : SnapshotBuilder V}
    (h12 : BuilderExt st1 st2) (h23 : BuilderExt st2 st3) : BuilderExt st1 st3 := by
  obtain ⟨hdb12, hlen12, hst12⟩ := h12
  obtain ⟨hdb23, hlen23, hst23⟩ := h23
  refine ⟨hdb12.trans hdb23, hlen12.trans hlen23, ?_⟩
  intro j e h
  obtain ⟨e', he', he'1, he'2⟩ := hst12 j e h
  obtain ⟨e'', he'', he''1, he''2⟩ := hst23 j e' he'
  exact ⟨e'', he'', he''1.trans he'1, fun n hn => he''2 n (he'2 n hn)⟩

/-- A single builder `get_node` step only extends the arena. -/
theorem get_node_builderExt {V : Type} (st : SnapshotBuilder V) (idx : Nat)
    (nd : Node (Branch Nat) (Leaf V)) (st' : SnapshotBuilder V)
    (h : SnapshotBuilder.get_node st idx = Except.ok (nd, st')) :
    BuilderExt st st' := by
  unfold SnapshotBuilder.get_node at h
  cases hk : st.nodes.get? idx with
  | none => rw [hk] at h; exact absurd h (by simp)
  | some e =>
    rw [hk] at h
    obtain ⟨hash, e2⟩ := e
    cases e2 with
    | some node =>
      dsimp only at h
      simp only [Except.ok.injEq, Prod.mk.injEq] at h
      obtain ⟨h1, h2⟩ := h
      subst h2
      exact builderExt_refl st
    | none =>
      dsimp only at h
      cases hdb : st.db hash with
      | none => rw [hdb] at h; exact absurd h (by simp)
      | some dbn =>
        rw [hdb] at h
        have hlt : idx < st.nodes.length := get?_some_lt _ _ _ hk
        cases dbn with
        | Leaf lf =>
          dsimp only at h
          simp only [Except.ok.injEq, Prod.mk.injEq] at h
          obtain ⟨h1, h2⟩ := h
          subst h2
          refine ⟨rfl, by rw [List.length_set], ?_⟩
          intro j e he
          by_cases hji : j = idx
          · subst hji
            rw [hk] at he
            obtain rfl : e = (hash, none) := (Option.some.inj he).symm
            exact ⟨(hash, some (Node.Leaf lf)),
              by dsimp only; rw [List.get?_set_eq_of_lt _ hlt], rfl,
              fun n hn => by exact absurd hn (by simp)⟩
          · exact ⟨e, by
              dsimp only
              rw [List.get?_set_ne _ _ (fun hh => hji hh.symm)]
              exact he, rfl, fun n hn => hn⟩
        | Branch b =>
          dsimp only at h
          simp only [Except.ok.injEq, Prod.mk.injEq] at h
          obtain ⟨h1, h2⟩ := h
          subst h2
          refine ⟨rfl, by
            dsimp only
            rw [List.length_set, List.length_append]
            simp, ?_⟩
          intro j e he
          have hjlt : j < st.nodes.length := get?_some_lt _ _ _ he
          by_cases hji : j = idx
          · subst hji
            rw [hk] at he
            obtain rfl : e = (hash, none) := (Option.some.inj he).symm
            refine ⟨(hash, some nd), ?_, rfl, fun n hn => by exact absurd hn (by simp)⟩
            dsimp only
            rw [List.get?_set_eq_of_lt _ (by rw [List.length_append]; omega), h1]
          · exact ⟨e, by
              dsimp only
              rw [List.get?_set_ne _ _ (fun hh => hji hh.symm), List.get?_append hjlt]
              exact he, rfl, fun n hn => hn⟩

/-- After a successful builder `get_node`, the entry is loaded with the
returned node. -/
theorem get_node_loads {V : Type} (st : SnapshotBuilder V) (idx : Nat)
    (nd : Node (Branch Nat) (Leaf V)) (st' : SnapshotBuilder V)
    (h : SnapshotBuilder.get_node st idx = Except.ok (nd, st')) :
    ∃ hash, st'.nodes.get? idx = some (hash, some nd) := by
  unfold SnapshotBuilder.get_node at h
  cases hk : st.nodes.get? idx with
  | none => rw [hk] at h; exact absurd h (by simp)
  | some e =>
    rw [hk] at h
    obtain ⟨hash, e2⟩ := e
    cases e2 with
    | some node =>
      dsimp only at h
      simp only [Except.ok.injEq, Prod.mk.injEq] at h
      obtain ⟨h1, h2⟩ := h
      subst h1; subst h2
      exact ⟨hash, hk⟩
    | none =>
      dsimp only at h
      cases hdb : st.db hash with
      | none => rw [hdb] at h; exact absurd h (by simp)
      | some dbn =>
        rw [hdb] at h
        have hlt : idx < st.nodes.length := get?_some_lt _ _ _ hk
        cases dbn with
        | Leaf lf =>
          dsimp only at h
          simp only [Except.ok.injEq, Prod.mk.injEq] at h
          obtain ⟨h1, h2⟩ := h
          subst h1; subst h2
          exact ⟨hash, by dsimp only; rw [List.get?_set_eq_of_lt _ hlt]⟩
        | Branch b =>
          dsimp only at h
          simp only [Except.ok.injEq, Prod.mk.injEq] at h
          obtain ⟨h1, h2⟩ := h
          subst h1; subst h2
          exact ⟨hash, by
            dsimp only
            rw [List.get?_set_eq_of_lt _ (by rw [List.length_append]; omega)]⟩

/-- A loaded entry is stable along a builder extension. -/
theorem ext_loaded {V : Type} {st1 stF : SnapshotBuilder V}
    (hext : BuilderExt st1 stF) {j : Nat} {hash : NodeHash}
    {nd : Node (Branch Nat) (Leaf V)}
    (h : st1.nodes.get? j = some (hash, some nd)) :
    stF.nodes.get? j = some (hash, some nd) := by
  obtain ⟨_, _, hst⟩ := hext
  obtain ⟨e', he', he'1, he'2⟩ := hst j (hash, some nd) h
  obtain ⟨eh, e2⟩ := e'
  have h1 : eh = hash := he'1
  have h2 : e2 = some nd := he'2 nd rfl
  rw [he', h1, h2]

/-- A loaded entry satisfies `get_node` without changing the state. -/
theorem get_node_of_loaded {V : Type} (st : SnapshotBuilder V) (j : Nat)
    (hash : NodeHash) (nd : Node (Branch Nat) (Leaf V))
    (h : st.nodes.get? j = some (hash, some nd)) :
    SnapshotBuilder.get_node st j = Except.ok (nd, st) := by
  unfold SnapshotBuilder.get_node
  rw [h]

/-- The standing builder invariant of the agreement proof: arena bounds,
arena hash agreement and database consistency. -/
def BInv {V : Type} (vh : V → List Nat) (st : SnapshotBuilder V) : Prop :=
  arenaBounds st.nodes ∧ arenaHashAgree vh st.nodes ∧ DbConsistent vh st.db ∧
    visitsAll st.nodes

theorem arenaNodeHash_branch_eq {V : Type} (vh : V → List Nat)
    (nodes nodes' : List (NodeHash × Option (Node (Branch Nat) (Leaf V)))) (b : Branch Nat)
    (hfl : (nodes'.get? b.left).map Prod.fst = (nodes.get? b.left).map Prod.fst)
    (hfr : (nodes'.get? b.right).map Prod.fst = (nodes.get? b.right).map Prod.fst) :
    arenaNodeHash vh nodes' (Node.Branch b) = arenaNodeHash vh nodes (Node.Branch b) := by
  unfold arenaNodeHash
  dsimp only
  rw [hfl, hfr]

/-- A successful builder `get_node` preserves the standing invariant as
long as the `u32` index space is not exhausted. -/
theorem get_node_BInv {V : Type} (vh : V → List Nat) (st : SnapshotBuilder V) (idx : Nat)
    (nd : Node (Branch Nat) (Leaf V)) (st' : SnapshotBuilder V)
    (h : SnapshotBuilder.get_node st idx = Except.ok (nd, st'))
    (hlen : st'.nodes.length ≤ 2 ^ 32) (hinv : BInv vh st) : BInv vh st' := by
  obtain ⟨hbnd, hagree, hdbc, hva⟩ := hinv
  have hva' : visitsAll st'.nodes := get_node_visitsAll st idx nd st' h hva hlen
  unfold SnapshotBuilder.get_node at h
  cases hk : st.nodes.get? idx with
  | none => rw [hk] at h; exact absurd h (by simp)
  | some e =>
    rw [hk] at h
    obtain ⟨hash, e2⟩ := e
    cases e2 with
    | some node =>
      dsimp only at h
      simp only [Except.ok.injEq, Prod.mk.injEq] at h
      obtain ⟨h1, h2⟩ := h
      subst h2
      exact ⟨hbnd, hagree, hdbc, hva'⟩
    | none =>
      dsimp only at h
      cases hdb : st.db hash with
      | none => rw [hdb] at h; exact absurd h (by simp)
      | some dbn =>
        rw [hdb] at h
        have hlt : idx < st.nodes.length := get?_some_lt _ _ _ hk
        cases dbn with
        | Leaf lf =>
          dsimp only at h
          simp only [Except.ok.injEq, Prod.mk.injEq] at h
          obtain ⟨h1, h2⟩ := h
          subst h2
          dsimp only at hlen ⊢
          have hfst : ∀ k,
              ((st.nodes.set idx (hash, some (Node.Leaf lf))).get? k).map Prod.fst =
                (st.nodes.get? k).map Prod.fst := by
            intro k
            by_cases hki : k = idx
            · subst hki
              rw [List.get?_set_eq_of_lt _ hlt, hk]
              rfl
            · rw [List.get?_set_ne _ _ (fun hh => hki hh.symm)]
          refine ⟨?_, ?_, hdbc, hva'⟩
          · intro j h2 bb hj
            by_cases hji : j = idx
            · subst hji
              rw [List.get?_set_eq_of_lt _ hlt] at hj
              exact absurd (congrArg Prod.snd (Option.some.inj hj)) (by simp)
            · rw [List.get?_set_ne _ _ (fun hh => hji hh.symm)] at hj
              have := hbnd j h2 bb hj
              rw [List.length_set]
              exact this
          · intro j h2 n hj
            by_cases hji : j = idx
            · subst hji
              rw [List.get?_set_eq_of_lt _ hlt] at hj
              have h3 := Option.some.inj hj
              have he1 : h2 = hash := (congrArg Prod.fst h3).symm
              have he2 : n = Node.Leaf lf :=
                (Option.some.inj (congrArg Prod.snd h3)).symm
              rw [he2, he1]
              exact hdbc hash _ hdb
            · rw [List.get?_set_ne _ _ (fun hh => hji hh.symm)] at hj
              have hold := hagree j h2 n hj
              cases n with
              | Leaf lf2 => exact hold
              | Branch bb =>
                rw [arenaNodeHash_branch_eq vh st.nodes _ bb (hfst bb.left) (hfst bb.right)]
                exact hold
        | Branch b =>
          dsimp only at h
          simp only [Except.ok.injEq, Prod.mk.injEq] at h
          obtain ⟨h1, h2⟩ := h
          subst h2
          dsimp only at hlen ⊢
          rw [List.length_set, List.length_append] at hlen
          simp only [List.length_cons, List.length_nil] at hlen
          have hm1 : st.nodes.length % 2 ^ 32 = st.nodes.length :=
            Nat.mod_eq_of_lt (by omega)
          have hm2 : (st.nodes.length + 1) % 2 ^ 32 = st.nodes.length + 1 :=
            Nat.mod_eq_of_lt (by omega)
          rw [hm1, hm2] at hva' ⊢
          have hglen : ((st.nodes ++ [(b.left, none), (b.right, none)]).set idx
              (hash, some (Node.Branch (Branch.mk st.nodes.length (st.nodes.length + 1)
                b.mask b.prior_word b.prefixWords)))).length = st.nodes.length + 2 := by
            rw [List.length_set, List.length_append]
            rfl
          have hgj : ∀ k, k ≠ idx → k < st.nodes.length →
              ((st.nodes ++ [(b.left, none), (b.right, none)]).set idx
                (hash, some (Node.Branch (Branch.mk st.nodes.length (st.nodes.length + 1)
                  b.mask b.prior_word b.prefixWords)))).get? k = st.nodes.get? k := by
            intro k hki hklt
            rw [List.get?_set_ne _ _ (fun hh => hki hh.symm), List.get?_append hklt]
          have hgidx : ((st.nodes ++ [(b.left, none), (b.right, none)]).set idx
              (hash, some (Node.Branch (Branch.mk st.nodes.length (st.nodes.length + 1)
                b.mask b.prior_word b.prefixWords)))).get? idx =
              some (hash, some (Node.Branch (Branch.mk st.nodes.length
                (st.nodes.length + 1) b.mask b.prior_word b.prefixWords))) := by
            rw [List.get?_set_eq_of_lt _ (by rw [List.length_append]; omega)]
          have hgn : ((st.nodes ++ [(b.left, none), (b.right, none)]).set idx
              (hash, some (Node.Branch (Branch.mk st.nodes.length (st.nodes.length + 1)
                b.mask b.prior_word b.prefixWords)))).get? st.nodes.length =
              some (b.left, none) := by
            rw [List.get?_set_ne _ _ (by omega), List.get?_append_right (by omega)]
            simp
          have hgn1 : ((st.nodes ++ [(b.left, none), (b.right, none)]).set idx
              (hash, some (Node.Branch (Branch.mk st.nodes.length (st.nodes.length + 1)
                b.mask b.prior_word b.prefixWords)))).get? (st.nodes.length + 1) =
              some (b.right, none) := by
            rw [List.get?_set_ne _ _ (by omega), List.get?_append_right (by omega)]
            rw [show st.nodes.length + 1 - st.nodes.length = 1 from by omega]
            rfl
          have hfst : ∀ k, k < st.nodes.length →
              (((st.nodes ++ [(b.left, none), (b.right, none)]).set idx
                (hash, some (Node.Branch (Branch.mk st.nodes.length (st.nodes.length + 1)
                  b.mask b.prior_word b.prefixWords)))).get? k).map Prod.fst =
                (st.nodes.get? k).map Prod.fst := by
            intro k hklt
            by_cases hki : k = idx
            · subst hki
              rw [hgidx, hk]
              rfl
            · rw [hgj k hki hklt]
          refine ⟨?_, ?_, hdbc, hva'⟩
          · intro j h2 bb hj
            rw [hglen]
            by_cases hji : j = idx
            · subst hji
              rw [hgidx] at hj
              have h3 := Option.some.inj hj
              obtain rfl : Branch.mk st.nodes.length (st.nodes.length + 1)
                  b.mask b.prior_word b.prefixWords = bb :=
                Node.Branch.inj (Option.some.inj (congrArg Prod.snd h3))
              refine ⟨?_, rfl, ?_⟩
              · show j < st.nodes.length
                omega
              · show st.nodes.length + 1 + 1 ≤ st.nodes.length + 2
                omega
            · by_cases hklt : j < st.nodes.length
              · rw [hgj j hji hklt] at hj
                have := hbnd j h2 bb hj
                exact ⟨this.1, this.2.1, by omega⟩
              · by_cases hjn : j = st.nodes.length
                · subst hjn
                  rw [hgn] at hj
                  exact absurd (congrArg Prod.snd (Option.some.inj hj)) (by simp)
                · by_cases hjn1 : j = st.nodes.length + 1
                  · subst hjn1
                    rw [hgn1] at hj
                    exact absurd (congrArg Prod.snd (Option.some.inj hj)) (by simp)
                  · rw [List.get?_eq_none.mpr (by rw [hglen]; omega)] at hj
                    exact absurd hj (by simp)
          · intro j h2 n hj
            by_cases hji : j = idx
            · subst hji
              rw [hgidx] at hj
              have h3 := Option.some.inj hj
              have he1 : h2 = hash := (congrArg Prod.fst h3).symm
              have he2 : n = Node.Branch (Branch.mk st.nodes.length
                  (st.nodes.length + 1) b.mask b.prior_word b.prefixWords) :=
                (Option.some.inj (congrArg Prod.snd h3)).symm
              rw [he2, he1]
              unfold arenaNodeHash
              dsimp only
              rw [hgn, hgn1]
              exact hdbc hash _ hdb
            · by_cases hklt : j < st.nodes.length
              · rw [hgj j hji hklt] at hj
                have hold := hagree j h2 n hj
                cases n with
                | Leaf lf2 => exact hold
                | Branch bb =>
                  have hbb := hbnd j h2 bb hj
                  rw [arenaNodeHash_branch_eq vh st.nodes _ bb
                    (hfst bb.left (by omega)) (hfst bb.right (by omega))]
                  exact hold
              · by_cases hjn : j = st.nodes.length
                · subst hjn
                  rw [hgn] at hj
                  exact absurd (congrArg Prod.snd (Option.some.inj hj)) (by simp)
                · by_cases hjn1 : j = st.nodes.length + 1
                  · subst hjn1
                    rw [hgn1] at hj
                    exact absurd (congrArg Prod.snd (Option.some.inj hj)) (by simp)
                  · rw [List.get?_eq_none.mpr (by rw [hglen]; omega)] at hj
                    exact absurd hj (by simp)

/-- Combined extension-and-invariant transport along a builder-store
computation. -/
def ExtInv {V : Type} (vh : V → List Nat) (st st1 : SnapshotBuilder V) : Prop :=
  BuilderExt st st1 ∧ (st1.nodes.length ≤ 2 ^ 32 → BInv vh st → BInv vh st1)

theorem extInv_refl {V : Type} (vh : V → List Nat) (st : SnapshotBuilder V) :
    ExtInv vh st st :=
  ⟨builderExt_refl st, fun _ h => h⟩

theorem extInv_trans {V : Type} {vh : V → List Nat} {st1 st2 st3 : SnapshotBuilder V}
    (h12 : ExtInv vh st1 st2) (h23 : ExtInv vh st2 st3) : ExtInv vh st1 st3 :=
  ⟨builderExt_trans h12.1 h23.1,
    fun hb hi => h23.2 hb (h12.2 (Nat.le_trans h23.1.2.1 hb) hi)⟩

theorem extInv_step {V : Type} {vh : V → List Nat} {st st' : SnapshotBuilder V}
    {idx : Nat} {n : Node (Branch Nat) (Leaf V)}
    (h : SnapshotBuilder.get_node st idx = Except.ok (n, st')) : ExtInv vh st st' :=
  ⟨get_node_builderExt st idx n st' h,
    fun hb hi => get_node_BInv vh st idx n st' h hb hi⟩

theorem get_stored_node_extInv {V : Type} (vh : V → List Nat) :
    ∀ fuel (st : SnapshotBuilder V) (j : Nat) (key : KeyHash) (res : Option V)
      (st1 : SnapshotBuilder V),
      Txn.get_stored_node builderStore fuel st j key = Except.ok (res, st1) →
      ExtInv vh st st1 := by
  intro fuel
  induction fuel with
  | zero =>
    intro st j key res st1 h
    exact absurd h (by simp [Txn.get_stored_node])
  | succ f ih =>
    intro st j key res st1 h
    simp only [Txn.get_stored_node] at h
    cases hg : SnapshotBuilder.get_node st j with
    | error e =>
      rw [show builderStore.get_node st j = Except.error e from hg] at h
      exact absurd h (by simp [Bind.bind, Except.bind])
    | ok p =>
      obtain ⟨node, st'⟩ := p
      rw [show builderStore.get_node st j =
        Except.ok (node, st') from hg] at h
      simp only [Bind.bind, Except.bind] at h
      cases node with
      | Branch branch =>
        dsimp only at h
        cases hkp : branch.keyPositionOf key with
        | Left =>
          rw [hkp] at h
          exact extInv_trans (extInv_step hg) (ih st' branch.left key res st1 h)
        | Right =>
          rw [hkp] at h
          exact extInv_trans (extInv_step hg) (ih st' branch.right key res st1 h)
        | Adjacent pos =>
          rw [hkp] at h
          simp only [Except.ok.injEq, Prod.mk.injEq] at h
          obtain ⟨h1, h2⟩ := h
          subst h2
          exact extInv_step hg
      | Leaf leaf =>
        dsimp only at h
        by_cases heq : leaf.key_hash = key
        · rw [if_pos heq] at h
          cases hg2 : SnapshotBuilder.get_node st' j with
          | error e =>
            rw [show builderStore.get_node st' j = Except.error e from hg2] at h
            exact absurd h (by simp [Bind.bind, Except.bind])
          | ok p2 =>
            obtain ⟨node2, st''⟩ := p2
            rw [show builderStore.get_node st' j = Except.ok (node2, st'') from hg2] at h
            simp only [Bind.bind, Except.bind] at h
            cases node2 with
            | Leaf leaf2 =>
              dsimp only at h
              simp only [Except.ok.injEq, Prod.mk.injEq] at h
              obtain ⟨h1, h2⟩ := h
              subst h2
              exact extInv_trans (extInv_step hg) (extInv_step hg2)
            | Branch b2 =>
              dsimp only at h
              exact absurd h (by simp)
        · rw [if_neg heq] at h
          simp only [Except.ok.injEq, Prod.mk.injEq] at h
          obtain ⟨h1, h2⟩ := h
          subst h2
          exact extInv_step hg

theorem get_node_trie_extInv {V : Type} (vh : V → List Nat) (fuel : Nat) :
    ∀ (t : NodeRef V) (st : SnapshotBuilder V) (key : KeyHash) (res : Option V)
      (st1 : SnapshotBuilder V),
      Txn.get_node builderStore fuel st t key = Except.ok (res, st1) →
      ExtInv vh st st1 := by
  intro t
  induction t with
  | ModBranch l r mask pw pfx ihl ihr =>
    intro st key res st1 h
    simp only [Txn.get_node] at h
    cases hkp : key_position mask pw pfx key with
    | Left => rw [hkp] at h; exact ihl st key res st1 h
    | Right => rw [hkp] at h; exact ihr st key res st1 h
    | Adjacent pos =>
      rw [hkp] at h
      simp only [Except.ok.injEq, Prod.mk.injEq] at h
      obtain ⟨h1, h2⟩ := h
      subst h2
      exact extInv_refl vh st
  | ModLeaf k v =>
    intro st key res st1 h
    simp only [Txn.get_node] at h
    split at h <;>
      (simp only [Except.ok.injEq, Prod.mk.injEq] at h
       obtain ⟨h1, h2⟩ := h
       subst h2
       exact extInv_refl vh st)
  | Stored idx =>
    intro st key res st1 h
    exact get_stored_node_extInv vh fuel st idx key res st1 h

theorem insert_node_extInv {V : Type} (vh : V → List Nat) :
    ∀ fuel (st : SnapshotBuilder V) (t : NodeRef V) (key : KeyHash) (v : V)
      (t1 : NodeRef V) (st1 : SnapshotBuilder V),
      Txn.insert_node builderStore fuel st t key v = Except.ok (t1, st1) →
      ExtInv vh st st1 := by
  intro fuel
  induction fuel with
  | zero =>
    intro st t key v t1 st1 h
    exact absurd h (by simp [Txn.insert_node])
  | succ f ih =>
    intro st t key v t1 st1 h
    simp only [Txn.insert_node] at h
    cases t with
    | ModBranch l r mask pw pfx =>
      dsimp only at h
      cases hkp : key_position mask pw pfx key with
      | Left =>
        rw [hkp] at h
        simp only [Bind.bind, Except.bind] at h
        cases hrec : Txn.insert_node builderStore f st l key v with
        | error e => rw [hrec] at h; exact absurd h (by simp)
        | ok p =>
          obtain ⟨l2, st'⟩ := p
          rw [hrec] at h
          simp only [Except.ok.injEq, Prod.mk.injEq] at h
          obtain ⟨h1, h2⟩ := h
          subst h2
          exact ih st l key v l2 _ hrec
      | Right =>
        rw [hkp] at h
        simp only [Bind.bind, Except.bind] at h
        cases hrec : Txn.insert_node builderStore f st r key v with
        | error e => rw [hrec] at h; exact absurd h (by simp)
        | ok p =>
          obtain ⟨r2, st'⟩ := p
          rw [hrec] at h
          simp only [Except.ok.injEq, Prod.mk.injEq] at h
          obtain ⟨h1, h2⟩ := h
          subst h2
          exact ih st r key v r2 _ hrec
      | Adjacent pos =>
        rw [hkp] at h
        simp only [Except.ok.injEq, Prod.mk.injEq] at h
        obtain ⟨h1, h2⟩ := h
        subst h2
        exact extInv_refl vh st
    | ModLeaf lk lv =>
      dsimp only at h
      by_cases heq : lk = key
      · rw [if_pos heq] at h
        simp only [Except.ok.injEq, Prod.mk.injEq] at h
        obtain ⟨h1, h2⟩ := h
        subst h2
        exact extInv_refl vh st
      · rw [if_neg heq] at h
        cases hnf : new_from_leafs 0 (Leaf.mk lk lv) (NodeRef.ModLeaf lk lv) key v with
        | none => rw [hnf] at h; exact absurd h (by simp)
        | some p =>
          obtain ⟨nb, flag⟩ := p
          rw [hnf] at h
          dsimp only at h
          simp only [Except.ok.injEq, Prod.mk.injEq] at h
          obtain ⟨h1, h2⟩ := h
          subst h2
          exact extInv_refl vh st
    | Stored idx =>
      dsimp only at h
      simp only [Bind.bind, Except.bind] at h
      cases hg : SnapshotBuilder.get_node st idx with
      | error e =>
        rw [show builderStore.get_node st idx = Except.error e from hg] at h
        exact absurd h (by simp)
      | ok p =>
        obtain ⟨node, st'⟩ := p
        rw [show builderStore.get_node st idx = Except.ok (node, st') from hg] at h
        dsimp only at h
        cases node with
        | Branch nb =>
          dsimp only at h
          exact extInv_trans (extInv_step hg) (ih st' _ key v t1 st1 h)
        | Leaf leaf =>
          dsimp only at h
          by_cases heq : leaf.key_hash = key
          · rw [if_pos heq] at h
            simp only [Except.ok.injEq, Prod.mk.injEq] at h
            obtain ⟨h1, h2⟩ := h
            subst h2
            exact extInv_step hg
          · rw [if_neg heq] at h
            cases hnf : new_from_leafs 0 leaf (NodeRef.Stored idx) key v with
            | none => rw [hnf] at h; exact absurd h (by simp)
            | some p2 =>
              obtain ⟨nb, flag⟩ := p2
              rw [hnf] at h
              dsimp only at h
              simp only [Except.ok.injEq, Prod.mk.injEq] at h
              obtain ⟨h1, h2⟩ := h
              subst h2
              exact extInv_step hg

theorem runOps_extInv {V : Type} (vh : V → List Nat) (fuel : Nat) :
    ∀ (ops : List (Op V)) (root : TrieRoot (NodeRef V)) (st : SnapshotBuilder V)
      (outs : List (Option V)) (root1 : TrieRoot (NodeRef V)) (st1 : SnapshotBuilder V),
      runOps builderStore fuel ops root st = Except.ok (outs, root1, st1) →
      ExtInv vh st st1 := by
  intro ops
  induction ops with
  | nil =>
    intro root st outs root1 st1 h
    simp only [runOps, Except.ok.injEq, Prod.mk.injEq] at h
    obtain ⟨h1, h2, h3⟩ := h
    subst h3
    exact extInv_refl vh st
  | cons op ops ihops =>
    intro root st outs root1 st1 h
    cases op with
    | get key =>
      simp only [runOps, Bind.bind, Except.bind] at h
      cases hg : Txn.get builderStore fuel st root key with
      | error e => rw [hg] at h; exact absurd h (by simp)
      | ok p =>
        obtain ⟨out, st'⟩ := p
        rw [hg] at h
        dsimp only at h
        cases hrest : runOps builderStore fuel ops root st' with
        | error e => rw [hrest] at h; exact absurd h (by simp)
        | ok p2 =>
          obtain ⟨outs2, root2, st2⟩ := p2
          rw [hrest] at h
          simp only [Except.ok.injEq, Prod.mk.injEq] at h
          obtain ⟨h1, h2, h3⟩ := h
          subst h3
          have hext1 : ExtInv vh st st' := by
            unfold Txn.get at hg
            cases root with
            | Empty =>
              simp only [Except.ok.injEq, Prod.mk.injEq] at hg
              obtain ⟨hg1, hg2⟩ := hg
              subst hg2
              exact extInv_refl vh st
            | Node t => exact get_node_trie_extInv vh fuel t st key out st' hg
          exact extInv_trans hext1 (ihops root st' outs2 root2 st2 hrest)
    | insert key v =>
      simp only [runOps, Bind.bind, Except.bind] at h
      cases hg : Txn.insert builderStore fuel st root key v with
      | error e => rw [hg] at h; exact absurd h (by simp)
      | ok p =>
        obtain ⟨root2, st'⟩ := p
        rw [hg] at h
        dsimp only at h
        have hext1 : ExtInv vh st st' := by
          unfold Txn.insert at hg
          cases root with
          | Empty =>
            simp only [Except.ok.injEq, Prod.mk.injEq] at hg
            obtain ⟨hg1, hg2⟩ := hg
            subst hg2
            exact extInv_refl vh st
          | Node t =>
            simp only [Bind.bind, Except.bind] at hg
            cases hrec : Txn.insert_node builderStore fuel st t key v with
            | error e => rw [hrec] at hg; exact absurd hg (by simp)
            | ok p2 =>
              obtain ⟨t2, st2⟩ := p2
              rw [hrec] at hg
              simp only [Except.ok.injEq, Prod.mk.injEq] at hg
              obtain ⟨hg1, hg2⟩ := hg
              subst hg2
              exact insert_node_extInv vh fuel st t key v t2 _ hrec
        exact extInv_trans hext1 (ihops root2 st' outs root1 st1 h)

theorem get?_append_concat {α : Type} (l1 : List α) (a : α) (t : List α) :
    (l1 ++ [a] ++ t).get? l1.length = some a := by
  rw [List.append_assoc, List.get?_append_right (Nat.le_refl _)]
  rw [Nat.sub_self]
  rfl

theorem fold_corr {V : Type} (nodes : List (NodeHash × Option (Node (Branch Nat) (Leaf V))))
    (snap : Snapshot V)
    (hsum : snap.branches.length + snap.leaves.length + snap.unvisited_nodes.length
      < 2 ^ 32) :
    ∀ fuel k (s s' : SnapshotBuilderFold V) ret,
      SnapshotBuilderFold.fold nodes fuel s k = some (s', ret) →
      s.branch_count = snap.branches.length →
      s.leaf_count = snap.leaves.length →
      (∃ t, snap.branches = s'.branches ++ t) →
      (∃ t, snap.leaves = s'.leaves ++ t) →
      (∃ t, snap.unvisited_nodes = s'.unvisited_nodes ++ t) →
      Corr nodes snap k ret := by
  intro fuel
  induction fuel with
  | zero =>
    intro k s s' ret h
    exact absurd h (by simp [SnapshotBuilderFold.fold])
  | succ f ih =>
    intro k s s' ret h hbc hlc hxb hxl hxu
    simp only [SnapshotBuilderFold.fold] at h
    cases hk : nodes.get? k with
    | none => rw [hk] at h; exact absurd h (by simp)
    | some e =>
      rw [hk] at h
      obtain ⟨eh, e2⟩ := e
      cases e2 with
      | none =>
        dsimp only at h
        simp only [SnapshotBuilderFold.push_unvisited, Option.some.injEq,
          Prod.mk.injEq] at h
        obtain ⟨h1, h2⟩ := h
        obtain ⟨tu, htu⟩ := hxu
        rw [← h1] at htu
        dsimp only at htu
        have hu : s.unvisited_nodes.length < snap.unvisited_nodes.length := by
          rw [htu, List.length_append, List.length_append]
          simp only [List.length_cons, List.length_nil]
          omega
        have hm : s.unvisited_nodes.length % 2 ^ 32 = s.unvisited_nodes.length :=
          Nat.mod_eq_of_lt (by omega)
        have hret : ret = snap.branches.length + snap.leaves.length +
            s.unvisited_nodes.length := by
          rw [← h2, hbc, hlc, hm]
          exact Nat.mod_eq_of_lt (by omega)
        refine Corr.unvisited k ret eh hk (by omega) ?_
        rw [hret, htu]
        rw [show snap.branches.length + snap.leaves.length + s.unvisited_nodes.length -
          (snap.branches.length + snap.leaves.length) = s.unvisited_nodes.length
          from by omega]
        exact get?_append_concat _ _ _
      | some nd =>
        cases nd with
        | Leaf lf =>
          dsimp only at h
          simp only [SnapshotBuilderFold.push_leaf, Option.some.injEq,
            Prod.mk.injEq] at h
          obtain ⟨h1, h2⟩ := h
          obtain ⟨tl, htl⟩ := hxl
          rw [← h1] at htl
          dsimp only at htl
          have hu : s.leaves.length < snap.leaves.length := by
            rw [htl, List.length_append, List.length_append]
            simp only [List.length_cons, List.length_nil]
            omega
          have hm : s.leaves.length % 2 ^ 32 = s.leaves.length :=
            Nat.mod_eq_of_lt (by omega)
          have hret : ret = snap.branches.length + s.leaves.length := by
            rw [← h2, hbc, hm]
            exact Nat.mod_eq_of_lt (by omega)
          refine Corr.leaf k ret eh lf hk (by omega) ?_
          rw [hret, htl]
          rw [show snap.branches.length + s.leaves.length - snap.branches.length =
            s.leaves.length from by omega]
          exact get?_append_concat _ _ _
        | Branch b =>
          dsimp only at h
          simp only [Bind.bind, Option.bind] at h
          cases hL : SnapshotBuilderFold.fold nodes f s b.left with
          | none => rw [hL] at h; exact absurd h (by simp)
          | some pL =>
            obtain ⟨s1, retL⟩ := pL
            rw [hL] at h
            dsimp only at h
            cases hR : SnapshotBuilderFold.fold nodes f s1 b.right with
            | none => rw [hR] at h; exact absurd h (by simp)
            | some pR =>
              obtain ⟨s2, retR⟩ := pR
              rw [hR] at h
              dsimp only at h
              simp only [SnapshotBuilderFold.push_branch, Option.some.injEq,
                Prod.mk.injEq] at h
              obtain ⟨h1, h2⟩ := h
              obtain ⟨hIL1, hIL2, ⟨tb1, hIL3⟩, ⟨tl1, hIL4⟩, ⟨tu1, hIL5⟩, _, hretL, _⟩ :=
                fold_spec nodes f b.left s s1 retL hL
              obtain ⟨hIR1, hIR2, ⟨tb2, hIR3⟩, ⟨tl2, hIR4⟩, ⟨tu2, hIR5⟩, _, hretR, _⟩ :=
                fold_spec nodes f b.right s1 s2 retR hR
              obtain ⟨tb, htb⟩ := hxb
              obtain ⟨tl, htl⟩ := hxl
              obtain ⟨tu, htu⟩ := hxu
              rw [← h1] at htb htl htu
              dsimp only at htb htl htu
              -- snapshot prefixes of the intermediate states
              have hxb2 : ∃ t, snap.branches = s2.branches ++ t :=
                ⟨_, by rw [htb, List.append_assoc]⟩
              have hxl2 : ∃ t, snap.leaves = s2.leaves ++ t := ⟨tl, htl⟩
              have hxu2 : ∃ t, snap.unvisited_nodes = s2.unvisited_nodes ++ t := ⟨tu, htu⟩
              have hxb1 : ∃ t, snap.branches = s1.branches ++ t :=
                ⟨_, by rw [htb, hIR3, List.append_assoc, List.append_assoc]⟩
              have hxl1 : ∃ t, snap.leaves = s1.leaves ++ t :=
                ⟨_, by rw [htl, hIR4, List.append_assoc]⟩
              have hxu1 : ∃ t, snap.unvisited_nodes = s1.unvisited_nodes ++ t :=
                ⟨_, by rw [htu, hIR5, List.append_assoc]⟩
              have hcorrL := ih b.left s s1 retL hL hbc hlc hxb1 hxl1 hxu1
              have hcorrR := ih b.right s1 s2 retR hR (hIL1.trans hbc) (hIL2.trans hlc)
                hxb2 hxl2 hxu2
              -- the parent's index
              have hi : s2.branches.length + 1 ≤ snap.branches.length := by
                rw [htb, List.length_append, List.length_append]
                simp only [List.length_cons, List.length_nil]
                omega
              have hret : ret = s2.branches.length := by
                rw [← h2]
                exact Nat.mod_eq_of_lt (by omega)
              -- length chains for the side conditions
              have hl1 : s.leaves.length ≤ s1.leaves.length := by rw [hIL4]; simp
              have hl2 : s1.leaves.length ≤ s2.leaves.length := by rw [hIR4]; simp
              have hl3 : s2.leaves.length ≤ snap.leaves.length := by
                rw [htl]; simp
              have hu1 : s.unvisited_nodes.length ≤ s1.unvisited_nodes.length := by
                rw [hIL5]; simp
              have hu2 : s1.unvisited_nodes.length ≤ s2.unvisited_nodes.length := by
                rw [hIR5]; simp
              have hu3 : s2.unvisited_nodes.length ≤ snap.unvisited_nodes.length := by
                rw [htu]; simp
              have hb1 : s.branches.length ≤ s1.branches.length := by rw [hIL3]; simp
              have hb2 : s1.branches.length ≤ s2.branches.length := by rw [hIR3]; simp
              have hgetb : snap.branches.get? s2.branches.length =
                  some (Branch.mk retL retR b.mask b.prior_word b.prefixWords) := by
                rw [htb]
                exact get?_append_concat _ _ _
              have hcondL : retL < snap.branches.length → retL < s2.branches.length := by
                intro hlt
                rcases hretL with ⟨_, hr1, hr2⟩ | ⟨_, hr1, hr2⟩ | ⟨_, hr1, hr2⟩
                · have := Nat.mod_le (s1.branches.length - 1) (2 ^ 32)
                  omega
                · exfalso
                  rw [hbc, Nat.mod_eq_of_lt (show s.leaves.length < 2 ^ 32 by omega)]
                    at hr1
                  rw [Nat.mod_eq_of_lt (by omega)] at hr1
                  omega
                · exfalso
                  rw [hbc, hlc,
                    Nat.mod_eq_of_lt (show s.unvisited_nodes.length < 2 ^ 32 by omega)]
                    at hr1
                  rw [Nat.mod_eq_of_lt (by omega)] at hr1
                  omega
              have hcondR : retR < snap.branches.length → retR < s2.branches.length := by
                intro hlt
                rcases hretR with ⟨_, hr1, hr2⟩ | ⟨_, hr1, hr2⟩ | ⟨_, hr1, hr2⟩
                · have := Nat.mod_le (s2.branches.length - 1) (2 ^ 32)
                  omega
                · exfalso
                  rw [hIL1.trans hbc,
                    Nat.mod_eq_of_lt (show s1.leaves.length < 2 ^ 32 by omega)] at hr1
                  rw [Nat.mod_eq_of_lt (by omega)] at hr1
                  omega
                · exfalso
                  rw [hIL1.trans hbc, hIL2.trans hlc,
                    Nat.mod_eq_of_lt (show s1.unvisited_nodes.length < 2 ^ 32 by omega)]
                    at hr1
                  rw [Nat.mod_eq_of_lt (by omega)] at hr1
                  omega
              rw [hret]
              exact Corr.branch k s2.branches.length eh b
                (Branch.mk retL retR b.mask b.prior_word b.prefixWords) hk hgetb
                rfl rfl rfl hcorrL hcorrR hcondL hcondR

theorem build_corr {V : Type} (st : SnapshotBuilder V) (snap : Snapshot V)
    (hva : visitsAll st.nodes) (hlen : st.nodes.length < 2 ^ 32)
    (hne : st.nodes ≠ [])
    (hbuild : st.build_initial_snapshot = some snap) :
    ∃ ri, Corr st.nodes snap 0 ri ∧
      snap.root_node_idx = Except.ok (TrieRoot.Node ri) := by
  unfold SnapshotBuilder.build_initial_snapshot at hbuild
  rw [if_neg (by
    intro hh
    exact hne (by
      cases hnodes : st.nodes with
      | nil => rfl
      | cons a l => rw [hnodes] at hh; exact absurd hh (by simp)))] at hbuild
  simp only [Bind.bind, Option.bind] at hbuild
  cases hf : SnapshotBuilderFold.fold st.nodes st.nodes.length
      (SnapshotBuilderFold.new st.nodes) 0 with
  | none => rw [hf] at hbuild; exact absurd hbuild (by simp)
  | some p =>
    obtain ⟨sF, ret⟩ := p
    rw [hf] at hbuild
    dsimp only at hbuild
    obtain rfl : snap = sF.build := (Option.some.inj hbuild).symm
    rcases hva with hnil2 | ⟨l, hl0, hperm⟩
    · exact absurd hnil2 hne
    obtain ⟨hC1, hC2, ⟨tb, htb⟩, _, _, ⟨l2, hl, hB, hL, hU⟩, hret, hchild⟩ :=
      fold_spec st.nodes st.nodes.length 0 _ sF ret hf
    obtain rfl : l = l2 := by
      rw [hl0] at hl
      exact Option.some.inj hl
    have hmem : ∀ j ∈ l, j < st.nodes.length := fun j hj =>
      List.mem_range.mp (hperm.mem_iff.mp hj)
    have hsum := counts_tri st.nodes l hmem
    have hlen0 : l.length = st.nodes.length := by
      rw [hperm.length_eq, List.length_range]
    have hBle : l.countP (isBranchAt st.nodes) ≤ l.length := List.countP_le_length _
    have hLle : l.countP (isLeafAt st.nodes) ≤ l.length := List.countP_le_length _
    have hUle : l.countP (isUnvisAt st.nodes) ≤ l.length := List.countP_le_length _
    have hz1 : (SnapshotBuilderFold.new st.nodes).branches.length = 0 := rfl
    have hz2 : (SnapshotBuilderFold.new st.nodes).leaves.length = 0 := rfl
    have hz3 : (SnapshotBuilderFold.new st.nodes).unvisited_nodes.length = 0 := rfl
    have hbc : (SnapshotBuilderFold.new st.nodes).branch_count =
        l.countP (isBranchAt st.nodes) := by
      rw [new_branch_count, ← countP_isBranchAt_perm st l hperm]
      exact Nat.mod_eq_of_lt (by omega)
    have hlc : (SnapshotBuilderFold.new st.nodes).leaf_count =
        l.countP (isLeafAt st.nodes) := by
      rw [new_leaf_count, ← countP_isLeafAt_perm st l hperm]
      exact Nat.mod_eq_of_lt (by omega)
    have hsb : sF.build.branches = sF.branches := rfl
    have hsl : sF.build.leaves = sF.leaves := rfl
    have hsu : sF.build.unvisited_nodes = sF.unvisited_nodes := rfl
    have hsum2 : sF.build.branches.length + sF.build.leaves.length +
        sF.build.unvisited_nodes.length < 2 ^ 32 := by
      rw [hsb, hsl, hsu]
      omega
    have hcorr : Corr st.nodes sF.build 0 ret := by
      refine fold_corr st.nodes sF.build hsum2 st.nodes.length 0 _ sF ret hf ?_ ?_
        ⟨[], by rw [hsb, List.append_nil]⟩ ⟨[], by rw [hsl, List.append_nil]⟩
        ⟨[], by rw [hsu, List.append_nil]⟩
      · rw [hbc, hsb]
        omega
      · rw [hlc, hsl]
        omega
    refine ⟨ret, hcorr, ?_⟩
    rcases hret with ⟨hk0, hr1, hr2⟩ | ⟨hk0, hr1, hr2⟩ | ⟨hk0, hr1, hr2⟩
    · -- branch root
      have hb1 : 1 ≤ sF.branches.length := by omega
      rcases hbs : sF.branches with _ | ⟨b0, bs⟩
      · rw [hbs] at hb1; exact absurd hb1 (by simp)
      · have := root_node_idx_branches_nonempty (V := V) b0 bs sF.leaves
          sF.unvisited_nodes
        rw [show (sF.build : Snapshot V) = Snapshot.mk (b0 :: bs) sF.leaves sF.unvisited_nodes from by rw [← hbs]; rfl]
        rw [this]
        have hlb : (b0 :: bs).length = sF.branches.length := by rw [hbs]
        rw [hlb]
        have hmod1 : sF.branches.length % 2 ^ 32 = sF.branches.length :=
          Nat.mod_eq_of_lt (by omega)
        rw [hmod1]
        have harith : sF.branches.length + (2 ^ 32 - 1) =
            (sF.branches.length - 1) + 1 * 2 ^ 32 := by omega
        rw [harith, Nat.add_mul_mod_self_right,
          Nat.mod_eq_of_lt (show sF.branches.length - 1 < 2 ^ 32 by omega), hr1,
          Nat.mod_eq_of_lt (show sF.branches.length - 1 < 2 ^ 32 by omega)]
    · -- leaf root
      obtain ⟨e0, he0⟩ : ∃ e, st.nodes.get? 0 = some e := by
        cases hg : st.nodes.get? 0 with
        | none =>
          have := List.get?_eq_none.mp hg
          have hn1 : 0 < st.nodes.length := List.length_pos.mpr hne
          omega
        | some e => exact ⟨e, rfl⟩
      obtain ⟨eh0, e02⟩ := e0
      have hnb : ∀ b, e02 ≠ some (Node.Branch b) := by
        intro b hb2
        subst hb2
        unfold isLeafAt at hk0
        rw [he0] at hk0
        exact absurd hk0 (by simp)
      have hl00 : visitList st.nodes st.nodes.length 0 = some [0] := by
        have hn1 : 0 < st.nodes.length := List.length_pos.mpr hne
        obtain ⟨m, hm⟩ : ∃ m, st.nodes.length = m + 1 :=
          ⟨st.nodes.length - 1, by omega⟩
        rw [hm]
        exact visitList_nonbranch_step st.nodes m 0 (eh0, e02) he0 hnb
      obtain rfl : l = [0] := by
        rw [hl0] at hl00
        exact Option.some.inj hl00
      have hn1 : st.nodes.length = 1 := by rw [← hlen0]; rfl
      have hcB : [0].countP (isBranchAt st.nodes) = 0 := by
        rw [List.countP_cons_of_neg _ _ (by
          unfold isLeafAt at hk0
          unfold isBranchAt
          rw [he0] at hk0 ⊢
          cases e02 with
          | none => simp at hk0
          | some nd => cases nd with
            | Leaf lf => simp
            | Branch b => simp at hk0), List.countP_nil]
      have hcU : [0].countP (isUnvisAt st.nodes) = 0 := by
        rw [List.countP_cons_of_neg _ _ (by
          unfold isLeafAt at hk0
          unfold isUnvisAt
          rw [he0] at hk0 ⊢
          cases e02 with
          | none => simp at hk0
          | some nd => cases nd with
            | Leaf lf => simp
            | Branch b => simp at hk0), List.countP_nil]
      have heb : sF.branches = [] := by
        rw [← List.length_eq_zero]
        omega
      obtain ⟨lf1, hlf1⟩ : ∃ a, sF.leaves = [a] := by
        apply List.length_eq_one.mp
        have hcL : [0].countP (isLeafAt st.nodes) = 1 := by omega
        omega
      have heu : sF.unvisited_nodes = [] := by
        rw [← List.length_eq_zero]
        omega
      have hr0 : ret = 0 := by
        rw [hr1, hbc, hcB]
        rfl
      rw [hr0]
      rw [show (sF.build : Snapshot V) = Snapshot.mk [] [lf1] [] from by
        rw [← heb, ← hlf1, ← heu]; rfl]
      rfl
    · -- unvisited root
      obtain ⟨e0, he0⟩ : ∃ e, st.nodes.get? 0 = some e := by
        cases hg : st.nodes.get? 0 with
        | none =>
          have := List.get?_eq_none.mp hg
          have hn1 : 0 < st.nodes.length := List.length_pos.mpr hne
          omega
        | some e => exact ⟨e, rfl⟩
      obtain ⟨eh0, e02⟩ := e0
      have hnb : ∀ b, e02 ≠ some (Node.Branch b) := by
        intro b hb2
        subst hb2
        unfold isUnvisAt at hk0
        rw [he0] at hk0
        exact absurd hk0 (by simp)
      have hl00 : visitList st.nodes st.nodes.length 0 = some [0] := by
        have hn1 : 0 < st.nodes.length := List.length_pos.mpr hne
        obtain ⟨m, hm⟩ : ∃ m, st.nodes.length = m + 1 :=
          ⟨st.nodes.length - 1, by omega⟩
        rw [hm]
        exact visitList_nonbranch_step st.nodes m 0 (eh0, e02) he0 hnb
      obtain rfl : l = [0] := by
        rw [hl0] at hl00
        exact Option.some.inj hl00
      have hn1 : st.nodes.length = 1 := by rw [← hlen0]; rfl
      have hcB : [0].countP (isBranchAt st.nodes) = 0 := by
        rw [List.countP_cons_of_neg _ _ (by
          unfold isUnvisAt at hk0
          unfold isBranchAt
          rw [he0] at hk0 ⊢
          cases e02 with
          | none => simp
          | some nd => cases nd with
            | Leaf lf => simp
            | Branch b => simp at hk0), List.countP_nil]
      have hcL : [0].countP (isLeafAt st.nodes) = 0 := by
        rw [List.countP_cons_of_neg _ _ (by
          unfold isUnvisAt at hk0
          unfold isLeafAt
          rw [he0] at hk0 ⊢
          cases e02 with
          | none => simp
          | some nd => cases nd with
            | Leaf lf => simp at hk0
            | Branch b => simp), List.countP_nil]
      have heb : sF.branches = [] := by
        rw [← List.length_eq_zero]
        omega
      obtain ⟨u1, hu1⟩ : ∃ a, sF.unvisited_nodes = [a] := by
        apply List.length_eq_one.mp
        have hcU : [0].countP (isUnvisAt st.nodes) = 1 := by omega
        omega
      have hel : sF.leaves = [] := by
        rw [← List.length_eq_zero]
        omega
      have hr0 : ret = 0 := by
        rw [hr1, hbc, hlc, hcB, hcL]
        rfl
      rw [hr0]
      rw [show (sF.build : Snapshot V) = Snapshot.mk [] [] [u1] from by
        rw [← heb, ← hel, ← hu1]; rfl]
      rfl

theorem corr_entry {V : Type} {nodes : List (NodeHash × Option (Node (Branch Nat) (Leaf V)))}
    {snap : Snapshot V} {j i : Nat} (h : Corr nodes snap j i) :
    ∃ hh e2, nodes.get? j = some (hh, e2) := by
  cases h with
  | branch j i hh b bs hj _ _ _ _ _ _ _ _ => exact ⟨hh, _, hj⟩
  | leaf j i hh lf hj _ _ => exact ⟨hh, _, hj⟩
  | unvisited j i hh hj _ _ => exact ⟨hh, _, hj⟩

theorem corr_calc_hash {V : Type} (vh : V → List Nat) (stF : SnapshotBuilder V)
    (snap : Snapshot V) (hagree : arenaHashAgree vh stF.nodes) :
    ∀ fuel j i, Corr stF.nodes snap j i →
      (i < snap.branches.length → i + 2 ≤ fuel) →
      (snap.branches.length ≤ i → 1 ≤ fuel) →
      ∀ h e2, stF.nodes.get? j = some (h, e2) →
        snap.calc_subtree_hash vh fuel i = Except.ok h := by
  intro fuel
  induction fuel with
  | zero =>
    intro j i hcorr hf1 hf2 h e2 he
    by_cases hi : i < snap.branches.length
    · exact absurd (hf1 hi) (by omega)
    · exact absurd (hf2 (by omega)) (by omega)
  | succ f ih =>
    intro j i hcorr hf1 hf2 h e2 he
    cases hcorr with
    | branch _j2 _i2 hh b bs hj hbs hm hp hpf hcl hcr hltl hltr =>
      have hilt : i < snap.branches.length := get?_some_lt _ _ _ hbs
      have hfge : i + 2 ≤ f + 1 := hf1 hilt
      have hhh : hh = h := by
        rw [hj] at he
        exact congrArg Prod.fst (Option.some.inj he)
      obtain ⟨hL, eL, heL⟩ := corr_entry hcl
      obtain ⟨hR, eR, heR⟩ := corr_entry hcr
      have hcalcL : snap.calc_subtree_hash vh f bs.left = Except.ok hL := by
        refine ih b.left bs.left hcl ?_ ?_ hL eL heL
        · intro hlt
          have := hltl hlt
          omega
        · intro _
          omega
      have hcalcR : snap.calc_subtree_hash vh f bs.right = Except.ok hR := by
        refine ih b.right bs.right hcr ?_ ?_ hR eR heR
        · intro hlt
          have := hltr hlt
          omega
        · intro _
          omega
      simp only [Snapshot.calc_subtree_hash]
      rw [hbs]
      dsimp only
      simp only [Bind.bind, Except.bind]
      rw [hcalcL]
      dsimp only
      rw [hcalcR]
      dsimp only
      have hres := hagree j hh (Node.Branch b) hj
      unfold arenaNodeHash at hres
      dsimp only at hres
      rw [heL, heR] at hres
      simp only [Option.map_some', Option.getD_some] at hres
      rw [hm, hp, hpf, hres, hhh]
    | leaf _j2 _i2 hh lf hj hle hleaf =>
      have hhh : hh = h := by
        rw [hj] at he
        exact congrArg Prod.fst (Option.some.inj he)
      simp only [Snapshot.calc_subtree_hash]
      rw [List.get?_eq_none.mpr hle, hleaf]
      dsimp only
      have hres := hagree j hh (Node.Leaf lf) hj
      unfold arenaNodeHash at hres
      dsimp only at hres
      rw [hres, hhh]
    | unvisited _j2 _i2 hh hj hle2 hun =>
      have hhh : hh = h := by
        rw [hj] at he
        exact congrArg Prod.fst (Option.some.inj he)
      simp only [Snapshot.calc_subtree_hash]
      rw [List.get?_eq_none.mpr (by omega),
        List.get?_eq_none.mpr (show snap.leaves.length ≤ i - snap.branches.length
          by omega), hun]
      dsimp only
      rw [hhh]

theorem snapshot_get_node_branch {V : Type} (snap : Snapshot V) {i : Nat} {bs : Branch Nat}
    (h : snap.branches.get? i = some bs) :
    snap.get_node i = Except.ok (Node.Branch bs) := by
  unfold Snapshot.get_node
  rw [h]

theorem snapshot_get_node_leaf {V : Type} (snap : Snapshot V) {i : Nat} {lf : Leaf V}
    (hle : snap.branches.length ≤ i)
    (h : snap.leaves.get? (i - snap.branches.length) = some lf) :
    snap.get_node i = Except.ok (Node.Leaf lf) := by
  unfold Snapshot.get_node
  rw [List.get?_eq_none.mpr hle]
  dsimp only
  rw [h]

theorem snapshotStore_get {V : Type} (vh : V → List Nat) (snap : Snapshot V)
    {i : Nat} {n : Node (Branch Nat) (Leaf V)} (h : snap.get_node i = Except.ok n) :
    (snapshotStore vh snap).get_node () i = Except.ok (n, ()) := by
  show (do Except.ok (← snap.get_node i, ())) = _
  rw [h]
  rfl

/-- What the prover's store step looks like through the correspondence:
the verifier's snapshot store returns the matching node. -/
theorem sim_store_get {V : Type} (stF : SnapshotBuilder V) (snap : Snapshot V)
    {st st' : SnapshotBuilder V} {j i : Nat} {n : Node (Branch Nat) (Leaf V)}
    (hg : SnapshotBuilder.get_node st j = Except.ok (n, st'))
    (hext : BuilderExt st' stF)
    (hcorr : Corr stF.nodes snap j i) :
    (∃ b bs, n = Node.Branch b ∧ snap.get_node i = Except.ok (Node.Branch bs) ∧
      bs.mask = b.mask ∧ bs.prior_word = b.prior_word ∧ bs.prefixWords = b.prefixWords ∧
      Corr stF.nodes snap b.left bs.left ∧ Corr stF.nodes snap b.right bs.right) ∨
    (∃ lf, n = Node.Leaf lf ∧ snap.get_node i = Except.ok (Node.Leaf lf)) := by
  obtain ⟨h0, hload⟩ := get_node_loads st j n st' hg
  have hF := ext_loaded hext hload
  cases hcorr with
  | branch _j2 _i2 hh b bs hj hbs hm hp hpf hcl hcr hltl hltr =>
    rw [hj] at hF
    have h3 := Option.some.inj hF
    have hn : n = Node.Branch b := (Option.some.inj (congrArg Prod.snd h3)).symm
    exact Or.inl ⟨b, bs, hn, snapshot_get_node_branch snap hbs, hm, hp, hpf, hcl, hcr⟩
  | leaf _j2 _i2 hh lf hj hle hleaf =>
    rw [hj] at hF
    have h3 := Option.some.inj hF
    have hn : n = Node.Leaf lf := (Option.some.inj (congrArg Prod.snd h3)).symm
    exact Or.inr ⟨lf, hn, snapshot_get_node_leaf snap hle hleaf⟩
  | unvisited _j2 _i2 hh hj hle2 hun =>
    rw [hj] at hF
    have h3 := Option.some.inj hF
    exact absurd (congrArg Prod.snd h3) (by simp)

theorem sim_get_stored {V : Type} (vh : V → List Nat) (stF : SnapshotBuilder V)
    (snap : Snapshot V) :
    ∀ fuel (st : SnapshotBuilder V) (j : Nat) (key : KeyHash) (res : Option V)
      (st1 : SnapshotBuilder V) (i : Nat),
      Txn.get_stored_node builderStore fuel st j key = Except.ok (res, st1) →
      BuilderExt st1 stF →
      Corr stF.nodes snap j i →
      Txn.get_stored_node (snapshotStore vh snap) fuel () i key =
        Except.ok (res, ()) := by
  intro fuel
  induction fuel with
  | zero =>
    intro st j key res st1 i h _ _
    exact absurd h (by simp [Txn.get_stored_node])
  | succ f ih =>
    intro st j key res st1 i h hext hcorr
    simp only [Txn.get_stored_node] at h ⊢
    cases hg : SnapshotBuilder.get_node st j with
    | error e =>
      rw [show builderStore.get_node st j = Except.error e from hg] at h
      exact absurd h (by simp [Bind.bind, Except.bind])
    | ok p =>
      obtain ⟨node, st'⟩ := p
      rw [show builderStore.get_node st j = Except.ok (node, st') from hg] at h
      simp only [Bind.bind, Except.bind] at h ⊢
      cases node with
      | Branch branch =>
        dsimp only at h
        have hextR : BuilderExt st' st1 := by
          cases hkp : branch.keyPositionOf key with
          | Left =>
            rw [hkp] at h
            exact (get_stored_node_extInv vh f st' branch.left key res st1 h).1
          | Right =>
            rw [hkp] at h
            exact (get_stored_node_extInv vh f st' branch.right key res st1 h).1
          | Adjacent pos =>
            rw [hkp] at h
            simp only [Except.ok.injEq, Prod.mk.injEq] at h
            obtain ⟨h1, h2⟩ := h
            rw [h2]
            exact builderExt_refl st1
        have hext' : BuilderExt st' stF := builderExt_trans hextR hext
        rcases sim_store_get stF snap hg hext' hcorr with
          ⟨b, bs, hnb, hvget, hm, hp, hpf, hcl, hcr⟩ | ⟨lf, hnl, hvget⟩
        · obtain rfl : branch = b := Node.Branch.inj hnb
          rw [snapshotStore_get vh snap hvget]
          dsimp only
          have hkpv : bs.keyPositionOf key = branch.keyPositionOf key := by
            unfold Branch.keyPositionOf
            rw [hm, hp, hpf]
          rw [hkpv]
          cases hkp : branch.keyPositionOf key with
          | Left =>
            rw [hkp] at h
            exact ih st' branch.left key res st1 bs.left h hext hcl
          | Right =>
            rw [hkp] at h
            exact ih st' branch.right key res st1 bs.right h hext hcr
          | Adjacent pos =>
            rw [hkp] at h
            simp only [Except.ok.injEq, Prod.mk.injEq] at h
            obtain ⟨h1, h2⟩ := h
            rw [h1]
        · exact absurd hnl (by simp)
      | Leaf leaf =>
        dsimp only at h
        obtain ⟨h0, hload⟩ := get_node_loads st j (Node.Leaf leaf) st' hg
        by_cases heq : leaf.key_hash = key
        · rw [if_pos heq] at h
          rw [show builderStore.get_node st' j =
            Except.ok (Node.Leaf leaf, st') from get_node_of_loaded st' j h0
              (Node.Leaf leaf) hload] at h
          simp only [Bind.bind, Except.bind] at h
          simp only [Except.ok.injEq, Prod.mk.injEq] at h
          obtain ⟨h1, h2⟩ := h
          have hext' : BuilderExt st' stF := by
            rw [h2]
            exact hext
          rcases sim_store_get stF snap hg hext' hcorr with
            ⟨b, bs, hnb, hvget, _, _, _, _, _⟩ | ⟨lf, hnl, hvget⟩
          · exact absurd hnb (by simp)
          · obtain rfl : leaf = lf := Node.Leaf.inj hnl
            rw [snapshotStore_get vh snap hvget]
            dsimp only
            rw [if_pos heq]
            rw [snapshotStore_get vh snap hvget]
            dsimp only
            rw [h1]
        · rw [if_neg heq] at h
          simp only [Except.ok.injEq, Prod.mk.injEq] at h
          obtain ⟨h1, h2⟩ := h
          have hext' : BuilderExt st' stF := by
            rw [h2]
            exact hext
          rcases sim_store_get stF snap hg hext' hcorr with
            ⟨b, bs, hnb, hvget, _, _, _, _, _⟩ | ⟨lf, hnl, hvget⟩
          · exact absurd hnb (by simp)
          · obtain rfl : leaf = lf := Node.Leaf.inj hnl
            rw [snapshotStore_get vh snap hvget]
            dsimp only
            rw [if_neg heq, h1]

theorem sim_get_node {V : Type} (vh : V → List Nat) (stF : SnapshotBuilder V)
    (snap : Snapshot V) (fuel : Nat) :
    ∀ (tP tV : NodeRef V), RefCorr stF.nodes snap tP tV →
      ∀ (st : SnapshotBuilder V) (key : KeyHash) (res : Option V)
        (st1 : SnapshotBuilder V),
        Txn.get_node builderStore fuel st tP key = Except.ok (res, st1) →
        BuilderExt st1 stF →
        Txn.get_node (snapshotStore vh snap) fuel () tV key = Except.ok (res, ()) := by
  intro tP tV hcorr
  induction hcorr with
  | branch l r l' r' mask pw pfx hcl hcr ihl ihr =>
    intro st key res st1 h hext
    simp only [Txn.get_node] at h ⊢
    cases hkp : key_position mask pw pfx key with
    | Left => rw [hkp] at h; exact ihl st key res st1 h hext
    | Right => rw [hkp] at h; exact ihr st key res st1 h hext
    | Adjacent pos =>
      rw [hkp] at h
      simp only [Except.ok.injEq, Prod.mk.injEq] at h
      obtain ⟨h1, h2⟩ := h
      rw [h1]
  | leaf k v =>
    intro st key res st1 h hext
    simp only [Txn.get_node] at h ⊢
    split at h <;> rename_i hc <;>
      simp only [Except.ok.injEq, Prod.mk.injEq] at h <;> obtain ⟨h1, h2⟩ := h
    · rw [if_pos hc, h1]
    · rw [if_neg hc, h1]
  | stored j i hji =>
    intro st key res st1 h hext
    exact sim_get_stored vh stF snap fuel st j key res st1 i h hext hji

theorem refCorr_new_adjacent_leaf {V : Type}
    (nodes : List (NodeHash × Option (Node (Branch Nat) (Leaf V)))) (snap : Snapshot V)
    (pos : KeyPositionAdjacent) (l r l' r' : NodeRef V) (mask : BranchMask) (pw : Nat)
    (pfx : List Nat) (k : KeyHash) (v : V)
    (hcl : RefCorr nodes snap l l') (hcr : RefCorr nodes snap r r') :
    RefCorr nodes snap (new_adjacent_leaf pos l r mask pw pfx k v)
      (new_adjacent_leaf pos l' r' mask pw pfx k v) := by
  unfold new_adjacent_leaf
  cases pos with
  | PrefixOfWord word_idx =>
    dsimp only
    split
    · exact RefCorr.branch _ _ _ _ _ _ _ (RefCorr.leaf k v)
        (RefCorr.branch _ _ _ _ _ _ _ hcl hcr)
    · exact RefCorr.branch _ _ _ _ _ _ _
        (RefCorr.branch _ _ _ _ _ _ _ hcl hcr) (RefCorr.leaf k v)
  | PriorWord word_idx =>
    dsimp only
    split
    · exact RefCorr.branch _ _ _ _ _ _ _ (RefCorr.leaf k v)
        (RefCorr.branch _ _ _ _ _ _ _ hcl hcr)
    · exact RefCorr.branch _ _ _ _ _ _ _
        (RefCorr.branch _ _ _ _ _ _ _ hcl hcr) (RefCorr.leaf k v)
  | PrefixVec word_idx =>
    dsimp only
    split
    · exact RefCorr.branch _ _ _ _ _ _ _ (RefCorr.leaf k v)
        (RefCorr.branch _ _ _ _ _ _ _ hcl hcr)
    · exact RefCorr.branch _ _ _ _ _ _ _
        (RefCorr.branch _ _ _ _ _ _ _ hcl hcr) (RefCorr.leaf k v)

theorem refCorr_new_from_leafs {V : Type}
    (nodes : List (NodeHash × Option (Node (Branch Nat) (Leaf V)))) (snap : Snapshot V)
    (p : Nat) (old_leaf : Leaf V) (oref oref' : NodeRef V) (k : KeyHash) (v : V)
    (hco : RefCorr nodes snap oref oref') (nb : NodeRef V) (flag : Bool)
    (h : new_from_leafs p old_leaf oref k v = some (nb, flag)) :
    ∃ nb', new_from_leafs p old_leaf oref' k v = some (nb', flag) ∧
      RefCorr nodes snap nb nb' := by
  unfold new_from_leafs at h ⊢
  cases hfd : findDiffWord ((k.zip old_leaf.key_hash).drop p) p with
  | none => rw [hfd] at h; exact absurd h (by simp)
  | some q =>
    obtain ⟨word_idx, a, b⟩ := q
    rw [hfd] at h
    dsimp only at h ⊢
    split at h <;>
      (rename_i hsplit
       simp only [Option.some.injEq, Prod.mk.injEq] at h
       obtain ⟨h1, h2⟩ := h)
    · rw [if_pos hsplit]
      exact ⟨_, by rw [h2], by
        rw [← h1]
        exact RefCorr.branch _ _ _ _ _ _ _ (RefCorr.leaf k v) hco⟩
    · rw [if_neg hsplit]
      exact ⟨_, by rw [h2], by
        rw [← h1]
        exact RefCorr.branch _ _ _ _ _ _ _ hco (RefCorr.leaf k v)⟩

theorem sim_insert_node {V : Type} (vh : V → List Nat) (stF : SnapshotBuilder V)
    (snap : Snapshot V) :
    ∀ fuel (tP tV : NodeRef V), RefCorr stF.nodes snap tP tV →
      ∀ (st : SnapshotBuilder V) (key : KeyHash) (v : V) (tP1 : NodeRef V)
        (st1 : SnapshotBuilder V),
        Txn.insert_node builderStore fuel st tP key v = Except.ok (tP1, st1) →
        BuilderExt st1 stF →
        ∃ tV1, Txn.insert_node (snapshotStore vh snap) fuel () tV key v =
          Except.ok (tV1, ()) ∧ RefCorr stF.nodes snap tP1 tV1 := by
  intro fuel
  induction fuel with
  | zero =>
    intro tP tV hcorr st key v tP1 st1 h hext
    exact absurd h (by simp [Txn.insert_node])
  | succ f ih =>
    intro tP tV hcorr st key v tP1 st1 h hext
    cases hcorr with
    | branch l r l' r' mask pw pfx hcl hcr =>
      simp only [Txn.insert_node] at h ⊢
      cases hkp : key_position mask pw pfx key with
      | Left =>
        rw [hkp] at h
        simp only [Bind.bind, Except.bind] at h ⊢
        cases hrec : Txn.insert_node builderStore f st l key v with
        | error e => rw [hrec] at h; exact absurd h (by simp)
        | ok p =>
          obtain ⟨l2, st'⟩ := p
          rw [hrec] at h
          simp only [Except.ok.injEq, Prod.mk.injEq] at h
          obtain ⟨h1, h2⟩ := h
          obtain ⟨l2', hv, hc2⟩ := ih l l' hcl st key v l2 st1 (by rw [← h2]; exact hrec)
            hext
          refine ⟨NodeRef.ModBranch l2' r' mask pw pfx, ?_, ?_⟩
          · rw [hv]
          · rw [← h1]
            exact RefCorr.branch _ _ _ _ _ _ _ hc2 hcr
      | Right =>
        rw [hkp] at h
        simp only [Bind.bind, Except.bind] at h ⊢
        cases hrec : Txn.insert_node builderStore f st r key v with
        | error e => rw [hrec] at h; exact absurd h (by simp)
        | ok p =>
          obtain ⟨r2, st'⟩ := p
          rw [hrec] at h
          simp only [Except.ok.injEq, Prod.mk.injEq] at h
          obtain ⟨h1, h2⟩ := h
          obtain ⟨r2', hv, hc2⟩ := ih r r' hcr st key v r2 st1 (by rw [← h2]; exact hrec)
            hext
          refine ⟨NodeRef.ModBranch l' r2' mask pw pfx, ?_, ?_⟩
          · rw [hv]
          · rw [← h1]
            exact RefCorr.branch _ _ _ _ _ _ _ hcl hc2
      | Adjacent pos =>
        rw [hkp] at h
        simp only [Except.ok.injEq, Prod.mk.injEq] at h
        obtain ⟨h1, h2⟩ := h
        refine ⟨new_adjacent_leaf pos l' r' mask pw pfx key v, rfl, ?_⟩
        rw [← h1]
        exact refCorr_new_adjacent_leaf stF.nodes snap pos l r l' r' mask pw pfx key v
          hcl hcr
    | leaf k0 v0 =>
      simp only [Txn.insert_node] at h ⊢
      by_cases heq : k0 = key
      · rw [if_pos heq] at h
        simp only [Except.ok.injEq, Prod.mk.injEq] at h
        obtain ⟨h1, h2⟩ := h
        refine ⟨NodeRef.ModLeaf k0 v, by rw [if_pos heq], ?_⟩
        rw [← h1]
        exact RefCorr.leaf k0 v
      · rw [if_neg heq] at h
        cases hnf : new_from_leafs 0 (Leaf.mk k0 v0) (NodeRef.ModLeaf k0 v0) key v with
        | none => rw [hnf] at h; exact absurd h (by simp)
        | some p =>
          obtain ⟨nb, flag⟩ := p
          rw [hnf] at h
          dsimp only at h
          simp only [Except.ok.injEq, Prod.mk.injEq] at h
          obtain ⟨h1, h2⟩ := h
          obtain ⟨nb', hnf', hc2⟩ := refCorr_new_from_leafs stF.nodes snap 0
            (Leaf.mk k0 v0) (NodeRef.ModLeaf k0 v0) (NodeRef.ModLeaf k0 v0) key v
            (RefCorr.leaf k0 v0) nb flag hnf
          obtain rfl : nb' = nb := by
            rw [hnf] at hnf'
            exact ((Prod.mk.injEq _ _ _ _).mp (Option.some.inj hnf')).1.symm
          refine ⟨nb', ?_, ?_⟩
          · rw [if_neg heq]
          · rw [← h1]
            exact hc2
    | stored j i hji =>
      simp only [Txn.insert_node] at h ⊢
      simp only [Bind.bind, Except.bind] at h ⊢
      cases hg : SnapshotBuilder.get_node st j with
      | error e =>
        rw [show builderStore.get_node st j = Except.error e from hg] at h
        exact absurd h (by simp)
      | ok p =>
        obtain ⟨node, st'⟩ := p
        rw [show builderStore.get_node st j = Except.ok (node, st') from hg] at h
        dsimp only at h
        have hextR : BuilderExt st' st1 := by
          cases node with
          | Branch nb =>
            dsimp only at h
            exact (insert_node_extInv vh f st' _ key v tP1 st1 h).1
          | Leaf leaf =>
            dsimp only at h
            by_cases heq : leaf.key_hash = key
            · rw [if_pos heq] at h
              simp only [Except.ok.injEq, Prod.mk.injEq] at h
              rw [h.2]
              exact builderExt_refl st1
            · rw [if_neg heq] at h
              cases hnf : new_from_leafs 0 leaf (NodeRef.Stored j) key v with
              | none => rw [hnf] at h; exact absurd h (by simp)
              | some p2 =>
                obtain ⟨nb, flag⟩ := p2
                rw [hnf] at h
                dsimp only at h
                simp only [Except.ok.injEq, Prod.mk.injEq] at h
                rw [h.2]
                exact builderExt_refl st1
        have hext' : BuilderExt st' stF := builderExt_trans hextR hext
        rcases sim_store_get stF snap hg hext' hji with
          ⟨b, bs, hnb, hvget, hm, hp, hpf, hclc, hcrc⟩ | ⟨lf, hnl, hvget⟩
        · subst hnb
          dsimp only at h
          rw [snapshotStore_get vh snap hvget]
          dsimp only
          have hcorr2 : RefCorr stF.nodes snap
              (NodeRef.ModBranch (NodeRef.Stored b.left) (NodeRef.Stored b.right)
                b.mask b.prior_word b.prefixWords)
              (NodeRef.ModBranch (NodeRef.Stored bs.left) (NodeRef.Stored bs.right)
                bs.mask bs.prior_word bs.prefixWords) := by
            rw [hm, hp, hpf]
            exact RefCorr.branch _ _ _ _ _ _ _
              (RefCorr.stored _ _ hclc) (RefCorr.stored _ _ hcrc)
          exact ih _ _ hcorr2 st' key v tP1 st1 h hext
        · subst hnl
          dsimp only at h
          rw [snapshotStore_get vh snap hvget]
          dsimp only
          by_cases heq : lf.key_hash = key
          · rw [if_pos heq] at h
            simp only [Except.ok.injEq, Prod.mk.injEq] at h
            obtain ⟨h1, h2⟩ := h
            refine ⟨NodeRef.ModLeaf key v, ?_, ?_⟩
            · rw [if_pos heq]
            · rw [← h1]
              exact RefCorr.leaf key v
          · rw [if_neg heq] at h
            rw [if_neg heq]
            cases hnf : new_from_leafs 0 lf (NodeRef.Stored j) key v with
            | none => rw [hnf] at h; exact absurd h (by simp)
            | some p2 =>
              obtain ⟨nb, flag⟩ := p2
              rw [hnf] at h
              dsimp only at h
              simp only [Except.ok.injEq, Prod.mk.injEq] at h
              obtain ⟨h1, h2⟩ := h
              obtain ⟨nb', hnf', hc2⟩ := refCorr_new_from_leafs stF.nodes snap 0
                lf (NodeRef.Stored j) (NodeRef.Stored i) key v
                (RefCorr.stored j i hji) nb flag hnf
              refine ⟨nb', ?_, ?_⟩
              · rw [hnf']
              · rw [← h1]
                exact hc2

theorem sim_get_root {V : Type} (vh : V → List Nat) (stF : SnapshotBuilder V)
    (snap : Snapshot V) (fuel : Nat) (rootP rootV : TrieRoot (NodeRef V))
    (hroot : RootCorr stF.nodes snap rootP rootV)
    (st : SnapshotBuilder V) (key : KeyHash) (res : Option V) (st1 : SnapshotBuilder V)
    (h : Txn.get builderStore fuel st rootP key = Except.ok (res, st1))
    (hext : BuilderExt st1 stF) :
    Txn.get (snapshotStore vh snap) fuel () rootV key = Except.ok (res, ()) := by
  cases hroot with
  | empty =>
    simp only [Txn.get, Except.ok.injEq, Prod.mk.injEq] at h
    obtain ⟨h1, h2⟩ := h
    simp only [Txn.get]
    rw [← h1]
  | node tP tV hc =>
    simp only [Txn.get] at h ⊢
    exact sim_get_node vh stF snap fuel tP tV hc st key res st1 h hext

theorem sim_insert_root {V : Type} (vh : V → List Nat) (stF : SnapshotBuilder V)
    (snap : Snapshot V) (fuel : Nat) (rootP rootV : TrieRoot (NodeRef V))
    (hroot : RootCorr stF.nodes snap rootP rootV)
    (st : SnapshotBuilder V) (key : KeyHash) (v : V) (rootP1 : TrieRoot (NodeRef V))
    (st1 : SnapshotBuilder V)
    (h : Txn.insert builderStore fuel st rootP key v = Except.ok (rootP1, st1))
    (hext : BuilderExt st1 stF) :
    ∃ rootV1, Txn.insert (snapshotStore vh snap) fuel () rootV key v =
      Except.ok (rootV1, ()) ∧ RootCorr stF.nodes snap rootP1 rootV1 := by
  cases hroot with
  | empty =>
    simp only [Txn.insert, Except.ok.injEq, Prod.mk.injEq] at h
    obtain ⟨h1, h2⟩ := h
    refine ⟨TrieRoot.Node (NodeRef.ModLeaf key v), rfl, ?_⟩
    rw [← h1]
    exact RootCorr.node _ _ (RefCorr.leaf key v)
  | node tP tV hc =>
    simp only [Txn.insert, Bind.bind, Except.bind] at h ⊢
    cases hrec : Txn.insert_node builderStore fuel st tP key v with
    | error e => rw [hrec] at h; exact absurd h (by simp)
    | ok p =>
      obtain ⟨t2, st'⟩ := p
      rw [hrec] at h
      simp only [Except.ok.injEq, Prod.mk.injEq] at h
      obtain ⟨h1, h2⟩ := h
      obtain ⟨t2', hv, hc2⟩ := sim_insert_node vh stF snap fuel tP tV hc st key v t2 st1
        (by rw [← h2]; exact hrec) hext
      refine ⟨TrieRoot.Node t2', ?_, ?_⟩
      · rw [hv]
      · rw [← h1]
        exact RootCorr.node _ _ hc2

theorem sim_runOps {V : Type} (vh : V → List Nat) (stF : SnapshotBuilder V)
    (snap : Snapshot V) (fuel : Nat) :
    ∀ (ops : List (Op V)) (rootP rootV : TrieRoot (NodeRef V)) (st : SnapshotBuilder V)
      (outs : List (Option V)) (rootP1 : TrieRoot (NodeRef V)) (st1 : SnapshotBuilder V),
      RootCorr stF.nodes snap rootP rootV →
      runOps builderStore fuel ops rootP st = Except.ok (outs, rootP1, st1) →
      BuilderExt st1 stF →
      ∃ rootV1, runOps (snapshotStore vh snap) fuel ops rootV () =
        Except.ok (outs, rootV1, ()) ∧ RootCorr stF.nodes snap rootP1 rootV1 := by
  intro ops
  induction ops with
  | nil =>
    intro rootP rootV st outs rootP1 st1 hroot h hext
    simp only [runOps, Except.ok.injEq, Prod.mk.injEq] at h
    obtain ⟨h1, h2, h3⟩ := h
    refine ⟨rootV, ?_, by rw [← h2]; exact hroot⟩
    simp only [runOps]
    rw [← h1]
  | cons op ops ihops =>
    intro rootP rootV st outs rootP1 st1 hroot h hext
    cases op with
    | get key =>
      simp only [runOps, Bind.bind, Except.bind] at h ⊢
      cases hg : Txn.get builderStore fuel st rootP key with
      | error e => rw [hg] at h; exact absurd h (by simp)
      | ok p =>
        obtain ⟨out, st'⟩ := p
        rw [hg] at h
        dsimp only at h
        cases hrest : runOps builderStore fuel ops rootP st' with
        | error e => rw [hrest] at h; exact absurd h (by simp)
        | ok p2 =>
          obtain ⟨outs2, root2, st2⟩ := p2
          rw [hrest] at h
          simp only [Except.ok.injEq, Prod.mk.injEq] at h
          obtain ⟨h1, h2, h3⟩ := h
          subst h1
          subst h2
          subst h3
          have hextR : BuilderExt st' st2 :=
            (runOps_extInv vh fuel ops rootP st' outs2 root2 st2 hrest).1
          have hget := sim_get_root vh stF snap fuel rootP rootV hroot st key out st'
            hg (builderExt_trans hextR hext)
          obtain ⟨rootV1, hvrest, hrc⟩ := ihops rootP rootV st' outs2 root2 st2 hroot
            hrest hext
          refine ⟨rootV1, ?_, hrc⟩
          rw [hget]
          dsimp only
          rw [hvrest]
    | insert key v =>
      simp only [runOps, Bind.bind, Except.bind] at h ⊢
      cases hg : Txn.insert builderStore fuel st rootP key v with
      | error e => rw [hg] at h; exact absurd h (by simp)
      | ok p =>
        obtain ⟨root2, st'⟩ := p
        rw [hg] at h
        dsimp only at h
        have hextR : BuilderExt st' st1 :=
          (runOps_extInv vh fuel ops root2 st' outs rootP1 st1 h).1
        obtain ⟨rootV2, hvins, hrc2⟩ := sim_insert_root vh stF snap fuel rootP rootV
          hroot st key v root2 st' hg (builderExt_trans hextR hext)
        obtain ⟨rootV1, hvrest, hrc⟩ := ihops root2 rootV2 st' outs rootP1 st1 hrc2
          h hext
        rw [hvins]
        dsimp only
        rw [hvrest]
        exact ⟨rootV1, rfl, hrc⟩

theorem builder_calc_subtree_ok {V : Type} {st : SnapshotBuilder V} {j : Nat}
    {hash : NodeHash} (h : st.calc_subtree_hash j = Except.ok hash) :
    ∃ e2, st.nodes.get? j = some (hash, e2) := by
  unfold SnapshotBuilder.calc_subtree_hash at h
  cases hk : st.nodes.get? j with
  | none => rw [hk] at h; exact absurd h (by simp)
  | some e =>
    rw [hk] at h
    obtain ⟨h0, e2⟩ := e
    dsimp only at h
    obtain rfl : h0 = hash := Except.ok.inj h
    exact ⟨e2, rfl⟩

theorem sim_calc_node {V : Type} (vh : V → List Nat) (stF : SnapshotBuilder V)
    (snap : Snapshot V) (hagree : arenaHashAgree vh stF.nodes) :
    ∀ (tP tV : NodeRef V), RefCorr stF.nodes snap tP tV →
      ∀ (hasher : HasherState) (res : NodeHash) (h2 : HasherState),
        Txn.calc_root_hash_node builderStore vh (fun a _ _ => Except.ok a)
          (fun a _ _ _ _ _ _ => Except.ok a) stF tP hasher () =
            Except.ok (res, h2, ()) →
        Txn.calc_root_hash_node (snapshotStore vh snap) vh (fun a _ _ => Except.ok a)
          (fun a _ _ _ _ _ _ => Except.ok a) () tV hasher () =
            Except.ok (res, h2, ()) := by
  intro tP tV hcorr
  induction hcorr with
  | branch l r l' r' mask pw pfx hcl hcr ihl ihr =>
    intro hasher res h2 h
    simp only [Txn.calc_root_hash_node] at h ⊢
    cases hL : Txn.calc_root_hash_node builderStore vh _ _ stF l hasher () with
    | error e => rw [hL] at h; exact absurd h (by simp [Bind.bind, Except.bind])
    | ok pL =>
      obtain ⟨lh, hs1, u1⟩ := pL
      obtain rfl : u1 = () := rfl
      rw [hL] at h
      simp only [Bind.bind, Except.bind] at h ⊢
      cases hR : Txn.calc_root_hash_node builderStore vh _ _ stF r hs1 () with
      | error e => rw [hR] at h; exact absurd h (by simp)
      | ok pR =>
        obtain ⟨rh, hs2, u2⟩ := pR
        obtain rfl : u2 = () := rfl
        rw [hR] at h
        dsimp only at h
        rw [ihl hasher lh hs1 hL]
        dsimp only
        rw [ihr hs1 rh hs2 hR]
        dsimp only
        exact h
  | leaf k v =>
    intro hasher res h2 h
    exact h
  | stored j i hji =>
    intro hasher res h2 h
    simp only [Txn.calc_root_hash_node] at h ⊢
    cases hc : SnapshotBuilder.calc_subtree_hash stF j with
    | error e =>
      rw [show builderStore.calc_subtree_hash stF j = Except.error e from hc] at h
      exact absurd h (by simp [Bind.bind, Except.bind])
    | ok hash =>
      rw [show builderStore.calc_subtree_hash stF j = Except.ok hash from hc] at h
      simp only [Bind.bind, Except.bind] at h ⊢
      obtain ⟨e2, hentry⟩ := builder_calc_subtree_ok hc
      have hv : snap.calc_subtree_hash vh (snap.branches.length + 1) i =
          Except.ok hash := by
        refine corr_calc_hash vh stF snap hagree (snap.branches.length + 1) j i hji
          ?_ ?_ hash e2 hentry
        · intro hlt
          omega
        · intro _
          omega
      rw [show (snapshotStore vh snap).calc_subtree_hash () i =
        snap.calc_subtree_hash vh (snap.branches.length + 1) i from rfl, hv]
      exact h

theorem sim_calc_root_hash {V : Type} (vh : V → List Nat) (stF : SnapshotBuilder V)
    (snap : Snapshot V) (hagree : arenaHashAgree vh stF.nodes)
    (rootP rootV : TrieRoot (NodeRef V)) (hroot : RootCorr stF.nodes snap rootP rootV)
    (hasher : HasherState) (res : TrieRoot NodeHash)
    (h : Txn.calc_root_hash builderStore vh stF rootP hasher = Except.ok res) :
    Txn.calc_root_hash (snapshotStore vh snap) vh () rootV hasher = Except.ok res := by
  cases hroot with
  | empty => exact h
  | node tP tV hc =>
    simp only [Txn.calc_root_hash, Txn.calc_root_hash_inner, Bind.bind, Except.bind]
      at h ⊢
    cases hrun : Txn.calc_root_hash_node builderStore vh _ _ stF tP hasher () with
    | error e => rw [hrun] at h; exact absurd h (by simp)
    | ok p =>
      obtain ⟨hash, hs, u⟩ := p
      obtain rfl : u = () := rfl
      rw [hrun] at h
      rw [sim_calc_node vh stF snap hagree tP tV hc hasher hash hs hrun]
      exact h

theorem get_node_arena_nonempty {V : Type} {st : SnapshotBuilder V} {idx : Nat}
    {n : Node (Branch Nat) (Leaf V)} {st' : SnapshotBuilder V}
    (h : SnapshotBuilder.get_node st idx = Except.ok (n, st')) : st.nodes ≠ [] := by
  intro hnil
  unfold SnapshotBuilder.get_node at h
  rw [hnil] at h
  exact absurd h (by simp)

theorem get_stored_node_nil {V : Type} (fuel : Nat) (st : SnapshotBuilder V) (j : Nat)
    (key : KeyHash) (res : Option V) (st1 : SnapshotBuilder V)
    (h : Txn.get_stored_node builderStore fuel st j key = Except.ok (res, st1))
    (hnil : st.nodes = []) : False := by
  cases fuel with
  | zero => exact absurd h (by simp [Txn.get_stored_node])
  | succ f =>
    simp only [Txn.get_stored_node] at h
    cases hg : SnapshotBuilder.get_node st j with
    | error e =>
      rw [show builderStore.get_node st j = Except.error e from hg] at h
      exact absurd h (by simp [Bind.bind, Except.bind])
    | ok p =>
      exact get_node_arena_nonempty hg hnil

theorem get_node_trie_nil {V : Type} (fuel : Nat) :
    ∀ (t : NodeRef V) (st : SnapshotBuilder V) (key : KeyHash) (res : Option V)
      (st1 : SnapshotBuilder V),
      Txn.get_node builderStore fuel st t key = Except.ok (res, st1) →
      st.nodes = [] → st1.nodes = [] := by
  intro t
  induction t with
  | ModBranch l r mask pw pfx ihl ihr =>
    intro st key res st1 h hnil
    simp only [Txn.get_node] at h
    cases hkp : key_position mask pw pfx key with
    | Left => rw [hkp] at h; exact ihl st key res st1 h hnil
    | Right => rw [hkp] at h; exact ihr st key res st1 h hnil
    | Adjacent pos =>
      rw [hkp] at h
      simp only [Except.ok.injEq, Prod.mk.injEq] at h
      rw [← h.2]
      exact hnil
  | ModLeaf k v =>
    intro st key res st1 h hnil
    simp only [Txn.get_node] at h
    split at h <;>
      (simp only [Except.ok.injEq, Prod.mk.injEq] at h
       rw [← h.2]
       exact hnil)
  | Stored idx =>
    intro st key res st1 h hnil
    exact absurd hnil (fun hh => get_stored_node_nil fuel st idx key res st1 h hh)

theorem insert_node_nil {V : Type} :
    ∀ fuel (st : SnapshotBuilder V) (t : NodeRef V) (key : KeyHash) (v : V)
      (t1 : NodeRef V) (st1 : SnapshotBuilder V),
      Txn.insert_node builderStore fuel st t key v = Except.ok (t1, st1) →
      st.nodes = [] → st1.nodes = [] := by
  intro fuel
  induction fuel with
  | zero =>
    intro st t key v t1 st1 h hnil
    exact absurd h (by simp [Txn.insert_node])
  | succ f ih =>
    intro st t key v t1 st1 h hnil
    simp only [Txn.insert_node] at h
    cases t with
    | ModBranch l r mask pw pfx =>
      dsimp only at h
      cases hkp : key_position mask pw pfx key with
      | Left =>
        rw [hkp] at h
        simp only [Bind.bind, Except.bind] at h
        cases hrec : Txn.insert_node builderStore f st l key v with
        | error e => rw [hrec] at h; exact absurd h (by simp)
        | ok p =>
          obtain ⟨l2, st'⟩ := p
          rw [hrec] at h
          simp only [Except.ok.injEq, Prod.mk.injEq] at h
          rw [← h.2]
          exact ih st l key v l2 st' hrec hnil
      | Right =>
        rw [hkp] at h
        simp only [Bind.bind, Except.bind] at h
        cases hrec : Txn.insert_node builderStore f st r key v with
        | error e => rw [hrec] at h; exact absurd h (by simp)
        | ok p =>
          obtain ⟨r2, st'⟩ := p
          rw [hrec] at h
          simp only [Except.ok.injEq, Prod.mk.injEq] at h
          rw [← h.2]
          exact ih st r key v r2 st' hrec hnil
      | Adjacent pos =>
        rw [hkp] at h
        simp only [Except.ok.injEq, Prod.mk.injEq] at h
        rw [← h.2]
        exact hnil
    | ModLeaf lk lv =>
      dsimp only at h
      by_cases heq : lk = key
      · rw [if_pos heq] at h
        simp only [Except.ok.injEq, Prod.mk.injEq] at h
        rw [← h.2]
        exact hnil
      · rw [if_neg heq] at h
        cases hnf : new_from_leafs 0 (Leaf.mk lk lv) (NodeRef.ModLeaf lk lv) key v with
        | none => rw [hnf] at h; exact absurd h (by simp)
        | some p =>
          obtain ⟨nb, flag⟩ := p
          rw [hnf] at h
          dsimp only at h
          simp only [Except.ok.injEq, Prod.mk.injEq] at h
          rw [← h.2]
          exact hnil
    | Stored idx =>
      dsimp only at h
      simp only [Bind.bind, Except.bind] at h
      cases hg : SnapshotBuilder.get_node st idx with
      | error e =>
        rw [show builderStore.get_node st idx = Except.error e from hg] at h
        exact absurd h (by simp)
      | ok p =>
        exact absurd hnil (get_node_arena_nonempty hg)

theorem runOps_nil {V : Type} (fuel : Nat) :
    ∀ (ops : List (Op V)) (root : TrieRoot (NodeRef V)) (st : SnapshotBuilder V)
      (outs : List (Option V)) (root1 : TrieRoot (NodeRef V)) (st1 : SnapshotBuilder V),
      runOps builderStore fuel ops root st = Except.ok (outs, root1, st1) →
      st.nodes = [] → st1.nodes = [] := by
  intro ops
  induction ops with
  | nil =>
    intro root st outs root1 st1 h hnil
    simp only [runOps, Except.ok.injEq, Prod.mk.injEq] at h
    rw [← h.2.2]
    exact hnil
  | cons op ops ihops =>
    intro root st outs root1 st1 h hnil
    cases op with
    | get key =>
      simp only [runOps, Bind.bind, Except.bind] at h
      cases hg : Txn.get builderStore fuel st root key with
      | error e => rw [hg] at h; exact absurd h (by simp)
      | ok p =>
        obtain ⟨out, st'⟩ := p
        rw [hg] at h
        dsimp only at h
        cases hrest : runOps builderStore fuel ops root st' with
        | error e => rw [hrest] at h; exact absurd h (by simp)
        | ok p2 =>
          obtain ⟨outs2, root2, st2⟩ := p2
          rw [hrest] at h
          simp only [Except.ok.injEq, Prod.mk.injEq] at h
          have hnil' : st'.nodes = [] := by
            unfold Txn.get at hg
            cases root with
            | Empty =>
              simp only [Except.ok.injEq, Prod.mk.injEq] at hg
              rw [← hg.2]
              exact hnil
            | Node t => exact get_node_trie_nil fuel t st key out st' hg hnil
          rw [← h.2.2]
          exact ihops root st' outs2 root2 st2 hrest hnil'
    | insert key v =>
      simp only [runOps, Bind.bind, Except.bind] at h
      cases hg : Txn.insert builderStore fuel st root key v with
      | error e => rw [hg] at h; exact absurd h (by simp)
      | ok p =>
        obtain ⟨root2, st'⟩ := p
        rw [hg] at h
        dsimp only at h
        have hnil' : st'.nodes = [] := by
          unfold Txn.insert at hg
          cases root with
          | Empty =>
            simp only [Except.ok.injEq, Prod.mk.injEq] at hg
            rw [← hg.2]
            exact hnil
          | Node t =>
            simp only [Bind.bind, Except.bind] at hg
            cases hrec : Txn.insert_node builderStore fuel st t key v with
            | error e => rw [hrec] at hg; exact absurd hg (by simp)
            | ok p2 =>
              obtain ⟨t2, st2⟩ := p2
              rw [hrec] at hg
              simp only [Except.ok.injEq, Prod.mk.injEq] at hg
              rw [← hg.2]
              exact insert_node_nil fuel st t key v t2 st2 hrec hnil
        exact ihops root2 st' outs root1 st1 h hnil'
theorem binv_seed {V : Type} (vh : V → List Nat) (db : DbModel V) (h0 : NodeHash)
    (hdb : DbConsistent vh db) :
    BInv vh (SnapshotBuilder.mk db [(h0, none)]) := by
  refine ⟨?_, ?_, hdb, Or.inr ⟨[0], rfl, ?_⟩⟩
  · intro j h b hj
    cases j with
    | zero => exact absurd (congrArg Prod.snd (Option.some.inj hj)) (by simp)
    | succ m => exact absurd hj (by cases m <;> simp [List.get?])
  · intro j h n hj
    cases j with
    | zero => exact absurd (congrArg Prod.snd (Option.some.inj hj)) (by simp)
    | succ m => exact absurd hj (by cases m <;> simp [List.get?])
  · show List.Perm [0] (List.range 1)
    decide

/-- Claim C1: running a sequence of operations through a transaction over a
`SnapshotBuilder` seeded with an old root hash, then materializing the
snapshot, yields a snapshot the verifier can replay: the snapshot's own
root hash recomputation returns the old root, `from_snapshot` opens a
verifier transaction, replaying the same operations over the snapshot
store produces the same outputs, and the final root hash calculation
returns the same new root as the prover's. -/
theorem prover_verifier_agreement {V : Type} (vh : V → List Nat) (db : DbModel V)
    (old_root : TrieRoot NodeHash) (S : List (Op V)) (fuel : Nat) (hasher : HasherState)
    (stF : SnapshotBuilder V) (outs : List (Option V)) (rootP : TrieRoot (NodeRef V))
    (snap : Snapshot V) (new_root : TrieRoot NodeHash)
    (hdb : DbConsistent vh db)
    (hrun : runOps builderStore fuel S
        ((SnapshotBuilder.empty db).with_trie_root_hash old_root).trie_root
        ((SnapshotBuilder.empty db).with_trie_root_hash old_root) =
      Except.ok (outs, rootP, stF))
    (hbound : stF.nodes.length < 2 ^ 32)
    (hsnap : stF.build_initial_snapshot = some snap)
    (hnew : Txn.calc_root_hash builderStore vh stF rootP hasher = Except.ok new_root) :
    snap.calc_root_hash vh = Except.ok old_root ∧
    ∃ rootV rootV1,
      from_snapshot snap = Except.ok rootV ∧
      runOps (snapshotStore vh snap) fuel S rootV () = Except.ok (outs, rootV1, ()) ∧
      Txn.calc_root_hash (snapshotStore vh snap) vh () rootV1 hasher =
        Except.ok new_root := by
  cases old_root with
  | Empty =>
    have hrun1 : runOps builderStore fuel S TrieRoot.Empty (SnapshotBuilder.empty db) =
        Except.ok (outs, rootP, stF) := hrun
    have hnil : stF.nodes = [] :=
      runOps_nil fuel S TrieRoot.Empty (SnapshotBuilder.empty db) outs rootP stF hrun1 rfl
    have hsnapeq : some ({ branches := [], leaves := [], unvisited_nodes := [] } :
        Snapshot V) = some snap := by
      rw [← hsnap]
      unfold SnapshotBuilder.build_initial_snapshot
      rw [hnil]
      rfl
    obtain rfl : ({ branches := [], leaves := [], unvisited_nodes := [] } : Snapshot V) =
        snap := Option.some.inj hsnapeq
    refine ⟨rfl, ?_⟩
    have hagree : arenaHashAgree vh stF.nodes := by
      intro j h n hj
      rw [hnil, List.get?_nil] at hj
      exact Option.noConfusion hj
    obtain ⟨rootV1, hvrun, hrc1⟩ :=
      sim_runOps vh stF { branches := [], leaves := [], unvisited_nodes := [] } fuel S
        TrieRoot.Empty TrieRoot.Empty (SnapshotBuilder.empty db) outs rootP stF
        RootCorr.empty hrun1 (builderExt_refl stF)
    exact ⟨TrieRoot.Empty, rootV1, rfl, hvrun,
      sim_calc_root_hash vh stF _ hagree rootP rootV1 hrc1 hasher new_root hnew⟩
  | Node h0 =>
    have hseed : (SnapshotBuilder.empty db).with_trie_root_hash (TrieRoot.Node h0) =
        SnapshotBuilder.mk db [(h0, none)] := rfl
    rw [hseed] at hrun
    have htr : (SnapshotBuilder.mk db [(h0, none)]).trie_root =
        TrieRoot.Node (NodeRef.Stored 0) := rfl
    rw [htr] at hrun
    obtain ⟨hext0F, hinv⟩ := runOps_extInv vh fuel S (TrieRoot.Node (NodeRef.Stored 0))
      (SnapshotBuilder.mk db [(h0, none)]) outs rootP stF hrun
    obtain ⟨hbndF, hagreeF, hdbF, hvaF⟩ :=
      hinv (Nat.le_of_lt hbound) (binv_seed vh db h0 hdb)
    have hne : stF.nodes ≠ [] := by
      intro hcon
      have hlen := hext0F.2.1
      rw [hcon] at hlen
      exact absurd hlen (by simp)
    obtain ⟨ri, hcorr0, hrootidx⟩ := build_corr stF snap hvaF hbound hne hsnap
    obtain ⟨e', hF0, hfst, _⟩ := hext0F.2.2 0 (h0, none) rfl
    obtain ⟨eh, e2⟩ := e'
    have heh : eh = h0 := hfst
    rw [heh] at hF0
    have hcalc : snap.calc_subtree_hash vh (snap.branches.length + 1) ri = Except.ok h0 :=
      corr_calc_hash vh stF snap hagreeF (snap.branches.length + 1) 0 ri hcorr0
        (fun _ => by omega) (fun _ => by omega) h0 e2 hF0
    have hpart1 : snap.calc_root_hash vh = Except.ok (TrieRoot.Node h0) := by
      unfold Snapshot.calc_root_hash
      rw [hrootidx]
      show (do
        Except.ok (TrieRoot.Node
          (← snap.calc_subtree_hash vh (snap.branches.length + 1) ri)) :
        Except String (TrieRoot NodeHash)) = _
      rw [hcalc]
      rfl
    refine ⟨hpart1, TrieRoot.Node (NodeRef.Stored ri), ?_⟩
    have hrc0 : RootCorr stF.nodes snap (TrieRoot.Node (NodeRef.Stored 0))
        (TrieRoot.Node (NodeRef.Stored ri)) :=
      RootCorr.node _ _ (RefCorr.stored 0 ri hcorr0)
    obtain ⟨rootV1, hvrun, hrc1⟩ :=
      sim_runOps vh stF snap fuel S (TrieRoot.Node (NodeRef.Stored 0))
        (TrieRoot.Node (NodeRef.Stored ri)) (SnapshotBuilder.mk db [(h0, none)])
        outs rootP stF hrc0 hrun (builderExt_refl stF)
    exact ⟨rootV1, trie_root_of_idx_node snap ri hrootidx, hvrun,
      sim_calc_root_hash vh stF snap hagreeF rootP rootV1 hrc1 hasher new_root hnew⟩
theorem exDbConsistent : DbConsistent exVh exDb := by
  intro h n hdb
  unfold exDb at hdb
  split_ifs at hdb with h1 h2 h3
  · subst h1
    rw [← Option.some.inj hdb]
    rfl
  · subst h2
    rw [← Option.some.inj hdb]
    rfl
  · subst h3
    rw [← Option.some.inj hdb]
    rfl

/-- Operations of the concrete C1 run: a get of each example key. -/
def exC1Ops : List (Op Nat) := [Op.get exLeafA.key_hash, Op.get exLeafB.key_hash]

/-- Builder seeded with the example root hash over the example database. -/
def exC1Seed : SnapshotBuilder Nat :=
  (SnapshotBuilder.empty exDb).with_trie_root_hash (TrieRoot.Node exHashRoot)

/-- The concrete C1 prover run. -/
def exC1Run : Except String (List (Option Nat) × TrieRoot (NodeRef Nat) × SnapshotBuilder Nat) :=
  runOps builderStore 20 exC1Ops exC1Seed.trie_root exC1Seed

/-- Final builder state of the concrete C1 run. -/
def exC1StF : SnapshotBuilder Nat :=
  match exC1Run with
  | Except.ok (_, _, st) => st
  | Except.error _ => SnapshotBuilder.empty exDb

/-- Snapshot materialized from the concrete C1 run. -/
def exC1Snap : Snapshot Nat := exC1StF.build_initial_snapshot.getD exEmptySnapshot

theorem prover_verifier_agreement_witness :
    Snapshot.calc_root_hash exVh exC1Snap = Except.ok (TrieRoot.Node exHashRoot) ∧
    ∃ rootV rootV1,
      from_snapshot exC1Snap = Except.ok rootV ∧
      runOps (snapshotStore exVh exC1Snap) 20 exC1Ops rootV () =
        Except.ok ([some 10, some 11], rootV1, ()) ∧
      Txn.calc_root_hash (snapshotStore exVh exC1Snap) exVh () rootV1 [] =
        Except.ok (TrieRoot.Node exHashRoot) :=
  prover_verifier_agreement exVh exDb (TrieRoot.Node exHashRoot) exC1Ops 20 []
    exC1StF [some 10, some 11] (TrieRoot.Node (NodeRef.Stored 0)) exC1Snap
    (TrieRoot.Node exHashRoot) exDbConsistent rfl (by decide) rfl rfl
